import Mathlib

/-!
ForwardCom emulator, single-format instruction handlers (`emulator5.cpp`).

A shallow embedding of the handlers of `src/emulator5.cpp` and theorems about them.

Conventions of the embedding:
* machine integers are natural numbers; every place where the C++ code truncates
  (a cast, an unsigned wrap-around, a store of a narrower type) is an explicit `%`;
* signed comparisons that C++ carries out after integer promotion to `int` are
  carried out in `Int`;
* the vector register file is the flat byte buffer `vectors`, register `r` starting at
  byte `r * MaxVectorLength`; multi-byte accesses are little-endian;
* `t->interrupt(k)` appends `k` to the list `interrupts` and the handler goes on.
-/

namespace ForwardCom

/-! Data model -/

/-- One byte of vector storage. -/
abbrev Byte := Fin 256

/-- Conversion of an integer value to `uint8_t` (truncation). -/
def toByte (n : Nat) : Byte := ⟨n % 256, Nat.mod_lt _ (by decide)⟩

/-- Interrupt kinds raised by the handlers. -/
inductive Interrupt where
  | INT_INST_ILLEGAL
  | INT_OVERFL_SIGN
  | INT_OVERFL_UNSIGN
  | INT_OVERFL_FLOAT
  | INT_FLOAT_INVALID
  deriving DecidableEq, Repr

/-- Modelled from the spec: the table `dataSizeTable` is declared outside src/; it gives the
byte width of each operand type, (1,2,4,8,16,4,8) for the types 0..6. -/
def dataSizeTable : Nat → Nat
  | 0 => 1
  | 1 => 2
  | 2 => 4
  | 3 => 8
  | 4 => 16
  | 5 => 4
  | 6 => 8
  | _ => 0

/-- Modelled from the spec: the table `dataSizeTableLog` is declared outside src/; it gives
log2 of the byte width of each operand type. -/
def dataSizeTableLog : Nat → Nat
  | 0 => 0
  | 1 => 1
  | 2 => 2
  | 3 => 3
  | 4 => 4
  | 5 => 2
  | 6 => 3
  | _ => 0

/-- Modelled from the spec: the table `dataSizeMask` is declared outside src/; it gives the
low-bits mask of the logical width of each operand type inside the 64-bit scalar cell. -/
def dataSizeMask : Nat → Nat
  | 0 => 0xFF
  | 1 => 0xFFFF
  | 2 => 0xFFFFFFFF
  | 3 => 0xFFFFFFFFFFFFFFFF
  | 4 => 0xFFFFFFFFFFFFFFFF
  | 5 => 0xFFFFFFFF
  | 6 => 0xFFFFFFFFFFFFFFFF
  | _ => 0

/-- Modelled from the spec: the table `dataSizeTableBits` is declared outside src/; it gives
the bit width of each operand type. -/
def dataSizeTableBits : Nat → Nat
  | 0 => 8
  | 1 => 16
  | 2 => 32
  | 3 => 64
  | 4 => 128
  | 5 => 32
  | 6 => 64
  | _ => 0

/-- Modelled from the spec: the constant `sign_f` is declared outside src/; it is the sign
bit of a 32-bit pattern. -/
def sign_f : Nat := 0x80000000

/-- Modelled from the spec: the constant `sign_d` is declared outside src/; it is the sign
bit of a 64-bit pattern. -/
def sign_d : Nat := 0x8000000000000000

/-- Modelled from the spec: the constant `nan_f` is declared outside src/; it is the bit
pattern of a quiet NaN of single precision. -/
def nan_f : Nat := 0x7FC00000

/-- Modelled from the spec: the constant `nan_d` is declared outside src/; it is the bit
pattern of a quiet NaN of double precision. -/
def nan_d : Nat := 0x7FF8000000000000

/-- Modelled from the spec: the constant `nsign_d` is declared outside src/; it is the 64-bit
pattern with every bit but the sign bit set, the largest signed 64-bit value. -/
def nsign_d : Nat := 0x7FFFFFFFFFFFFFFF

/-- Declarations from outside src/ whose values the handlers only use, and floating point
computations: the bits of the options mask, the floating point conversions on bit patterns,
and the tests `fabs((double)a * (double)b - (double)result) > 1.E8` of the 64-bit multiply
handlers (on the signed and on the unsigned views of `a`, `b`, `result`). They are parameters
of the embedding. So are the results that C++ leaves undefined: `shlOver x n`, `shrOver x n`,
`sarOver x n` are the 64-bit patterns of `x << n`, of the unsigned `x >> n` and of the signed
`x >> n` for a count `n` of 64 or more, and `sqrtOfNegative x` is the integer that the
conversion of `sqrt(x)` gives for a negative integer `x` (a NaN). `ltZero_f`, `ltZero_d` are the
comparisons `a.f < 0`, `a.d < 0` and `sqrt_f`, `sqrt_d` the square roots, on bit patterns. -/
structure Env where
  MSK_OVERFL_I : Nat
  MSK_OVERFL_SIGN : Nat
  MSK_OVERFL_UNSIGN : Nat
  MSK_OVERFL_FLOAT : Nat
  MSK_OVERFL_ALL : Nat
  MSK_FLOAT_INVALID : Nat
  float2half : Nat → Nat
  half2float : Nat → Nat
  double2float : Nat → Nat
  float2double : Nat → Nat
  isinf_f : Nat → Bool
  isinf_d : Nat → Bool
  mulCheckSigned64 : Nat → Nat → Nat → Bool
  mulCheckUnsigned64 : Nat → Nat → Nat → Bool
  shlOver : Nat → Nat → Nat
  shrOver : Nat → Nat → Nat
  sarOver : Nat → Nat → Nat
  sqrtOfNegative : Int → Nat
  ltZero_f : Nat → Bool
  ltZero_d : Nat → Bool
  sqrt_f : Nat → Nat
  sqrt_d : Nat → Nat

/-- The thread execution context `CThread`, restricted to the members the handlers touch.
`MaxVectorLength` is small against 2^32, so 32-bit position arithmetic bounded by it is
exact. -/
structure CThread where
  registers : Nat → Nat
  vectors : Nat → Byte
  vectorLength : Nat → Nat
  MaxVectorLength : Nat
  vectorOffset : Nat
  vectorLengthR : Nat
  operandType : Nat
  op : Nat
  operands : Nat → Nat
  parm : Nat → Nat
  numContr : Nat
  returnType : Nat
  memAddress : Nat
  vect : Nat
  running : Nat
  interrupts : List Interrupt

/-- The call `t->interrupt(k)`: the interrupt is recorded and execution goes on. -/
def CThread.interrupt (t : CThread) (k : Interrupt) : CThread :=
  { t with interrupts := t.interrupts ++ [k] }

/-! Memory primitives -/

/-- Little-endian read of `n` bytes at address `a`. -/
def readLE (m : Nat → Byte) (a : Nat) : Nat → Nat
  | 0 => 0
  | n + 1 => (m a).val + 256 * readLE m (a + 1) n

/-- Little-endian store of the low `n` bytes of `v` at address `a`. -/
def writeLE (m : Nat → Byte) (a n v : Nat) : Nat → Byte :=
  fun x => if a ≤ x ∧ x < a + n then toByte (v / 256 ^ (x - a)) else m x

/-- The call `memset(dst, val, n)`. -/
def memset (m : Nat → Byte) (dst val n : Nat) : Nat → Byte :=
  fun x => if dst ≤ x ∧ x < dst + n then toByte val else m x

/-- The call `memcpy(dst, src, n)`. The bytes copied are those the source holds before the
call (for ranges that overlap, where C leaves the result open, this is `memmove`). -/
def memcpy (m : Nat → Byte) (dst src n : Nat) : Nat → Byte :=
  fun x => if dst ≤ x ∧ x < dst + n then m (src + (x - dst)) else m x

/-- The loop `for (pos = start; pos < bound; pos += step) body`, run for at most `fuel`
iterations. -/
def forLoop {σ : Type} (bound step : Nat) (body : Nat → σ → σ) : Nat → Nat → σ → σ
  | 0, _, s => s
  | fuel + 1, pos, s =>
    if pos < bound then forLoop bound step body fuel (pos + step) (body pos s) else s

/-- Modelled from the spec: `CThread::readVectorElement` is defined outside src/. It returns
the element of the current operand type (at most 64 bits of it) at a byte offset of a vector
register; bytes at or beyond the register's length read as zero. -/
def readVectorElement (t : CThread) (v vectorOffset : Nat) : Nat :=
  readLE (fun x => if x < v * t.MaxVectorLength + t.vectorLength v then t.vectors x else 0)
    (v * t.MaxVectorLength + vectorOffset) (min 8 (dataSizeTable t.operandType))

/-- Reinterpretation of the low `w` bits of `n` as a signed (two's complement) integer. -/
def toInt (w n : Nat) : Int :=
  if n % 2 ^ w < 2 ^ (w - 1) then Int.ofNat (n % 2 ^ w) else Int.ofNat (n % 2 ^ w) - Int.ofNat (2 ^ w)

/-- Conversion of a signed value to the unsigned `w`-bit type (reduction modulo 2^w). -/
def ofInt (w : Nat) (x : Int) : Nat := (x % Int.ofNat (2 ^ w)).toNat

/-- The value a signed `w`-bit computation keeps of the exact result `x`. -/
def wrapInt (w : Nat) (x : Int) : Int := toInt w (ofInt w x)

/-! Compress and expand -/

/-- The zero fill `if (oldLength > initLength) memset(source + initLength, 0, oldLength -
initLength)` that `compress` and `expand` apply to the tail of the source register. -/
def zeroFill (m : Nat → Byte) (source initLength oldLength : Nat) : Nat → Byte :=
  if oldLength > initLength then memset m (source + initLength) 0 (oldLength - initLength)
  else m

/-- Local state of the lane loops of `compress`: the vector buffer and the flags
`overflowU2`, `overflowS2`, `overflowF2`. -/
structure CompressState where
  mem : Nat → Byte
  overflowU2 : Bool
  overflowS2 : Bool
  overflowF2 : Bool

/-- Loop body of `compress`, case 0: int8 -> int4, two nibbles packed into one byte. -/
def compressBody0 (select source destination pos : Nat) (s : CompressState) : CompressState :=
  let us := readLE s.mem (source + 2 * pos) 2
  let b0 := us % 256
  let b1 := us / 256
  let val2 := ((b0 &&& 0xF) ||| (b1 <<< 4)) % 256
  let overflowU : Bool := decide ((us &&& 0xF0F0) ≠ 0)
  let overflowS : Bool := decide ((us &&& 0x0808) * 0x1E ≠ (us &&& 0xF0F0))
  match select with
  | 0 =>
    { s with mem := writeLE s.mem (destination + pos) 1 val2,
             overflowU2 := s.overflowU2 || overflowU, overflowS2 := s.overflowS2 || overflowS }
  | 1 =>
    if overflowS then
      let b0 := if (b0 &&& 8) * 0x1E ≠ (b0 &&& 0xC0) then (7 + (b0 >>> 7)) % 256 else b0
      let b1 := if (b1 &&& 8) * 0x1E ≠ (b1 &&& 0xC0) then (7 + (b1 >>> 7)) % 256 else b1
      let val2 := ((b0 &&& 0xF) ||| (b1 <<< 4)) % 256
      { s with mem := writeLE s.mem (destination + pos) 1 val2 }
    else { s with mem := writeLE s.mem (destination + pos) 1 val2 }
  | 2 =>
    if overflowU then
      let b0 := if (b0 &&& 0xF0) ≠ 0 then 0xF else b0
      let b1 := if (b1 &&& 0xF0) ≠ 0 then 0xF else b1
      let val2 := ((b0 &&& 0xF) ||| (b1 <<< 4)) % 256
      { s with mem := writeLE s.mem (destination + pos) 1 val2 }
    else { s with mem := writeLE s.mem (destination + pos) 1 val2 }
  | _ => { s with mem := writeLE s.mem (destination + pos) 1 val2 }

/-- Loop body of `compress`, case 1: int16 -> int8. The operand `val` is a `uint16_t`, so
`val - 0xFF80 > 0xFF` is evaluated in `int` after integer promotion. -/
def compressBody1 (select source destination pos : Nat) (s : CompressState) : CompressState :=
  let val := readLE s.mem (source + 2 * pos) 2
  let overflowU : Bool := decide (val > 0xFF)
  let overflowS : Bool := decide ((val : Int) - 0xFF80 > 0xFF)
  match select with
  | 0 =>
    { s with mem := writeLE s.mem (destination + pos) 1 val,
             overflowU2 := s.overflowU2 || overflowU, overflowS2 := s.overflowS2 || overflowS }
  | 1 =>
    let val := if overflowS then (0x7F + (val >>> 15)) % 2 ^ 16 else val
    { s with mem := writeLE s.mem (destination + pos) 1 val }
  | 2 =>
    let val := if overflowU then 0xFF else val
    { s with mem := writeLE s.mem (destination + pos) 1 val }
  | _ => { s with mem := writeLE s.mem (destination + pos) 1 val }

/-- Loop body of `compress`, case 2: int32 -> int16. The subtraction is a `uint32_t` one. -/
def compressBody2 (select source destination pos : Nat) (s : CompressState) : CompressState :=
  let val := readLE s.mem (source + 2 * pos) 4
  let overflowU : Bool := decide (val > 0xFFFF)
  let overflowS : Bool := decide ((val + 2 ^ 32 - 0xFFFF8000) % 2 ^ 32 > 0xFFFF)
  match select with
  | 0 =>
    { s with mem := writeLE s.mem (destination + pos) 2 val,
             overflowU2 := s.overflowU2 || overflowU, overflowS2 := s.overflowS2 || overflowS }
  | 1 =>
    let val := if overflowS then (0x7FFF + (val >>> 31)) % 2 ^ 32 else val
    { s with mem := writeLE s.mem (destination + pos) 2 val }
  | 2 =>
    let val := if overflowU then 0xFFFF else val
    { s with mem := writeLE s.mem (destination + pos) 2 val }
  | _ => { s with mem := writeLE s.mem (destination + pos) 2 val }

/-- Loop body of `compress`, case 3: int64 -> int32. The subtraction is a `uint64_t` one. -/
def compressBody3 (select source destination pos : Nat) (s : CompressState) : CompressState :=
  let val := readLE s.mem (source + 2 * pos) 8
  let overflowU : Bool := decide (val > 0xFFFFFFFF)
  let overflowS : Bool := decide ((val + 2 ^ 64 - 0xFFFFFFFF80000000) % 2 ^ 64 > 0xFFFFFFFF)
  match select with
  | 0 =>
    { s with mem := writeLE s.mem (destination + pos) 4 val,
             overflowU2 := s.overflowU2 || overflowU, overflowS2 := s.overflowS2 || overflowS }
  | 1 =>
    let val := if overflowS then (0x7FFFFFFF + (val >>> 63)) % 2 ^ 64 else val
    { s with mem := writeLE s.mem (destination + pos) 4 val }
  | 2 =>
    let val := if overflowU then 0xFFFFFFFF else val
    { s with mem := writeLE s.mem (destination + pos) 4 val }
  | _ => { s with mem := writeLE s.mem (destination + pos) 4 val }

/-- Loop body of `compress`, case 4: int128 -> int64. -/
def compressBody4 (select source destination pos : Nat) (s : CompressState) : CompressState :=
  let valLo := readLE s.mem (source + 2 * pos) 8
  let valHi := readLE s.mem (source + 2 * pos + 8) 8
  let overflowU : Bool := decide (valHi ≠ 0)
  let overflowS : Bool :=
    if toInt 64 valLo < 0 then decide ((valHi + 1) % 2 ^ 64 ≠ 0) else decide (valHi ≠ 0)
  match select with
  | 0 =>
    { s with mem := writeLE s.mem (destination + pos) 8 valLo,
             overflowU2 := s.overflowU2 || overflowU, overflowS2 := s.overflowS2 || overflowS }
  | 1 =>
    let valLo := if overflowS then (nsign_d + (valHi >>> 63)) % 2 ^ 64 else valLo
    { s with mem := writeLE s.mem (destination + pos) 8 valLo }
  | 2 =>
    let valLo := if overflowU then 0xFFFFFFFFFFFFFFFF else valLo
    { s with mem := writeLE s.mem (destination + pos) 8 valLo }
  | _ => { s with mem := writeLE s.mem (destination + pos) 8 valLo }

/-- Loop body of `compress`, case 5: float -> float16. -/
def compressBody5 (E : Env) (source destination pos : Nat) (s : CompressState) :
    CompressState :=
  let val := readLE s.mem (source + 2 * pos) 4
  let val2 := E.float2half val % 2 ^ 16
  { s with mem := writeLE s.mem (destination + pos) 2 val2,
           overflowF2 := s.overflowF2 || (decide ((val2 &&& 0x7FFF) = 0x7C00) && !E.isinf_f val) }

/-- Loop body of `compress`, case 6: double -> float. -/
def compressBody6 (E : Env) (source destination pos : Nat) (s : CompressState) :
    CompressState :=
  let val1 := readLE s.mem (source + 2 * pos) 8
  let val2 := E.double2float val1 % 2 ^ 32
  { s with mem := writeLE s.mem (destination + pos) 4 val2,
           overflowF2 := s.overflowF2 || (E.isinf_f val2 && !E.isinf_d val1) }

/-- The lane loops of `compress` (the `switch (t->operandType)`), started on the buffer after
the zero fill of the source tail. -/
def compressLoop (E : Env) (operandType select source destination newLength : Nat)
    (s0 : CompressState) : CompressState :=
  match operandType with
  | 0 => forLoop newLength 1 (compressBody0 select source destination) newLength 0 s0
  | 1 => forLoop newLength 1 (compressBody1 select source destination) newLength 0 s0
  | 2 => forLoop newLength 2 (compressBody2 select source destination) newLength 0 s0
  | 3 => forLoop newLength 4 (compressBody3 select source destination) newLength 0 s0
  | 4 => forLoop newLength 8 (compressBody4 select source destination) newLength 0 s0
  | 5 => forLoop newLength 2 (compressBody5 E source destination) newLength 0 s0
  | 6 => forLoop newLength 4 (compressBody6 E source destination) newLength 0 s0
  | _ => s0

/-- The increment of `pos` in the lane loop of `compress` and of `expand` for each operand
type (the width of the narrow element, one byte for the nibble pairs of type 0). -/
def laneStep : Nat → Nat
  | 0 => 1
  | 1 => 1
  | 2 => 2
  | 3 => 4
  | 4 => 8
  | 5 => 2
  | 6 => 4
  | _ => 0

/-- The loop body of `compress` for each operand type. -/
def compressBody (E : Env) (operandType select source destination : Nat) :
    Nat → CompressState → CompressState :=
  match operandType with
  | 0 => compressBody0 select source destination
  | 1 => compressBody1 select source destination
  | 2 => compressBody2 select source destination
  | 3 => compressBody3 select source destination
  | 4 => compressBody4 select source destination
  | 5 => compressBody5 E source destination
  | 6 => compressBody6 E source destination
  | _ => fun _ s => s

/-- The value `compress` leaves in `returnType` (only the cases 1..6 assign it). -/
def compressReturnType (operandType old : Nat) : Nat :=
  match operandType with
  | 1 => 0x110
  | 2 => 0x111
  | 3 => 0x112
  | 4 => 0x113
  | 5 => 0x118
  | 6 => 0x115
  | _ => old

/-- The interrupts `compress` raises: an illegal selector, an illegal operand type, and after
the loop the overflow requested by the mask. -/
def compressInterrupts (E : Env) (operandType select mask : Nat) (s : CompressState) :
    List Interrupt :=
  (if select > 2 then [Interrupt.INT_INST_ILLEGAL] else []) ++
  (if operandType > 6 then [Interrupt.INT_INST_ILLEGAL] else []) ++
  (if (mask % 2 ^ 32) &&& E.MSK_OVERFL_ALL ≠ 0 then
    if (mask % 2 ^ 32) &&& E.MSK_OVERFL_SIGN ≠ 0 ∧ s.overflowS2 = true then
      [Interrupt.INT_OVERFL_SIGN]
    else if (mask % 2 ^ 32) &&& E.MSK_OVERFL_UNSIGN ≠ 0 ∧ s.overflowU2 = true then
      [Interrupt.INT_OVERFL_UNSIGN]
    else if (mask % 2 ^ 32) &&& E.MSK_OVERFL_FLOAT ≠ 0 ∧ s.overflowF2 = true then
      [Interrupt.INT_OVERFL_FLOAT]
    else []
  else [])

/-- The loop state at the end of the lane loop of `compress`: the source tail is zero
filled up to the length RS, then the loop of the operand type runs. -/
def compressFinal (E : Env) (t : CThread) : CompressState :=
  let rd := t.operands 0
  let rs := t.operands 4
  let rt := t.operands 5
  let select := (t.op + 252) % 256
  let initLength := t.vectorLength rt
  let oldLength := t.registers rs % 2 ^ 32
  let newLength := oldLength / 2
  let source := rt * t.MaxVectorLength
  let destination := rd * t.MaxVectorLength
  let mem0 := zeroFill t.vectors source initLength oldLength
  compressLoop E t.operandType select source destination newLength
    { mem := mem0, overflowU2 := false, overflowS2 := false, overflowF2 := false }

/-- Handler `compress` (ops 4, 5, 6): vector RT of length RS to half the element size. -/
def compress (E : Env) (t : CThread) : Nat × CThread :=
  let rd := t.operands 0
  let rs := t.operands 4
  let select := (t.op + 252) % 256
  let oldLength := t.registers rs % 2 ^ 32
  let newLength := oldLength / 2
  let mask := t.parm 3
  let s := compressFinal E t
  (0, { t with
          vectors := s.mem
          returnType := compressReturnType t.operandType t.returnType
          interrupts := t.interrupts ++ compressInterrupts E t.operandType select mask s
          vectorLength := fun r => if r = rd then newLength else t.vectorLength r
          vect := 4
          running := 2 })

/-- Loop body of `expand`, case 0: int4 -> int8. The shifts act on the promoted `int`. -/
def expandBody0 (signExtend source destination pos : Nat) (m : Nat → Byte) : Nat → Byte :=
  let val1 := (m (source + pos)).val
  let b0 := if signExtend ≠ 0 then ofInt 8 (wrapInt 32 (toInt 8 val1 * 16) / 16) else val1 &&& 0xF
  let b1 := if signExtend ≠ 0 then ofInt 8 (toInt 8 val1 / 16) else val1 >>> 4
  writeLE m (destination + pos * 2) 2 (b0 + 256 * b1)

/-- Loop body of `expand`, case 1: int8 -> int16. The cast to `int16_t` applies to `val`
before the shifts, which act on the promoted `int`. -/
def expandBody1 (signExtend source destination pos : Nat) (m : Nat → Byte) : Nat → Byte :=
  let val := (m (source + pos)).val
  let val := if signExtend ≠ 0 then ofInt 16 (wrapInt 32 (toInt 16 val * 2 ^ 8) / 2 ^ 8) else val
  writeLE m (destination + pos * 2) 2 val

/-- Loop body of `expand`, case 2: int16 -> int32. -/
def expandBody2 (signExtend source destination pos : Nat) (m : Nat → Byte) : Nat → Byte :=
  let val := readLE m (source + pos) 2
  let val := if signExtend ≠ 0 then ofInt 32 (wrapInt 32 (toInt 32 val * 2 ^ 16) / 2 ^ 16) else val
  writeLE m (destination + pos * 2) 4 val

/-- Loop body of `expand`, case 3: int32 -> int64. -/
def expandBody3 (signExtend source destination pos : Nat) (m : Nat → Byte) : Nat → Byte :=
  let val := readLE m (source + pos) 4
  let val := if signExtend ≠ 0 then ofInt 64 (wrapInt 64 (toInt 64 val * 2 ^ 32) / 2 ^ 32) else val
  writeLE m (destination + pos * 2) 8 val

/-- Loop body of `expand`, case 4: int64 -> int128. -/
def expandBody4 (signExtend source destination pos : Nat) (m : Nat → Byte) : Nat → Byte :=
  let valLo := readLE m (source + pos) 8
  let valHi := if signExtend ≠ 0 then ofInt 64 (toInt 64 valLo / 2 ^ 63) else 0
  writeLE (writeLE m (destination + pos * 2) 8 valLo) (destination + pos * 2 + 8) 8 valHi

/-- Loop body of `expand`, case 5: float16 -> float. -/
def expandBody5 (E : Env) (source destination pos : Nat) (m : Nat → Byte) : Nat → Byte :=
  writeLE m (destination + pos * 2) 4 (E.half2float (readLE m (source + pos) 2))

/-- Loop body of `expand`, case 6: float -> double. -/
def expandBody6 (E : Env) (source destination pos : Nat) (m : Nat → Byte) : Nat → Byte :=
  writeLE m (destination + pos * 2) 8 (E.float2double (readLE m (source + pos) 4))

/-- The lane loops of `expand` (the `switch (t->operandType)`); every loop runs `pos` up to
`newLength`. -/
def expandLoop (E : Env) (operandType signExtend source destination newLength : Nat)
    (m : Nat → Byte) : Nat → Byte :=
  match operandType with
  | 0 => forLoop newLength 1 (expandBody0 signExtend source destination) newLength 0 m
  | 1 => forLoop newLength 1 (expandBody1 signExtend source destination) newLength 0 m
  | 2 => forLoop newLength 2 (expandBody2 signExtend source destination) newLength 0 m
  | 3 => forLoop newLength 4 (expandBody3 signExtend source destination) newLength 0 m
  | 4 => forLoop newLength 8 (expandBody4 signExtend source destination) newLength 0 m
  | 5 => forLoop newLength 2 (expandBody5 E source destination) newLength 0 m
  | 6 => forLoop newLength 4 (expandBody6 E source destination) newLength 0 m
  | _ => m

/-- The loop body of `expand` for each operand type. -/
def expandBody (E : Env) (operandType signExtend source destination : Nat) :
    Nat → (Nat → Byte) → (Nat → Byte) :=
  match operandType with
  | 0 => expandBody0 signExtend source destination
  | 1 => expandBody1 signExtend source destination
  | 2 => expandBody2 signExtend source destination
  | 3 => expandBody3 signExtend source destination
  | 4 => expandBody4 signExtend source destination
  | 5 => expandBody5 E source destination
  | 6 => expandBody6 E source destination
  | _ => fun _ m => m

/-- The vector buffer at the end of the lane loop of `expand`: the source tail is zero filled
up to half the clamped length RS, then the loop of the operand type runs. -/
def expandFinal (E : Env) (t : CThread) : Nat → Byte :=
  let rd := t.operands 0
  let rs := t.operands 4
  let rt := t.operands 5
  let signExtend := t.op &&& 1
  let initLength := t.vectorLength rt
  let newLength := t.registers rs % 2 ^ 32
  let newLength := if newLength > t.MaxVectorLength then t.MaxVectorLength else newLength
  let oldLength := newLength / 2
  let source := rt * t.MaxVectorLength
  let destination := rd * t.MaxVectorLength
  let mem0 := zeroFill t.vectors source initLength oldLength
  expandLoop E t.operandType signExtend source destination newLength mem0

/-- Handler `expand` (ops 7, 8): vector RT of half the element size to length RS. -/
def expand (E : Env) (t : CThread) : Nat × CThread :=
  let rd := t.operands 0
  let rs := t.operands 4
  let newLength := t.registers rs % 2 ^ 32
  let newLength := if newLength > t.MaxVectorLength then t.MaxVectorLength else newLength
  (0, { t with
          vectors := expandFinal E t
          interrupts := t.interrupts ++
            (if t.operandType > 6 then [Interrupt.INT_INST_ILLEGAL] else [])
          vectorLength := fun r => if r = rd then newLength else t.vectorLength r
          vect := 4
          running := 2 })

/-! Bit packing -/

/-- Loop body of `bits2bool`. The pointer `destination` advances by the element size in every
iteration, so iteration `i` stores at `destination + (i << dsizelog)`. -/
def bits2boolBody (dsizelog mask source destination i : Nat) (m : Nat → Byte) : Nat → Byte :=
  let bit := ((m (source + i / 8)).val >>> (i &&& 7)) &&& 1
  let d := destination + i <<< dsizelog
  match dsizelog with
  | 0 => writeLE m d 1 ((mask % 2 ^ 8) ||| bit)
  | 1 => writeLE m d 2 ((mask % 2 ^ 16) ||| bit)
  | 2 => writeLE m d 4 ((mask % 2 ^ 32) ||| bit)
  | 3 => writeLE m d 8 (mask ||| bit)
  | 4 => writeLE (writeLE m d 8 (mask ||| bit)) (d + 8) 8 (mask ||| bit)
  | _ => m

/-- Handler `bits2bool`: the low bits of RT are unpacked into a boolean vector RD with length
RS, one bit in each element. -/
def bits2bool (t : CThread) : Nat × CThread :=
  let rd := t.operands 0
  let rt := t.operands 5
  let rs := t.operands 4
  let mask := t.parm 3
  let source := rt * t.MaxVectorLength
  let destination := rd * t.MaxVectorLength
  let destinationLength := t.registers rs
  let dsizelog := dataSizeTableLog t.operandType
  let destinationLength :=
    if destinationLength > t.MaxVectorLength then t.MaxVectorLength else destinationLength
  let vectorLength := fun r => if r = rd then destinationLength % 2 ^ 32 else t.vectorLength r
  let num := (destinationLength % 2 ^ 32) >>> dsizelog
  let srcnum := (vectorLength rt * 8) % 2 ^ 32
  let num := if num < srcnum then srcnum else num
  let mask := mask &&& 0xFFFFFFFFFFFFFFFE
  let mem := forLoop num 1 (bits2boolBody dsizelog mask source destination) num 0 t.vectors
  (0, { t with
          vectors := mem
          vectorLength := vectorLength
          vect := 4
          running := 2
          returnType := if (t.returnType &&& 7) ≥ 5 then t.returnType - 3 else t.returnType })

/-- Loop body of `bool2bits`; the loop state is the vector buffer and `bitblock`. -/
def bool2bitsBody (t : CThread) (rt dsizelog destination num i : Nat)
    (s : (Nat → Byte) × Nat) : (Nat → Byte) × Nat :=
  let bit := (readVectorElement { t with vectors := s.1 } rt (i <<< dsizelog) &&& 1) % 2 ^ 8
  let bitindex := (i &&& 31) % 2 ^ 8
  let bitblock := (s.2 ||| (bit <<< bitindex)) % 2 ^ 32
  if bitindex = 31 ∨ i = num - 1 then
    (writeLE s.1 (destination + ((i / 8) &&& 0xFFFFFFFC)) 4 bitblock, 0)
  else (s.1, bitblock)

/-- Handler `bool2bits`: bit 0 of each element of the boolean vector RT with length RS is
packed into the low bits of RD. -/
def bool2bits (t : CThread) : Nat × CThread :=
  let rd := t.operands 0
  let rt := t.operands 5
  let rs := t.operands 4
  let destination := rd * t.MaxVectorLength
  let length := t.registers rs
  let dsizelog := dataSizeTableLog t.operandType
  let length := if length > t.MaxVectorLength then t.MaxVectorLength else length
  let num := (length % 2 ^ 32) >>> dsizelog
  let s := forLoop num 1 (bool2bitsBody t rt dsizelog destination num) num 0 (t.vectors, 0)
  let destinationLength := (num / 8 + 3) &&& 0xFFFFFFFC
  (0, { t with
          vectors := s.1
          vectorLength := fun r => if r = rd then destinationLength else t.vectorLength r
          vect := 4
          running := 2
          returnType := if (t.returnType &&& 7) ≥ 5 then t.returnType - 3 else t.returnType })

/-! Vector shifts and rotates -/

/-- Handler `shift_up`: shift vector RT up by RS bytes, the low bytes become zero. -/
def shift_up (t : CThread) : Nat × CThread :=
  let rd := t.operands 0
  let rt := t.operands 5
  let rs := t.operands 4
  let source := rt * t.MaxVectorLength
  let destination := rd * t.MaxVectorLength
  let shiftCount := t.registers rs
  let shiftCount := if shiftCount > t.MaxVectorLength then t.MaxVectorLength else shiftCount
  let sourceLength := t.vectorLength rt
  let mem := memset t.vectors destination 0 shiftCount
  let mem := if sourceLength > shiftCount
    then memcpy mem (destination + shiftCount) source (sourceLength - shiftCount) else mem
  (0, { t with
          vectors := mem
          vectorLength := fun r => if r = rd then sourceLength else t.vectorLength r
          vect := 4
          running := 2 })

/-- Handler `shift_down`: shift vector RT down by RS bytes, the high bytes become zero. -/
def shift_down (t : CThread) : Nat × CThread :=
  let rd := t.operands 0
  let rt := t.operands 5
  let rs := t.operands 4
  let source := rt * t.MaxVectorLength
  let destination := rd * t.MaxVectorLength
  let sourceLength := t.vectorLength rt
  let shiftCount := t.registers rs
  let shiftCount := if shiftCount > sourceLength then sourceLength else shiftCount
  let mem := if sourceLength > shiftCount
    then memcpy t.vectors destination (source + shiftCount) (sourceLength - shiftCount)
    else t.vectors
  let mem := if shiftCount > 0
    then memset mem (destination + sourceLength - shiftCount) 0 shiftCount else mem
  (0, { t with
          vectors := mem
          vectorLength := fun r => if r = rd then sourceLength else t.vectorLength r
          vect := 4
          running := 2 })

/-- Handler `rotate_up`: rotate vector RT, taken with length RS, up by one element. -/
def rotate_up (t : CThread) : Nat × CThread :=
  let rd := t.operands 0
  let rt := t.operands 5
  let rs := t.operands 4
  let source := rt * t.MaxVectorLength
  let destination := rd * t.MaxVectorLength
  let length := t.registers rs
  let length := if length > t.MaxVectorLength then t.MaxVectorLength else length
  let sourceLength := t.vectorLength rt
  let mem := if length > sourceLength
    then memset t.vectors (source + sourceLength) 0 (length - sourceLength) else t.vectors
  let elementSize := dataSizeTable t.operandType
  let elementSize := if elementSize > length then length % 2 ^ 32 else elementSize
  let mem := memcpy mem destination (source + length - elementSize) elementSize
  let mem := memcpy mem (destination + elementSize) source (length - elementSize)
  (0, { t with
          vectors := mem
          vectorLength := fun r => if r = rd then length % 2 ^ 32 else t.vectorLength r
          vect := 4
          running := 2 })

/-- Handler `rotate_down`: rotate vector RT, taken with length RS, down by one element. -/
def rotate_down (t : CThread) : Nat × CThread :=
  let rd := t.operands 0
  let rt := t.operands 5
  let rs := t.operands 4
  let source := rt * t.MaxVectorLength
  let destination := rd * t.MaxVectorLength
  let length := t.registers rs
  let length := if length > t.MaxVectorLength then t.MaxVectorLength else length
  let sourceLength := t.vectorLength rt
  let mem := if length > sourceLength
    then memset t.vectors (source + sourceLength) 0 (length - sourceLength) else t.vectors
  let elementSize := dataSizeTable t.operandType
  let elementSize := if elementSize > length then length % 2 ^ 32 else elementSize
  let mem := memcpy mem destination (source + elementSize) (length - elementSize)
  let mem := memcpy mem (destination + length - elementSize) source elementSize
  (0, { t with
          vectors := mem
          vectorLength := fun r => if r = rd then length % 2 ^ 32 else t.vectorLength r
          vect := 4
          running := 2 })

/-! Extended precision arithmetic -/

/-- Handler `add_c`: add with carry; the carry comes from the upper element of RS and the new
carry goes to `parm[5]`. -/
def add_c (t : CThread) : Nat × CThread :=
  let a := t.parm 1
  let b := t.parm 2
  let rs := t.operands 4
  let elementSize := dataSizeTable t.operandType
  let carry := readVectorElement t rs (t.vectorOffset + elementSize)
  let sizeMask := dataSizeMask t.operandType
  let result := (a + b) % 2 ^ 64
  let newCarry : Nat := if (result &&& sizeMask) < (a &&& sizeMask) then 1 else 0
  let result := (result + (carry &&& 1)) % 2 ^ 64
  let newCarry := if (result &&& sizeMask) = 0 then 1 else newCarry
  (result, { t with parm := fun i => if i = 5 then newCarry else t.parm i })

/-! Scalar bit and numeric helpers -/

/-- Scan of the bit positions below `k` from the top for the first one whose power of two
does not exceed `x`. -/
def bitScanReverseAux (x : Nat) : Nat → Nat
  | 0 => 0
  | k + 1 => if 2 ^ k ≤ x then k else bitScanReverseAux x k

/-- Modelled from the spec: `bitScanReverse` is defined outside src/. It returns the index of
the most significant set bit of a 64-bit value. -/
def bitScanReverse (x : Nat) : Nat := bitScanReverseAux x 64

/-- Handler `round_d2`: round down to the nearest power of 2. -/
def round_d2 (t : CThread) : Nat × CThread :=
  let a := t.parm 2 &&& dataSizeMask t.operandType
  let t := if dataSizeTable t.operandType > 8 then t.interrupt Interrupt.INT_INST_ILLEGAL else t
  if a = 0 then (0, t)
  else ((1 <<< bitScanReverse a) % 2 ^ 64, t)

/-- Handler `round_u2`: round up to the nearest power of 2. -/
def round_u2 (E : Env) (t : CThread) : Nat × CThread :=
  let a := t.parm 2 &&& dataSizeMask t.operandType
  let mask := t.parm 3
  let t := if dataSizeTable t.operandType > 8 then t.interrupt Interrupt.INT_INST_ILLEGAL else t
  if a = 0 then (0, t)
  else if a &&& (a - 1) = 0 then (a, t)
  else
    let s := bitScanReverse a % 2 ^ 32
    if s + 1 ≥ dataSizeTableBits t.operandType then
      let t :=
        if (mask % 2 ^ 32) &&& E.MSK_OVERFL_SIGN ≠ 0 then
          t.interrupt Interrupt.INT_OVERFL_SIGN
        else if (mask % 2 ^ 32) &&& E.MSK_OVERFL_UNSIGN ≠ 0 then
          t.interrupt Interrupt.INT_OVERFL_UNSIGN
        else t
      (0xFFFFFFFFFFFFFFFF, t)
    else ((1 <<< (s + 1)) % 2 ^ 64, t)

/-! Sparse compress -/

/-- The `switch (elementSize)` of `compress_sparse` and `expand_sparse` that copies one element
from address `src` to address `dst`; the 16-byte element is copied as two 64-bit words, one
after the other. -/
def sparseCopy (elementSize : Nat) (m : Nat → Byte) (dst src : Nat) : Nat → Byte :=
  match elementSize with
  | 1 => writeLE m dst 1 (readLE m src 1)
  | 2 => writeLE m dst 2 (readLE m src 2)
  | 4 => writeLE m dst 4 (readLE m src 4)
  | 8 => writeLE m dst 8 (readLE m src 8)
  | 16 =>
    let m1 := writeLE m dst 8 (readLE m src 8)
    writeLE m1 (dst + 8) 8 (readLE m1 (src + 8) 8)
  | _ => m

/-- Loop body of `compress_sparse`; the loop state is the vector buffer and `pos2`, the loop
variable is `pos1`. -/
def compressSparseBody (elementSize masksrc source destination pos1 : Nat)
    (s : (Nat → Byte) × Nat) : (Nat → Byte) × Nat :=
  if (s.1 (masksrc + pos1)).val &&& 1 ≠ 0 then
    (sparseCopy elementSize s.1 (destination + s.2) (source + pos1), s.2 + elementSize)
  else s

/-- The length `newLength` that `compress_sparse` scans: RS limited to the maximum vector
length and to the length of the mask. -/
def compressSparseLength (t : CThread) : Nat :=
  let newLength := t.registers (t.operands 4)
  let newLength := if newLength > t.MaxVectorLength then t.MaxVectorLength else newLength
  if newLength > t.vectorLength (t.operands 1) then t.vectorLength (t.operands 1) else newLength

/-- The loop state at the end of the loop of `compress_sparse`: buffer and `pos2`. -/
def compressSparseFinal (t : CThread) : (Nat → Byte) × Nat :=
  let rd := t.operands 0
  let rt := t.operands 5
  let rm := t.operands 1
  let sourceLength := t.vectorLength rt
  let newLength := compressSparseLength t
  let elementSize := dataSizeTable t.operandType
  let source := rt * t.MaxVectorLength
  let masksrc := rm * t.MaxVectorLength
  let destination := rd * t.MaxVectorLength
  let mem0 := zeroFill t.vectors source sourceLength newLength
  forLoop newLength elementSize (compressSparseBody elementSize masksrc source destination)
    newLength 0 (mem0, 0)

/-- Handler `compress_sparse`: the elements of RT whose mask element in RM has bit 0 set are
packed into RD. -/
def compress_sparse (t : CThread) : Nat × CThread :=
  let rd := t.operands 0
  let s := compressSparseFinal t
  (0, { t with
          vectors := s.1
          vectorLength := fun r => if r = rd then s.2 % 2 ^ 32 else t.vectorLength r
          vect := 4
          running := 2 })

/-! Saturating arithmetic -/

/-- The operator `~` on a 64-bit value. -/
def not64 (x : Nat) : Nat := x ^^^ 0xFFFFFFFFFFFFFFFF

/-- The difference `a - b` of `uint64_t` values, with wrap-around. -/
def sub64 (a b : Nat) : Nat := (a + (2 ^ 64 - b % 2 ^ 64)) % 2 ^ 64

/-- Assignment to a `w`-bit member of the union `SNum`: the low `w` bits of the cell `old`
are replaced, the others stay. -/
def setLow (w old new : Nat) : Nat := old / 2 ^ w * 2 ^ w + new % 2 ^ w

/-- Handler `add_ss`: add, signed with saturation. -/
def add_ss (t : CThread) : Nat × CThread :=
  let a := t.parm 1
  let b := t.parm 2
  let sizeMask := dataSizeMask t.operandType
  let signBit := (sizeMask >>> 1) + 1
  let result := (a + b) % 2 ^ 64
  let overfl := not64 (a ^^^ b) &&& (a ^^^ result)
  let result :=
    if overfl &&& signBit ≠ 0 then (sizeMask >>> 1) + (if a &&& signBit ≠ 0 then 1 else 0)
    else result
  (result, t)

/-- Handler `sub_ss`: subtract, signed with saturation. -/
def sub_ss (t : CThread) : Nat × CThread :=
  let a := t.parm 1
  let b := t.parm 2
  let sizeMask := dataSizeMask t.operandType
  let signBit := (sizeMask >>> 1) + 1
  let result := sub64 a b
  let overfl := (a ^^^ b) &&& (a ^^^ result)
  let result :=
    if overfl &&& signBit ≠ 0 then (sizeMask >>> 1) + (if a &&& signBit ≠ 0 then 1 else 0)
    else result
  (result, t)

/-- Handler `add_us`: add, unsigned with saturation. -/
def add_us (t : CThread) : Nat × CThread :=
  let a := t.parm 1
  let b := t.parm 2
  let sizeMask := dataSizeMask t.operandType
  let result := (a + b) % 2 ^ 64
  let result := if (result &&& sizeMask) < (a &&& sizeMask) then sizeMask else result
  (result, t)

/-- Handler `sub_us`: subtract, unsigned with saturation. -/
def sub_us (t : CThread) : Nat × CThread :=
  let a := t.parm 1
  let b := t.parm 2
  let sizeMask := dataSizeMask t.operandType
  let result := sub64 a b
  let result := if (result &&& sizeMask) > (a &&& sizeMask) then 0 else result
  (result, t)

/-- The `switch (t->operandType)` of `mul_ss`: the product stored in the union `result` (whose
initial content `result0` is indeterminate) and the overflow flag; `none` for the operand types
the switch rejects. -/
def mulSigned (E : Env) (operandType a b result0 : Nat) : Option (Nat × Bool) :=
  match operandType with
  | 0 =>
    let result := setLow 32 result0 (ofInt 32 (wrapInt 32 (toInt 8 a * toInt 8 b)))
    some (result, decide (toInt 8 result ≠ toInt 32 result))
  | 1 =>
    let result := setLow 32 result0 (ofInt 32 (wrapInt 32 (toInt 16 a * toInt 16 b)))
    some (result, decide (toInt 16 result ≠ toInt 32 result))
  | 2 =>
    let result := ofInt 64 (wrapInt 64 (toInt 32 a * toInt 32 b))
    some (result, decide (toInt 32 result ≠ toInt 64 result))
  | 3 =>
    let result := ofInt 64 (wrapInt 64 (toInt 64 a * toInt 64 b))
    some (result, E.mulCheckSigned64 a b result)
  | _ => none

/-- Handler `mul_ss`: multiply, signed with saturation. -/
def mul_ss (E : Env) (t : CThread) (result0 : Nat) : Nat × CThread :=
  let a := t.parm 1
  let b := t.parm 2
  let sizeMask := dataSizeMask t.operandType
  let signBit := (sizeMask >>> 1) + 1
  match mulSigned E t.operandType a b result0 with
  | some (result, overflow) =>
    let result :=
      if overflow then (sizeMask >>> 1) + (if (a ^^^ b) &&& signBit ≠ 0 then 1 else 0)
      else result
    (result, t)
  | none => (result0, t.interrupt Interrupt.INT_INST_ILLEGAL)

/-- The `switch (t->operandType)` of `mul_us`: the product stored in the union `result` and
the overflow flag; `none` for the operand types the switch rejects. -/
def mulUnsigned (E : Env) (operandType a b result0 : Nat) : Option (Nat × Bool) :=
  match operandType with
  | 0 =>
    let result := setLow 32 result0 ((a % 2 ^ 8) * (b % 2 ^ 8) % 2 ^ 32)
    some (result, decide (result % 2 ^ 8 ≠ result % 2 ^ 32))
  | 1 =>
    let result := setLow 32 result0 ((a % 2 ^ 16) * (b % 2 ^ 16) % 2 ^ 32)
    some (result, decide (result % 2 ^ 16 ≠ result % 2 ^ 32))
  | 2 =>
    let result := (a % 2 ^ 32) * (b % 2 ^ 32) % 2 ^ 64
    some (result, decide (result % 2 ^ 32 ≠ result))
  | 3 =>
    let result := (a % 2 ^ 64) * (b % 2 ^ 64) % 2 ^ 64
    some (result, E.mulCheckUnsigned64 a b result)
  | _ => none

/-- Handler `mul_us`: multiply, unsigned with saturation. -/
def mul_us (E : Env) (t : CThread) (result0 : Nat) : Nat × CThread :=
  let a := t.parm 1
  let b := t.parm 2
  let sizeMask := dataSizeMask t.operandType
  match mulUnsigned E t.operandType a b result0 with
  | some (result, overflow) => (if overflow then sizeMask else result, t)
  | none => (result0, t.interrupt Interrupt.INT_INST_ILLEGAL)

/-! Arithmetic with overflow check -/

/-- The incoming flags of the overflow-check handlers: the odd lanes of RS and RT combined
with `|`. -/
def carryIn (t : CThread) : Nat :=
  let rs := t.operands 4
  let rt := t.operands 5
  let elementSize := dataSizeTable t.operandType
  readVectorElement t rs (t.vectorOffset + elementSize) |||
    readVectorElement t rt (t.vectorOffset + elementSize)

/-- Handler `add_oc`: add with overflow check; the flags go to `parm[5]`. -/
def add_oc (t : CThread) : Nat × CThread :=
  let a := t.parm 1
  let b := t.parm 2
  let carry := carryIn t
  if t.operandType < 4 then
    let sizeMask := dataSizeMask t.operandType
    let result := (a + b) % 2 ^ 64
    let carry := if (result &&& sizeMask) < (a &&& sizeMask) then carry ||| 1 else carry
    let signedOverflow := not64 (a ^^^ b) &&& (a ^^^ result)
    let signBit := (sizeMask >>> 1) + 1
    let carry := if signedOverflow &&& signBit ≠ 0 then carry ||| 2 else carry
    (result, { t with parm := fun i => if i = 5 then carry &&& 3 else t.parm i })
  else
    (0, { t.interrupt Interrupt.INT_INST_ILLEGAL with
            parm := fun i => if i = 5 then carry &&& 3 else t.parm i })

/-- Handler `sub_oc`: subtract with overflow check; the flags go to `parm[5]`. -/
def sub_oc (t : CThread) : Nat × CThread :=
  let a := t.parm 1
  let b := t.parm 2
  let carry := carryIn t
  if t.operandType < 4 then
    let sizeMask := dataSizeMask t.operandType
    let result := sub64 a b
    let carry := if (result &&& sizeMask) > (a &&& sizeMask) then carry ||| 1 else carry
    let signedOverflow := (a ^^^ b) &&& (a ^^^ result)
    let signBit := (sizeMask >>> 1) + 1
    let carry := if signedOverflow &&& signBit ≠ 0 then carry ||| 2 else carry
    (result, { t with parm := fun i => if i = 5 then carry &&& 3 else t.parm i })
  else
    (0, { t.interrupt Interrupt.INT_INST_ILLEGAL with
            parm := fun i => if i = 5 then carry &&& 3 else t.parm i })

/-- The `switch (t->operandType)` of `mul_oc`: the product stored in the union `result`, the
flag `unsignedOverflow` and the flag `signedOverflow`; `none` for the operand types the switch
rejects. Every case forms the product of the signed views of the operands. -/
def mulChecked (E : Env) (operandType a b result0 : Nat) : Option (Nat × Bool × Bool) :=
  match operandType with
  | 0 =>
    let result := setLow 32 result0 (ofInt 32 (wrapInt 32 (toInt 8 a * toInt 8 b)))
    some (result, decide (result % 2 ^ 8 ≠ result % 2 ^ 32),
      decide (toInt 8 result ≠ toInt 32 result))
  | 1 =>
    let result := setLow 32 result0 (ofInt 32 (wrapInt 32 (toInt 16 a * toInt 16 b)))
    some (result, decide (result % 2 ^ 16 ≠ result % 2 ^ 32),
      decide (toInt 16 result ≠ toInt 32 result))
  | 2 =>
    let result := ofInt 64 (wrapInt 64 (toInt 32 a * toInt 32 b))
    some (result, decide (result ≠ result % 2 ^ 32),
      decide (toInt 64 result ≠ toInt 32 result))
  | 3 =>
    let result := ofInt 64 (wrapInt 64 (toInt 64 a * toInt 64 b))
    some (result, E.mulCheckUnsigned64 a b result, E.mulCheckSigned64 a b result)
  | _ => none

/-- Handler `mul_oc`: multiply with overflow check; the flags go to `parm[5]`. -/
def mul_oc (E : Env) (t : CThread) (result0 : Nat) : Nat × CThread :=
  let a := t.parm 1
  let b := t.parm 2
  let carry := carryIn t
  match mulChecked E t.operandType a b result0 with
  | some (result, unsignedOverflow, signedOverflow) =>
    let carry := if unsignedOverflow then carry ||| 1 else carry
    let carry := if signedOverflow then carry ||| 2 else carry
    (result, { t with parm := fun i => if i = 5 then carry &&& 3 else t.parm i })
  | none =>
    (result0, { t.interrupt Interrupt.INT_INST_ILLEGAL with
                  parm := fun i => if i = 5 then carry &&& 3 else t.parm i })

/-! Shifts and negation of 64-bit cells -/

/-- The expression `x << n` on `uint64_t`. -/
def shl64 (E : Env) (x n : Nat) : Nat := if n < 64 then (x <<< n) % 2 ^ 64 else E.shlOver x n

/-- The expression `x >> n` on `uint64_t`. -/
def shr64 (E : Env) (x n : Nat) : Nat := if n < 64 then (x % 2 ^ 64) >>> n else E.shrOver x n

/-- The expression `x >> n` on `int64_t` (arithmetic shift), as a signed value. -/
def sar64 (E : Env) (x n : Nat) : Int :=
  if n < 64 then toInt 64 x / 2 ^ n else toInt 64 (E.sarOver x n)

/-- The assignment `x.qs = - x.qs`, with wrap-around. -/
def neg64 (x : Nat) : Nat := sub64 0 x

/-! Scalar handlers with an immediate operand -/

/-- The part of `abs_64` after the overflow test: a negative value changes sign. -/
def absRest (a signBit : Nat) : Nat := if a &&& signBit ≠ 0 then neg64 a else a

/-- Handler `abs_64`: absolute value of a signed integer; IM1 selects the handling of the
overflow. In `parm[2].b & ~4` the byte is promoted to `int`, so all its bits but bit 2 enter
the switch (`sel`), whose `default` raises the interrupt and leaves the `if`. -/
def abs_64 (t : CThread) : Nat × CThread :=
  let a := t.parm 1
  let sizeMask := dataSizeMask t.operandType
  let signBit := (sizeMask >>> 1) + 1
  let imm := t.parm 2 % 256
  if a &&& sizeMask = signBit then
    let t1 := if imm &&& 4 ≠ 0 then t.interrupt Interrupt.INT_OVERFL_SIGN else t
    let sel := imm &&& 0xFFFFFFFB
    if sel = 0 then (a, t1)
    else if sel = 1 then (sizeMask >>> 1, t1)
    else if sel = 2 then (0, t1)
    else (absRest a signBit, t1.interrupt Interrupt.INT_INST_ILLEGAL)
  else (absRest a signBit, t)

/-- Handler `shifti_add`: shift and add, RD += RS << IM1. -/
def shifti_add (E : Env) (t : CThread) : Nat × CThread :=
  let a := t.parm 0
  let b := t.parm 1
  let c := t.parm 2
  let r1 := shl64 E b (c % 256)
  let nbits := dataSizeTableBits t.operandType % 256
  let r1 := if c ≥ nbits then 0 else r1
  let r2 := (a + r1) % 2 ^ 64
  let t :=
    if t.numContr &&& E.MSK_OVERFL_I ≠ 0 then
      if t.numContr &&& E.MSK_OVERFL_SIGN ≠ 0 then
        let sizeMask := dataSizeMask t.operandType
        let signBit := (sizeMask >>> 1) + 1
        let ovfl := not64 (a ^^^ r1) &&& (a ^^^ r2)
        if sar64 E r1 (c % 256) ≠ toInt 64 b ∨ ovfl &&& signBit ≠ 0 ∨ c ≥ nbits then
          t.interrupt Interrupt.INT_OVERFL_SIGN
        else t
      else if t.numContr &&& E.MSK_OVERFL_UNSIGN ≠ 0 then
        if r2 < a ∨ shr64 E r1 (c % 256) ≠ b ∨ c ≥ nbits then
          t.interrupt Interrupt.INT_OVERFL_UNSIGN
        else t
      else t
    else t
  (r2, t)

/-- Handler `replace_bits`: replace a group of contiguous bits in RT by a constant. The sum
`pos + num` is formed after promotion to `int`. -/
def replace_bits (E : Env) (t : CThread) : Nat × CThread :=
  let a := t.parm 1
  let b := t.parm 2
  let val := b % 2 ^ 16
  let pos := ((b % 2 ^ 32) >>> 16) % 256
  let num := ((b % 2 ^ 32) >>> 24) % 256
  let t := if num > 32 ∨ pos + num > 64 then t.interrupt Interrupt.INT_INST_ILLEGAL else t
  let mask := sub64 (shl64 E 1 num) 1
  ((a &&& not64 (shl64 E mask pos)) ||| shl64 E (val &&& mask) pos, t)

/-! Reduction of a boolean vector, classification of a floating point vector -/

/-- The category of a single precision bit pattern, as in the loop of case 5 of
`bool_reduce`. -/
def categoryFloat (val : Nat) : Nat :=
  let exponent := ((val >>> 23) &&& 0xFF) % 256
  if exponent = 0xFF then
    if (val <<< 9) % 2 ^ 32 ≠ 0 then 1
    else if val >>> 31 ≠ 0 then 0x40
    else 0x80
  else if exponent = 0 then
    if (val <<< 9) % 2 ^ 32 = 0 then 2
    else if val >>> 31 ≠ 0 then 4
    else 8
  else if val >>> 31 ≠ 0 then 0x10
  else 0x20

/-- The category of a double precision bit pattern, as in the loop of case 6 of
`bool_reduce`. -/
def categoryDouble (val : Nat) : Nat :=
  let exponent := ((val >>> 52) &&& 0x7FF) % 2 ^ 32
  if exponent = 0x7FF then
    if (val <<< 12) % 2 ^ 64 ≠ 0 then 1
    else if val >>> 63 ≠ 0 then 0x40
    else 0x80
  else if exponent = 0 then
    if (val <<< 12) % 2 ^ 64 = 0 then 2
    else if val >>> 63 ≠ 0 then 4
    else 8
  else if val >>> 63 ≠ 0 then 0x10
  else 0x20

/-- The scanned length of `bool_reduce` and the initial value of `bitAND`: RS limited to the
maximum vector length, rounded down to a multiple of the element size, and limited to the
length of the source, in which case `bitAND` starts as 0. -/
def boolReduceLength (t : CThread) : Nat × Nat :=
  let length := t.registers (t.operands 4)
  let length := if length > t.MaxVectorLength then t.MaxVectorLength else length
  let dsizelog := dataSizeTableLog t.operandType
  let sourceLength := t.vectorLength (t.operands 5)
  let length := (length >>> dsizelog) <<< dsizelog
  if length > sourceLength then (sourceLength, 0) else (length, 1)

/-- Loop body of the integer cases of `bool_reduce`; the loop state is `(bitOR, bitAND)`. -/
def boolReduceBody (m : Nat → Byte) (source pos : Nat) (s : Nat × Nat) : Nat × Nat :=
  let bit := (m (source + pos)).val &&& 1
  (s.1 ||| bit, s.2 &&& bit)

/-- The `switch (t->operandType)` of `bool_reduce`: the result, or `none` for the operand
types the switch rejects. -/
def boolReduceResult (t : CThread) : Option Nat :=
  let source := t.operands 5 * t.MaxVectorLength
  let elementSize := dataSizeTable t.operandType
  let length := (boolReduceLength t).1
  let bitAND := (boolReduceLength t).2
  if t.operandType ≤ 4 then
    let s := forLoop length elementSize (boolReduceBody t.vectors source) length 0 (0, bitAND)
    some (s.2 ||| (s.1 <<< 1))
  else if t.operandType = 5 then
    some (forLoop length elementSize
      (fun pos result => result ||| categoryFloat (readLE t.vectors (source + pos) 4))
      length 0 0)
  else if t.operandType = 6 then
    some (forLoop length elementSize
      (fun pos result => result ||| categoryDouble (readLE t.vectors (source + pos) 8))
      length 0 0)
  else none

/-- Handler `bool_reduce` (integer types) and `category_reduce` (floating point types): the
64-bit result is written to RD, whose length becomes 8. -/
def bool_reduce (t : CThread) : Nat × CThread :=
  let rd := t.operands 0
  let result := (boolReduceResult t).getD 0
  let t1 := if (boolReduceResult t).isSome then t else t.interrupt Interrupt.INT_INST_ILLEGAL
  (result, { t1 with
      vectorLength := fun r => if r = rd then 8 else t.vectorLength r
      vectors := writeLE t.vectors (rd * t.MaxVectorLength) 8 result
      vect := 4
      running := 2
      returnType := if t.returnType &&& 7 ≥ 5 then t.returnType - 3 else t.returnType })

/-! Division -/

/-- The `switch (t->operandType)` of `div_ex` on the masked magnitudes: quotient and
remainder, or `none` for the operand types the switch rejects. The two lanes are joined in the
field of twice the width. -/
def divExCore (operandType a_lo a_hi b : Nat) : Option (Nat × Nat) :=
  match operandType with
  | 0 =>
    let a_lo := setLow 16 a_lo ((a_lo % 2 ^ 16) ||| ((a_hi % 2 ^ 16) <<< 8) % 2 ^ 32)
    some (setLow 16 0 ((a_lo % 2 ^ 16) / (b % 2 ^ 16)),
      setLow 16 0 ((a_lo % 2 ^ 16) % (b % 2 ^ 16)))
  | 1 =>
    let a_lo := setLow 32 a_lo ((a_lo % 2 ^ 32) ||| ((a_hi % 2 ^ 32) <<< 16) % 2 ^ 32)
    some (setLow 32 0 ((a_lo % 2 ^ 32) / (b % 2 ^ 32)),
      setLow 32 0 ((a_lo % 2 ^ 32) % (b % 2 ^ 32)))
  | 2 =>
    let a_lo := (a_lo ||| (a_hi <<< 32) % 2 ^ 64) % 2 ^ 64
    some ((a_lo / b) % 2 ^ 64, (a_lo % b) % 2 ^ 64)
  | _ => none

/-- Handler `div_ex`: divide the double-size integers of RS (low part in the even lane, high
part in the odd lane) by the integers of RT; op 24 signed, op 25 unsigned. -/
def div_ex (E : Env) (t : CThread) : Nat × CThread :=
  let a_lo := t.parm 1
  let b := t.parm 2
  let rs := t.operands 4
  let elementSize := dataSizeTable t.operandType
  let a_hi := readVectorElement t rs (t.vectorOffset + elementSize)
  let sizemask := dataSizeMask t.operandType
  let signbit := (sizemask >>> 1) + 1
  let mask := t.parm 3
  let isUnsigned : Bool := t.op &&& 1 ≠ 0
  let bNeg : Bool := !isUnsigned && (b &&& signbit ≠ 0)
  let aNeg : Bool := !isUnsigned && (a_hi &&& signbit ≠ 0)
  let b := if bNeg then neg64 b else b
  let sign := if bNeg then 1 else 0
  let a_lo := if aNeg then neg64 a_lo else a_lo
  let a_hi :=
    if aNeg then
      if a_lo &&& sizemask = 0 then (not64 a_hi + 1) % 2 ^ 64 else not64 a_hi
    else a_hi
  let sign := if aNeg then sign ^^^ 1 else sign
  let b := b &&& sizemask
  let a_hi := a_hi &&& sizemask
  let a_lo := a_lo &&& sizemask
  let overflow : Bool := a_hi ≥ b || b = 0
  let core := if overflow then some (0, 0) else divExCore t.operandType a_lo a_hi b
  let t := if core.isSome then t else t.interrupt Interrupt.INT_INST_ILLEGAL
  let result := (core.getD (0, 0)).1
  let remainder := (core.getD (0, 0)).2
  let overflow : Bool :=
    overflow || (sign ≠ 0 && (result = signbit || remainder = signbit))
  let result := if sign ≠ 0 then neg64 result else result
  let remainder := if sign ≠ 0 then neg64 remainder else remainder
  let t :=
    if overflow then
      if isUnsigned then
        if (mask % 2 ^ 32) &&& E.MSK_OVERFL_UNSIGN ≠ 0 then
          t.interrupt Interrupt.INT_OVERFL_UNSIGN
        else t
      else
        if (mask % 2 ^ 32) &&& E.MSK_OVERFL_SIGN ≠ 0 then
          t.interrupt Interrupt.INT_OVERFL_SIGN
        else t
    else t
  let result := if overflow then (if isUnsigned then sizemask else signbit) else result
  let remainder := if overflow then 0 else remainder
  (result, { t with parm := fun i => if i = 5 then remainder else t.parm i })

/-- The `switch (t->operandType)` of `div_oc`: the union `result` (whose initial content
`result0` is indeterminate) and the flags, or `none` for the operand types the switch rejects.
The quotient of the signed views truncates toward zero. -/
def divChecked (operandType a b result0 carry : Nat) : Option (Nat × Nat) :=
  match operandType with
  | 0 =>
    if b % 2 ^ 8 = 0 then some (setLow 32 result0 0x80, carry ||| 3)
    else if a % 2 ^ 8 = 0x80 ∧ toInt 8 b = -1 then some (setLow 32 result0 0x80, carry ||| 2)
    else some (setLow 32 result0 (ofInt 32 (Int.tdiv (toInt 8 a) (toInt 8 b))), carry)
  | 1 =>
    if b % 2 ^ 16 = 0 then some (setLow 32 result0 0x8000, carry ||| 3)
    else if a % 2 ^ 16 = 0x8000 ∧ toInt 16 b = -1 then
      some (setLow 32 result0 0x8000, carry ||| 2)
    else some (setLow 32 result0 (ofInt 32 (Int.tdiv (toInt 16 a) (toInt 16 b))), carry)
  | 2 =>
    if b % 2 ^ 32 = 0 then some (setLow 32 result0 sign_f, carry ||| 3)
    else if a % 2 ^ 32 = sign_f ∧ toInt 32 b = -1 then
      some (setLow 32 result0 sign_f, carry ||| 2)
    else some (setLow 32 result0 (ofInt 32 (Int.tdiv (toInt 32 a) (toInt 32 b))), carry)
  | 3 =>
    if b % 2 ^ 64 = 0 then some (sign_d, carry ||| 3)
    else if a % 2 ^ 64 = sign_d ∧ toInt 64 b = -1 then some (sign_d, carry ||| 2)
    else some (ofInt 64 (Int.tdiv (toInt 64 a) (toInt 64 b)), carry)
  | _ => none

/-- Handler `div_oc`: signed divide with overflow check; the flags go to `parm[5]`. -/
def div_oc (t : CThread) (result0 : Nat) : Nat × CThread :=
  let a := t.parm 1
  let b := t.parm 2
  let carry := carryIn t
  match divChecked t.operandType a b result0 carry with
  | some (result, carry) =>
    (result, { t with parm := fun i => if i = 5 then carry &&& 3 else t.parm i })
  | none =>
    (result0, { t.interrupt Interrupt.INT_INST_ILLEGAL with
                  parm := fun i => if i = 5 then carry &&& 3 else t.parm i })

/-! Square root -/

/-- Scan of the candidates `k`, `k - 1`, ..., 1 for the largest one whose square does not
exceed `x`. -/
def truncSqrtAux (x : Nat) : Nat → Nat
  | 0 => 0
  | k + 1 => if (k + 1) * (k + 1) ≤ x then k + 1 else truncSqrtAux x k

/-- Modelled from the spec: `sqrtf` and `sqrt` are library functions. On the values of an
`int8_t` they are exact as far as the conversion to an integer type sees: for `x ≥ 0` the
converted value is the truncated square root, for `x < 0` the square root is a NaN, whose
conversion is left open. -/
def sqrtOfInt8 (E : Env) (x : Int) : Nat :=
  if 0 ≤ x then truncSqrtAux x.toNat x.toNat else E.sqrtOfNegative x

/-- Handler `sqrt_`: square root. Every integer case takes the root of `a.bs`, the signed
8-bit view of the operand. -/
def sqrt_ (E : Env) (t : CThread) : Nat × CThread :=
  let a := t.parm 2
  let r : Option (Nat × Bool) :=
    match t.operandType with
    | 0 => if toInt 8 a < 0 then some (0, true)
           else some (setLow 8 0 (sqrtOfInt8 E (toInt 8 a)), false)
    | 1 => if toInt 16 a < 0 then some (0, true)
           else some (setLow 16 0 (sqrtOfInt8 E (toInt 8 a)), false)
    | 2 => if toInt 32 a < 0 then some (0, true)
           else some (setLow 32 0 (sqrtOfInt8 E (toInt 8 a)), false)
    | 3 => if toInt 64 a < 0 then some (0, true)
           else some (sqrtOfInt8 E (toInt 8 a) % 2 ^ 64, false)
    | 5 => if E.ltZero_f (a % 2 ^ 32) then some (setLow 32 0 nan_f, true)
           else some (setLow 32 0 (E.sqrt_f (a % 2 ^ 32)), false)
    | 6 => if E.ltZero_d (a % 2 ^ 64) then some (nan_d, true)
           else some (E.sqrt_d (a % 2 ^ 64) % 2 ^ 64, false)
    | _ => none
  let t1 := if r.isSome then t else t.interrupt Interrupt.INT_INST_ILLEGAL
  let result := (r.getD (0, false)).1
  let error := (r.getD (0, false)).2
  let t2 :=
    if error then
      if t.operandType < 5 then
        if (t.parm 3 % 2 ^ 32) &&& E.MSK_OVERFL_SIGN ≠ 0 then
          t1.interrupt Interrupt.INT_OVERFL_SIGN
        else if (t.parm 3 % 2 ^ 32) &&& E.MSK_OVERFL_UNSIGN ≠ 0 then
          t1.interrupt Interrupt.INT_OVERFL_UNSIGN
        else t1
      else if (t.parm 3 % 2 ^ 32) &&& E.MSK_FLOAT_INVALID ≠ 0 then
        t1.interrupt Interrupt.INT_FLOAT_INVALID
      else t1
    else t1
  (result, t2)

/-! Shifts by an immediate count -/

/-- Handler `shifti1_move`: `(parm[2].q >> 8) << parm[2].b`, the count is the low byte of the
operand. -/
def shifti1_move (E : Env) (t : CThread) : Nat × CThread :=
  (shl64 E ((t.parm 2 % 2 ^ 64) >>> 8) (t.parm 2 % 256), t)

/-- Handler `shifti1_and`: `parm[1].q & ((parm[2].q & 0xFFFFFFFFFFFFFF00) << parm[2].b)`. -/
def shifti1_and (E : Env) (t : CThread) : Nat × CThread :=
  (t.parm 1 &&& shl64 E (t.parm 2 &&& 0xFFFFFFFFFFFFFF00) (t.parm 2 % 256), t)

/-- Handler `shifti1_or`: `parm[1].q | ((parm[2].q & 0xFFFFFFFFFFFFFF00) << parm[2].b)`. -/
def shifti1_or (E : Env) (t : CThread) : Nat × CThread :=
  (t.parm 1 ||| shl64 E (t.parm 2 &&& 0xFFFFFFFFFFFFFF00) (t.parm 2 % 256), t)

/-- Handler `shifti1_xor`: `parm[1].q ^ ((parm[2].q & 0xFFFFFFFFFFFFFF00) << parm[2].b)`. -/
def shifti1_xor (E : Env) (t : CThread) : Nat × CThread :=
  (t.parm 1 ^^^ shl64 E (t.parm 2 &&& 0xFFFFFFFFFFFFFF00) (t.parm 2 % 256), t)

/-! Vector length -/

/-- Handler `set_len` (op 0) and `set_num` (op 2): RD = vector register RT with its length
changed to the value of RS, in bytes or in elements. The product of `set_num` is formed in
`uint64_t`. -/
def set_len (t : CThread) : Nat × CThread :=
  let rd := t.operands 0
  let rs := t.operands 4
  let rt := t.operands 5
  let oldLength := t.vectorLength rt
  let newLength := t.registers rs
  let newLength :=
    if t.op = 2 then (newLength * dataSizeTable t.operandType) % 2 ^ 64 else newLength
  let newLength := if newLength > t.MaxVectorLength then t.MaxVectorLength else newLength
  let mem :=
    if newLength > oldLength then
      memset (memcpy t.vectors (rd * t.MaxVectorLength) (rt * t.MaxVectorLength) oldLength)
        (rd * t.MaxVectorLength + oldLength) 0 (newLength - oldLength)
    else memcpy t.vectors (rd * t.MaxVectorLength) (rt * t.MaxVectorLength) newLength
  (0, { t with
          vectors := mem
          vectorLength := fun r => if r = rd then newLength % 2 ^ 32 else t.vectorLength r
          vect := 4
          running := 2 })

/-! Sparse expand, extraction of an element -/

/-- The `switch (elementSize)` of `expand_sparse` that stores a zero element at address `dst`;
the 16-byte element is stored as two 64-bit words. -/
def sparseZero (elementSize : Nat) (m : Nat → Byte) (dst : Nat) : Nat → Byte :=
  match elementSize with
  | 1 => writeLE m dst 1 0
  | 2 => writeLE m dst 2 0
  | 4 => writeLE m dst 4 0
  | 8 => writeLE m dst 8 0
  | 16 => writeLE (writeLE m dst 8 0) (dst + 8) 8 0
  | _ => m

/-- Loop body of `expand_sparse`; the loop state is the vector buffer, `pos1` and the value
of `pos2` after the increment of the loop; the loop variable is `pos2`. -/
def expandSparseBody (elementSize masksrc source destination pos2 : Nat)
    (s : (Nat → Byte) × Nat × Nat) : (Nat → Byte) × Nat × Nat :=
  if (s.1 (masksrc + pos2)).val &&& 1 ≠ 0 then
    (sparseCopy elementSize s.1 (destination + pos2) (source + s.2.1),
      s.2.1 + elementSize, pos2 + elementSize)
  else (sparseZero elementSize s.1 (destination + pos2), s.2.1, pos2 + elementSize)

/-- The loop state at the end of the loop of `expand_sparse`: buffer, `pos1` and `pos2`. The
scanned length is limited as in `compress_sparse`. -/
def expandSparseFinal (t : CThread) : (Nat → Byte) × Nat × Nat :=
  let rd := t.operands 0
  let rt := t.operands 5
  let rm := t.operands 1
  let sourceLength := t.vectorLength rt
  let newLength := compressSparseLength t
  let elementSize := dataSizeTable (t.operandType &&& 7)
  let source := rt * t.MaxVectorLength
  let masksrc := rm * t.MaxVectorLength
  let destination := rd * t.MaxVectorLength
  let mem0 := zeroFill t.vectors source sourceLength newLength
  forLoop newLength elementSize (expandSparseBody elementSize masksrc source destination)
    newLength 0 (mem0, 0, 0)

/-- Handler `expand_sparse`: the elements of the contiguous vector RT are placed in RD at the
positions whose mask element in RM has bit 0 set; the other elements of RD are zero. -/
def expand_sparse (t : CThread) : Nat × CThread :=
  let rd := t.operands 0
  let s := expandSparseFinal t
  (0, { t with
          vectors := s.1
          vectorLength := fun r => if r = rd then s.2.2 % 2 ^ 32 else t.vectorLength r
          vect := 4
          running := 2 })

/-- Handler `extract_`: the element of RT at the index RS, as a scalar in RD. The position is
formed in `uint64_t`; the upper half of a 128-bit element goes to `parm[5]`. -/
def extract_ (t : CThread) : Nat × CThread :=
  let rd := t.operands 0
  let rs := t.operands 4
  let rt := t.operands 5
  let sourceLength := t.vectorLength rt
  let dsizelog := dataSizeTableLog t.operandType
  let pos := (t.registers rs <<< dsizelog) % 2 ^ 64
  let source := rt * t.MaxVectorLength
  let result := if pos ≥ sourceLength then 0 else readLE t.vectors (source + pos) 8
  let parm :=
    if pos ≥ sourceLength then t.parm
    else if dsizelog ≥ 4 then
      fun i => if i = 5 then readLE t.vectors (source + pos + 8) 8 else t.parm i
    else t.parm
  (result, { t with
               parm := parm
               vectorLength := fun r => if r = rd then 1 <<< dsizelog else t.vectorLength r
               vect := 4 })

/-! Subtraction with borrow -/

/-- Handler `sub_b`: subtract with borrow; the borrow comes from the upper element of RS and
the new borrow goes to `parm[5]`. -/
def sub_b (t : CThread) : Nat × CThread :=
  let a := t.parm 1
  let b := t.parm 2
  let rs := t.operands 4
  let elementSize := dataSizeTable t.operandType
  let carry := readVectorElement t rs (t.vectorOffset + elementSize)
  let sizeMask := dataSizeMask t.operandType
  let result := sub64 a b
  let newCarry : Nat := if (result &&& sizeMask) > (a &&& sizeMask) then 1 else 0
  let result := sub64 result (carry &&& 1)
  let newCarry := if (result &&& sizeMask) = sizeMask then 1 else newCarry
  (result, { t with parm := fun i => if i = 5 then newCarry else t.parm i })

/-! Specification helpers and sample contexts -/

/-- The word with bit `k` equal to `B (base + k)` for `k < r` and the other bits zero: what
`bitblock` holds after `r` bits of a block have been collected. -/
def packBits (B : Nat → Nat) (base : Nat) : Nat → Nat
  | 0 => 0
  | r + 1 => packBits B base r ||| (B (base + r) <<< r)

/-- The context `t2` runs an instruction on the vector state that `t1` holds: same buffer,
same register lengths, same maximum vector length. -/
def SameVectors (t1 t2 : CThread) : Prop :=
  t2.vectors = t1.vectors ∧ t2.vectorLength = t1.vectorLength ∧
    t2.MaxVectorLength = t1.MaxVectorLength

/-- A thread for one vector instruction: operand type, opcode, register fields RD = `rd`,
RS = `rs`, RT = `rt`, general purpose register `rs` holding `len`, options mask `mask` in
`parm[3]`, and vector register `rt` holding the bytes `v`; everything else is zero. -/
def mkThread (M operandType op rd rs rt len mask : Nat) (v : List Nat) : CThread where
  registers := fun r => if r = rs then len else 0
  vectors := fun x => if rt * M ≤ x then toByte (v.getD (x - rt * M) 0) else 0
  vectorLength := fun r => if r = rt then v.length else 0
  MaxVectorLength := M
  vectorOffset := 0
  vectorLengthR := 0
  operandType := operandType
  op := op
  operands := fun i => if i = 0 then rd else if i = 4 then rs else if i = 5 then rt else 0
  parm := fun i => if i = 3 then mask else 0
  numContr := 0
  returnType := 0
  memAddress := 0
  vect := 0
  running := 0
  interrupts := []

/-- The thread that runs the next vector instruction on the state `t` left by the previous
one: new opcode and register fields, source register RT = `rt`. -/
def nextThread (t : CThread) (op rd rs rt len mask : Nat) : CThread :=
  { t with
      op := op
      operands := fun i => if i = 0 then rd else if i = 4 then rs else if i = 5 then rt else 0
      registers := fun r => if r = rs then len else t.registers r
      parm := fun i => if i = 3 then mask else 0 }

/-- The first `n` bytes of vector register `r`. -/
def regBytes (t : CThread) (r n : Nat) : List Nat :=
  (List.range n).map (fun i => (t.vectors (r * t.MaxVectorLength + i)).val)

/-- A parameter record with mask bits 2, 4, 8 for signed, unsigned and float overflow and
constant floating point conversions. -/
def sampleEnv : Env where
  MSK_OVERFL_I := 6
  MSK_OVERFL_SIGN := 2
  MSK_OVERFL_UNSIGN := 4
  MSK_OVERFL_FLOAT := 8
  MSK_OVERFL_ALL := 14
  MSK_FLOAT_INVALID := 16
  float2half := fun _ => 0
  half2float := fun _ => 0
  double2float := fun _ => 0
  float2double := fun _ => 0
  isinf_f := fun _ => false
  isinf_d := fun _ => false
  mulCheckSigned64 := fun _ _ _ => false
  mulCheckUnsigned64 := fun _ _ _ => false
  shlOver := fun _ _ => 0
  shrOver := fun _ _ => 0
  sarOver := fun _ _ => 0
  sqrtOfNegative := fun _ => 0
  ltZero_f := fun _ => false
  ltZero_d := fun _ => false
  sqrt_f := fun x => x
  sqrt_d := fun x => x

/-- A thread for one `add_c` step at operand type int64: operands `a`, `b` in `parm[1]`,
`parm[2]`, and the 16-byte vector register 1 holding `a` in its even lane and the carry
`c` in its odd lane. -/
def addcThread (a b c : Nat) : CThread where
  registers := fun _ => 0
  vectors := writeLE (writeLE (fun _ => 0) 64 8 a) 72 8 c
  vectorLength := fun r => if r = 1 then 16 else 0
  MaxVectorLength := 64
  vectorOffset := 0
  vectorLengthR := 16
  operandType := 3
  op := 0
  operands := fun i => if i = 4 then 1 else 0
  parm := fun i => if i = 1 then a else if i = 2 then b else 0
  numContr := 0
  returnType := 0
  memAddress := 0
  vect := 0
  running := 0
  interrupts := []

/-- Sample run, step 1: `shift_down` by 2 of the vector 1,2,3,4,5 in register 1 to
register 2 (16-byte registers). -/
def shiftT1 : CThread := mkThread 16 0 0 2 3 1 2 0 [1, 2, 3, 4, 5]

/-- Sample run, step 2: `shift_up` by 2 of register 2 to register 4. -/
def shiftT2 : CThread := nextThread (shift_down shiftT1).2 0 4 3 2 2 0

/-- Sample run, step 3: `shift_down` by 2 of register 4 to register 5. -/
def shiftT3 : CThread := nextThread (shift_up shiftT2).2 0 5 3 4 2 0

/-- Sample run, step 4: `shift_up` by 2 of register 5 to register 6. -/
def shiftT4 : CThread := nextThread (shift_down shiftT3).2 0 6 3 5 2 0

/-- Sample run, step 1: `rotate_down` with length 8 of the int16 vector with bytes 1..6 in
register 1 to register 2 (16-byte registers). -/
def rotT1 : CThread := mkThread 16 1 0 2 3 1 8 0 [1, 2, 3, 4, 5, 6]

/-- Sample run, step 2: `rotate_up` with length 8 of register 2 to register 4. -/
def rotT2 : CThread := nextThread (rotate_down rotT1).2 0 4 3 2 8 0

/-- Sample run, step 1: `expand` with sign extension (op 7) to int32 and length 8 of the int16
vector 0x1234, 0xFF80 in register 1 to register 2 (64-byte registers). -/
def ecT1 : CThread := mkThread 64 2 7 2 3 1 8 0 [0x34, 0x12, 0x80, 0xFF]

/-- Sample run, step 2: `compress` with the wrap selector (op 4) and length 8 of register 2 to
register 4. -/
def ecT2 : CThread := nextThread (expand sampleEnv ecT1).2 4 4 3 2 8 0

/-- Sample run, step 1: `bits2bool` of the bit source 0xA5, 0x3C in register 1 into 12 int8
elements of register 2, mask 0xFE (16-byte registers). -/
def bbT1 : CThread := mkThread 16 0 0 2 3 1 12 0xFE [0xA5, 0x3C]

/-- Sample run, step 2: `bool2bits` of the 12 elements of register 2 into register 4. -/
def bbT2 : CThread := nextThread (bits2bool bbT1).2 0 4 3 2 12 0

/-- A context for a scalar handler: operand type, `parm[1] = a`, `parm[2] = b`,
`parm[3] = mask`; the vector registers are empty. -/
def scalarThread (operandType a b mask : Nat) : CThread :=
  { mkThread 64 operandType 0 0 0 0 0 mask [] with
      parm := fun i => if i = 1 then a else if i = 2 then b else if i = 3 then mask else 0 }

/-- A context for the overflow-check handlers at int8: RT (register 1) holds the lane 0x7F
with the flag byte 0x01 in its odd lane, RS (register 3) is empty, `parm[1] = 0x7F`,
`parm[2] = b`. -/
def ocThread (b : Nat) : CThread :=
  { mkThread 64 0 0 2 3 1 0 0 [0x7F, 0x01] with
      parm := fun i => if i = 1 then 0x7F else if i = 2 then b else 0 }

/-- The number of lanes with index below `k` whose mask lane (of `elementSize` bytes, in the
mask register at address `masksrc`) has bit 0 set. -/
def selectedBefore (m : Nat → Byte) (masksrc elementSize : Nat) : Nat → Nat
  | 0 => 0
  | k + 1 => selectedBefore m masksrc elementSize k +
      (if (m (masksrc + k * elementSize)).val % 2 = 1 then 1 else 0)

/-- A context for `compress_sparse` at int8: RT and the mask RM are both register 1 with the
bytes 1, 2, 3, 4; RD is register 2 and `registers[rs] = 4`. -/
def sparseThread : CThread :=
  { mkThread 64 0 0 2 3 1 4 0 [1, 2, 3, 4] with
      operands := fun i =>
        if i = 0 then 2 else if i = 4 then 3 else if i = 5 then 1 else if i = 1 then 1 else 0 }

/-- A context for `div_ex` with 64-byte registers: RS and RT are register 1, which holds the
bytes `v` (low lane first, high lane after it), `parm[1] = a_lo`, `parm[2] = b`,
`parm[3] = mask`. -/
def divExThread (operandType op a_lo b mask : Nat) (v : List Nat) : CThread :=
  { mkThread 64 operandType op 2 1 1 0 mask v with
      parm := fun i => if i = 1 then a_lo else if i = 2 then b else if i = 3 then mask else 0 }

/-- A context for `shifti_add` at int8 with the integer overflow checks and the signed check
enabled in `numContr` (bits as in `sampleEnv`): `parm[0] = a`, `parm[1] = b`, `parm[2] = c`. -/
def shiftiThread (a b c : Nat) : CThread :=
  { mkThread 64 0 0 0 0 0 0 0 [] with
      parm := fun i => if i = 0 then a else if i = 1 then b else if i = 2 then c else 0
      numContr := 6 }

/-- The category of an IEEE bit pattern with `expBits` exponent bits and `manBits` mantissa
bits, in the words of the specification: NaN 0x01, zero 0x02, negative subnormal 0x04, positive
subnormal 0x08, negative normal 0x10, positive normal 0x20, -infinity 0x40, +infinity 0x80. -/
def ieeeCategory (expBits manBits v : Nat) : Nat :=
  let sign := v / 2 ^ (expBits + manBits) % 2
  let exponent := v / 2 ^ manBits % 2 ^ expBits
  let mantissa := v % 2 ^ manBits
  if exponent = 2 ^ expBits - 1 then
    if mantissa ≠ 0 then 0x01 else if sign = 1 then 0x40 else 0x80
  else if exponent = 0 then
    if mantissa = 0 then 0x02 else if sign = 1 then 0x04 else 0x08
  else if sign = 1 then 0x10 else 0x20

/-- The bitwise OR of the categories `cat` of the first `k` lanes (of `elementSize` bytes) of the
register at address `source`. -/
def orCategories (cat : Nat → Nat) (m : Nat → Byte) (source elementSize : Nat) : Nat → Nat
  | 0 => 0
  | k + 1 => orCategories cat m source elementSize k |||
      cat (readLE m (source + k * elementSize) elementSize)

/-- The number of exponent bits of the floating point operand types: 8 for single precision
(type 5), 11 for double precision. -/
def floatExpBits (operandType : Nat) : Nat := if operandType = 5 then 8 else 11

/-- The number of mantissa bits of the floating point operand types: 23 for single precision
(type 5), 52 for double precision. -/
def floatManBits (operandType : Nat) : Nat := if operandType = 5 then 23 else 52

/-- A context for `add_c` and `sub_b` at int8 with 64-byte registers: RS is register 1, which
holds the lane `a` and the carry or borrow `c` in its odd lane, `parm[1] = a`, `parm[2] = b`. -/
def carryThread (a b c : Nat) : CThread :=
  { mkThread 64 0 0 2 1 1 0 0 [a, c] with
      parm := fun i => if i = 1 then a else if i = 2 then b else 0 }

/-- A context for an instruction in place on the int8 vector 1, 2 with 16-byte registers: RD
and RT are both register 1 and `registers[rs] = 2`. -/
def inPlaceThread : CThread := mkThread 16 0 0 1 3 1 2 0 [1, 2]

/-- The same instruction with the distinct destination register 2. -/
def distinctThread : CThread := mkThread 16 0 0 2 3 1 2 0 [1, 2]

/-- A context for `expand_sparse` at int8 with 16-byte registers: RT (register 1) holds the
bytes 0x11, 0x22, the mask RM (register 4) holds 1, 0, 1, 1; RD is register 2 and
`registers[rs] = 4`. -/
def expandSparseThread : CThread :=
  { mkThread 16 0 0 2 3 1 4 0 [0x11, 0x22] with
      vectors := fun x =>
        if 64 ≤ x then toByte ([1, 0, 1, 1].getD (x - 64) 0)
        else if 16 ≤ x then toByte ([0x11, 0x22].getD (x - 16) 0) else 0
      vectorLength := fun r => if r = 1 then 2 else if r = 4 then 4 else 0
      operands := fun i =>
        if i = 0 then 2 else if i = 4 then 3 else if i = 5 then 1 else if i = 1 then 4 else 0 }

/-- The `compress_sparse` that follows on the state left by `expand_sparse`: RT is register 2,
the mask RM register 4, RD register 5, and `registers[rs] = 4`. -/
def compressSparseNext : CThread :=
  { (expand_sparse expandSparseThread).2 with
      operands := fun i =>
        if i = 0 then 5 else if i = 4 then 3 else if i = 5 then 2 else if i = 1 then 4 else 0 }

/-! Theorems: add with carry -/

/-- C1 (evaluation at the failing input): for A = B = 0 the low step of the `add_c` chain
returns 0 but stores carry 1 in `parm[5]`, the high step started with that carry returns 1,
and the reconstructed value is 2^64 instead of A + B = 0. -/
theorem add_c_chain_zero_spurious_carry :
    (add_c (addcThread 0 0 0)).1 = 0 ∧
    (add_c (addcThread 0 0 0)).2.parm 5 = 1 ∧
    (add_c (addcThread 0 0 ((add_c (addcThread 0 0 0)).2.parm 5))).1 = 1 ∧
    (add_c (addcThread 0 0 ((add_c (addcThread 0 0 0)).2.parm 5))).2.parm 5 = 0 ∧
    (add_c (addcThread 0 0 0)).1
      + (add_c (addcThread 0 0 ((add_c (addcThread 0 0 0)).2.parm 5))).1 * 2 ^ 64
      + (add_c (addcThread 0 0 ((add_c (addcThread 0 0 0)).2.parm 5))).2.parm 5 * 2 ^ 128
      ≠ (0 * 2 ^ 64 + 0) + (0 * 2 ^ 64 + 0) := by
  decide

/-! Loops -/

/-- A property kept by every iteration holds when the loop has finished, at a final position
at or beyond the bound. -/
theorem forLoop_invariant {σ : Type} (bound step : Nat) (body : Nat → σ → σ)
    (I : Nat → σ → Prop) (hstep : 0 < step)
    (hbody : ∀ pos s, pos < bound → I pos s → I (pos + step) (body pos s)) :
    ∀ fuel pos s, bound ≤ pos + fuel → I pos s →
      ∃ P, bound ≤ P ∧ I P (forLoop bound step body fuel pos s) := by
  intro fuel
  induction fuel with
  | zero =>
    intro pos s hf hI
    exact ⟨pos, by simpa using hf, by simpa [forLoop] using hI⟩
  | succ n ih =>
    intro pos s hf hI
    by_cases hp : pos < bound
    · have h := ih (pos + step) (body pos s) (by omega) (hbody pos s hp hI)
      simpa [forLoop, hp] using h
    · exact ⟨pos, by omega, by simpa [forLoop, hp] using hI⟩

/-- Two multiples of `w`, the first below the second, are at least `w` apart. -/
theorem dvd_lt_add_le {w p q : Nat} (hp : w ∣ p) (hq : w ∣ q) (h : p < q) : p + w ≤ q := by
  obtain ⟨a, rfl⟩ := hp
  obtain ⟨b, rfl⟩ := hq
  have hab : a < b := by
    by_contra hc
    have : w * b ≤ w * a := Nat.mul_le_mul_left w (by omega)
    omega
  calc w * a + w = w * (a + 1) := by ring
    _ ≤ w * b := Nat.mul_le_mul_left w hab

/-- Lane loops: when iteration `p` writes only the lane `[wa p, wa p + nw)`, the lanes are
laid out in increasing order, and what an iteration below `K` writes depends only on bytes
`[ra p, ra p + nr)` that no earlier iteration has written, then after the loop every lane
below `K` holds what its iteration writes when run on the initial state, and the bytes outside
the lanes are unchanged. -/
theorem forLoop_lanes {σ : Type} (mem : σ → Nat → Byte) (bound K w nw nr : Nat)
    (wa ra : Nat → Nat) (body : Nat → σ → σ) (hw : 0 < w)
    (hwa : ∀ p q, w ∣ p → w ∣ q → p < q → wa p + nw ≤ wa q)
    (hread : ∀ p, w ∣ p → p < bound → p < K →
      ∀ j, j < nr → ra p + j < wa 0 ∨ wa p ≤ ra p + j)
    (hframe : ∀ p s x, (x < wa p ∨ wa p + nw ≤ x) → mem (body p s) x = mem s x)
    (hval : ∀ p s s', (∀ j, j < nr → mem s (ra p + j) = mem s' (ra p + j)) →
      ∀ j, j < nw → mem (body p s) (wa p + j) = mem (body p s') (wa p + j))
    (s0 : σ) :
    (∀ p, w ∣ p → p < bound → p < K → ∀ j, j < nw →
      mem (forLoop bound w body bound 0 s0) (wa p + j) = mem (body p s0) (wa p + j)) ∧
    (∃ P, bound ≤ P ∧ P < bound + w ∧ w ∣ P ∧
      ∀ x, (x < wa 0 ∨ wa P ≤ x) → mem (forLoop bound w body bound 0 s0) x = mem s0 x) := by
  have hmono : ∀ p, w ∣ p → wa 0 ≤ wa p := by
    intro p hp
    rcases Nat.eq_zero_or_pos p with h0 | h0
    · simp [h0]
    · have := hwa 0 p (dvd_zero w) hp h0
      omega
  have key := forLoop_invariant bound w body
    (fun pos s => w ∣ pos ∧ pos < bound + w ∧
      (∀ p, w ∣ p → p < pos → p < K →
        ∀ j, j < nw → mem s (wa p + j) = mem (body p s0) (wa p + j)) ∧
      (∀ x, (x < wa 0 ∨ wa pos ≤ x) → mem s x = mem s0 x)) hw
    (by
      rintro pos s hpos ⟨hd, _, hl, hf⟩
      have hd' : w ∣ pos + w := Dvd.dvd.add hd (dvd_refl w)
      have hnext := hwa pos (pos + w) hd hd' (by omega)
      have h0p := hmono pos hd
      refine ⟨hd', by omega, ?_, ?_⟩
      · intro p hp hlt hK j hj
        by_cases hpp : p < pos
        · have h1 := hwa p pos hp hd hpp
          rw [hframe pos s (wa p + j) (by omega)]
          exact hl p hp hpp hK j hj
        · have hpe : p = pos := by
            by_contra hne
            have := dvd_lt_add_le hd hp (by omega)
            omega
          subst hpe
          apply hval p s s0 _ j hj
          intro i hi
          apply hf
          have := hread p hp hpos hK i hi
          omega
      · intro x hx
        rw [hframe pos s x (by omega)]
        exact hf x (by omega))
    bound 0 s0 (by omega)
    ⟨dvd_zero w, by omega, by intro p _ h; omega, by intro x _; rfl⟩
  obtain ⟨P, hP, hd, hlt, hl, hf⟩ := key
  exact ⟨fun p hp hpb hK j hj => hl p hp (by omega) hK j hj, P, hP, hlt, hd, hf⟩

/-! Memory primitives, pointwise -/

theorem memset_apply (m : Nat → Byte) (dst val n x : Nat) :
    memset m dst val n x = if dst ≤ x ∧ x < dst + n then toByte val else m x := rfl

theorem memcpy_apply (m : Nat → Byte) (dst src n x : Nat) :
    memcpy m dst src n x = if dst ≤ x ∧ x < dst + n then m (src + (x - dst)) else m x := rfl

theorem writeLE_apply (m : Nat → Byte) (a n v x : Nat) :
    writeLE m a n v x = if a ≤ x ∧ x < a + n then toByte (v / 256 ^ (x - a)) else m x := rfl

theorem toByte_zero : toByte 0 = 0 := rfl

theorem readLE_lt (m : Nat → Byte) (a n : Nat) : readLE m a n < 256 ^ n := by
  induction n generalizing a with
  | zero => simp [readLE]
  | succ k ih =>
    have h1 := ih (a + 1)
    have h2 := (m a).isLt
    simp only [readLE, pow_succ]
    omega

theorem readLE_congr (m m' : Nat → Byte) (a n : Nat)
    (h : ∀ j, j < n → m (a + j) = m' (a + j)) : readLE m a n = readLE m' a n := by
  induction n generalizing a with
  | zero => rfl
  | succ k ih =>
    have h0 := h 0 (by omega)
    have h1 := ih (a + 1) (fun j hj => by
      have := h (j + 1) (by omega)
      rw [show a + 1 + j = a + (j + 1) by omega]
      exact this)
    simp only [readLE]
    rw [h1]
    simp only [Nat.add_zero] at h0
    rw [h0]

theorem toByte_val (b : Byte) : toByte b.val = b := by
  apply Fin.ext
  simp only [toByte]
  omega

/-- Byte `j` of a little-endian read is the byte at offset `j`. -/
theorem toByte_readLE_div (m : Nat → Byte) (a n j : Nat) (hj : j < n) :
    toByte (readLE m a n / 256 ^ j) = m (a + j) := by
  induction n generalizing a j with
  | zero => omega
  | succ k ih =>
    rcases j with _ | j'
    · apply Fin.ext
      have := (m a).isLt
      simp only [toByte, readLE, pow_zero, Nat.div_one, Nat.add_zero]
      omega
    · have h1 := ih (a + 1) j' (by omega)
      rw [show a + (j' + 1) = a + 1 + j' by omega, ← h1]
      have := (m a).isLt
      have e : ((m a).val + 256 * readLE m (a + 1) k) / 256 ^ (j' + 1)
          = readLE m (a + 1) k / 256 ^ j' := by
        rw [pow_succ', ← Nat.div_div_eq_div_mul]
        congr 1
        omega
      simp only [readLE, e]

/-- Values that agree in their low `n` bytes have the same byte `j < n`. -/
theorem toByte_div_congr (a b n j : Nat) (h : a % 256 ^ n = b % 256 ^ n) (hj : j < n) :
    toByte (a / 256 ^ j) = toByte (b / 256 ^ j) := by
  have hd : 256 ^ (j + 1) ∣ 256 ^ n := pow_dvd_pow 256 (by omega)
  have key : ∀ x : Nat, x / 256 ^ j % 256 = x % 256 ^ n % (256 ^ j * 256) / 256 ^ j := by
    intro x
    rw [← pow_succ, Nat.mod_mod_of_dvd _ hd, pow_succ, Nat.mod_mul_right_div_self]
  apply Fin.ext
  simp only [toByte]
  rw [key a, key b, h]

/-- A little-endian read of the bytes of `V` returns the low `n` bytes of `V`. -/
theorem readLE_of_bytes (m : Nat → Byte) (a n V : Nat)
    (h : ∀ j, j < n → m (a + j) = toByte (V / 256 ^ j)) : readLE m a n = V % 256 ^ n := by
  induction n generalizing a V with
  | zero => simp [readLE, Nat.mod_one]
  | succ k ih =>
    have h0 := h 0 (by omega)
    have h1 := ih (a + 1) (V / 256) (fun j hj => by
      have := h (j + 1) (by omega)
      rw [show a + 1 + j = a + (j + 1) by omega, this, pow_succ', Nat.div_div_eq_div_mul])
    simp only [Nat.add_zero, pow_zero, Nat.div_one] at h0
    simp only [readLE, h1, h0, toByte]
    rw [pow_succ', Nat.mod_mul]

/-- A little-endian read splits into its low and high part. -/
theorem readLE_add (m : Nat → Byte) (a n k : Nat) :
    readLE m a (n + k) = readLE m a n + 256 ^ n * readLE m (a + n) k := by
  induction n generalizing a with
  | zero => simp [readLE]
  | succ i ih =>
    rw [show i + 1 + k = (i + k) + 1 by omega]
    simp only [readLE, ih (a + 1), pow_succ]
    rw [show a + 1 + i = a + (i + 1) by omega]
    ring

/-! Sign extension by a shift pair -/

/-- The int16 case of `expand`: the shifts act on the promoted `int`, the byte is unchanged. -/
theorem signExt1 (b : Nat) (h : b < 256) :
    ofInt 16 (wrapInt 32 (toInt 16 b * 2 ^ 8) / 2 ^ 8) = b := by
  simp only [ofInt, wrapInt, toInt, Int.ofNat_eq_coe]
  norm_num
  split_ifs <;> omega

/-- The int32 case of `expand`: the 16-bit value is sign extended to 32 bits. -/
theorem signExt2 (v : Nat) (h : v < 2 ^ 16) :
    ofInt 32 (wrapInt 32 (toInt 32 v * 2 ^ 16) / 2 ^ 16) =
      if v < 2 ^ 15 then v else v + (2 ^ 32 - 2 ^ 16) := by
  simp only [ofInt, wrapInt, toInt, Int.ofNat_eq_coe]
  norm_num at h ⊢
  split_ifs <;> omega

/-- The int64 case of `expand`: the 32-bit value is sign extended to 64 bits. -/
theorem signExt3 (v : Nat) (h : v < 2 ^ 32) :
    ofInt 64 (wrapInt 64 (toInt 64 v * 2 ^ 32) / 2 ^ 32) =
      if v < 2 ^ 31 then v else v + (2 ^ 64 - 2 ^ 32) := by
  simp only [ofInt, wrapInt, toInt, Int.ofNat_eq_coe]
  norm_num at h ⊢
  split_ifs <;> omega

/-! Register addresses -/

/-- Distinct vector registers occupy disjoint stretches of the buffer. -/
theorem reg_sep {rd rt : Nat} (M : Nat) (h : rd ≠ rt) :
    rd * M + M ≤ rt * M ∨ rt * M + M ≤ rd * M := by
  rcases Nat.lt_or_gt_of_ne h with h1 | h1
  · left
    calc rd * M + M = (rd + 1) * M := by ring
      _ ≤ rt * M := Nat.mul_le_mul_right M h1
  · right
    calc rt * M + M = (rt + 1) * M := by ring
      _ ≤ rd * M := Nat.mul_le_mul_right M h1

/-! Shifts -/

/-- After `shift_down`, the destination holds the source bytes from the shift count on, then
zeros, and has the source's length. -/
theorem shift_down_bytes (t : CThread) (k : Nat)
    (hk : t.registers (t.operands 4) = k) (hkL : k ≤ t.vectorLength (t.operands 5))
    (hne : t.operands 0 ≠ t.operands 5) :
    (shift_down t).2.vectorLength (t.operands 0) = t.vectorLength (t.operands 5) ∧
    (shift_down t).2.MaxVectorLength = t.MaxVectorLength ∧
    ∀ i, i < t.vectorLength (t.operands 5) →
      (shift_down t).2.vectors (t.operands 0 * t.MaxVectorLength + i) =
        if i + k < t.vectorLength (t.operands 5)
        then t.vectors (t.operands 5 * t.MaxVectorLength + (i + k)) else 0 := by
  refine ⟨by simp [shift_down], by simp [shift_down], ?_⟩
  intro i hi
  have hsep := reg_sep t.MaxVectorLength hne
  simp only [shift_down, hk, ite_apply, memcpy_apply, memset_apply, toByte_zero]
  split_ifs <;> first
    | rfl
    | (congr 1; omega)

/-- After `shift_up`, the destination holds zeros below the shift count, then the source
bytes, and has the source's length. -/
theorem shift_up_bytes (t : CThread) (k : Nat)
    (hk : t.registers (t.operands 4) = k) (hkL : k ≤ t.vectorLength (t.operands 5))
    (hLM : t.vectorLength (t.operands 5) ≤ t.MaxVectorLength)
    (hne : t.operands 0 ≠ t.operands 5) :
    (shift_up t).2.vectorLength (t.operands 0) = t.vectorLength (t.operands 5) ∧
    (shift_up t).2.MaxVectorLength = t.MaxVectorLength ∧
    ∀ i, i < t.vectorLength (t.operands 5) →
      (shift_up t).2.vectors (t.operands 0 * t.MaxVectorLength + i) =
        if i < k then 0 else t.vectors (t.operands 5 * t.MaxVectorLength + (i - k)) := by
  refine ⟨by simp [shift_up], by simp [shift_up], ?_⟩
  intro i hi
  have hsep := reg_sep t.MaxVectorLength hne
  have hkM : ¬ k > t.MaxVectorLength := by omega
  simp only [shift_up, hk, hkM, if_false, ite_apply, memcpy_apply, memset_apply, toByte_zero]
  split_ifs <;> first
    | rfl
    | (congr 1; omega)

/-- The composition `shift_up` after `shift_down`, both by `k` bytes and each between
distinct registers: length kept, low `k` bytes zero, the others those of the source. -/
theorem shift_down_up_bytes (t t2 : CThread) (k : Nat)
    (hLM : t.vectorLength (t.operands 5) ≤ t.MaxVectorLength)
    (hkL : k ≤ t.vectorLength (t.operands 5))
    (h1k : t.registers (t.operands 4) = k) (h1 : t.operands 0 ≠ t.operands 5)
    (h2s : SameVectors (shift_down t).2 t2) (h2rt : t2.operands 5 = t.operands 0)
    (h2k : t2.registers (t2.operands 4) = k) (h2 : t2.operands 0 ≠ t2.operands 5) :
    (shift_up t2).2.vectorLength (t2.operands 0) = t.vectorLength (t.operands 5) ∧
    (shift_up t2).2.MaxVectorLength = t.MaxVectorLength ∧
    ∀ i, i < t.vectorLength (t.operands 5) →
      (shift_up t2).2.vectors (t2.operands 0 * t.MaxVectorLength + i) =
        if i < k then 0 else t.vectors (t.operands 5 * t.MaxVectorLength + i) := by
  obtain ⟨hv, hl, hm⟩ := h2s
  obtain ⟨d1, d2, d3⟩ := shift_down_bytes t k h1k hkL h1
  have hL2 : t2.vectorLength (t2.operands 5) = t.vectorLength (t.operands 5) := by
    rw [hl, h2rt, d1]
  have hM2 : t2.MaxVectorLength = t.MaxVectorLength := by rw [hm, d2]
  obtain ⟨u1, u2, u3⟩ := shift_up_bytes t2 k h2k (by omega) (by omega) h2
  refine ⟨by rw [u1, hL2], by rw [u2, hM2], ?_⟩
  intro i hi
  have := u3 i (by omega)
  rw [hM2] at this
  rw [this]
  split_ifs with hik
  · rfl
  · rw [hv, h2rt, d3 (i - k) (by omega)]
    have e : i - k + k = i := by omega
    simp [e, hi]

/-- C9: `shift_down` by `k` followed by `shift_up` by `k`, each step between distinct
registers, on a vector of length `L ≤ MaxVectorLength` with `k ≤ L`, yields a vector of length
`L` with the low `k` bytes zero and the bytes `k..L-1` those of the source; the same
composition applied to that result returns the same length and bytes. -/
theorem shift_down_up_zeroes_prefix_idempotent (t t2 t4 t6 : CThread) (k : Nat)
    (hLM : t.vectorLength (t.operands 5) ≤ t.MaxVectorLength)
    (hkL : k ≤ t.vectorLength (t.operands 5))
    (h1k : t.registers (t.operands 4) = k) (h1 : t.operands 0 ≠ t.operands 5)
    (h2s : SameVectors (shift_down t).2 t2) (h2rt : t2.operands 5 = t.operands 0)
    (h2k : t2.registers (t2.operands 4) = k) (h2 : t2.operands 0 ≠ t2.operands 5)
    (h4s : SameVectors (shift_up t2).2 t4) (h4rt : t4.operands 5 = t2.operands 0)
    (h4k : t4.registers (t4.operands 4) = k) (h4 : t4.operands 0 ≠ t4.operands 5)
    (h6s : SameVectors (shift_down t4).2 t6) (h6rt : t6.operands 5 = t4.operands 0)
    (h6k : t6.registers (t6.operands 4) = k) (h6 : t6.operands 0 ≠ t6.operands 5) :
    (shift_up t2).2.vectorLength (t2.operands 0) = t.vectorLength (t.operands 5) ∧
    (∀ i, i < k →
      (shift_up t2).2.vectors (t2.operands 0 * t.MaxVectorLength + i) = 0) ∧
    (∀ i, k ≤ i → i < t.vectorLength (t.operands 5) →
      (shift_up t2).2.vectors (t2.operands 0 * t.MaxVectorLength + i) =
        t.vectors (t.operands 5 * t.MaxVectorLength + i)) ∧
    (shift_up t6).2.vectorLength (t6.operands 0) = t.vectorLength (t.operands 5) ∧
    (∀ i, i < t.vectorLength (t.operands 5) →
      (shift_up t6).2.vectors (t6.operands 0 * t.MaxVectorLength + i) =
        (shift_up t2).2.vectors (t2.operands 0 * t.MaxVectorLength + i)) := by
  obtain ⟨a1, a2, a3⟩ := shift_down_up_bytes t t2 k hLM hkL h1k h1 h2s h2rt h2k h2
  have hL4 : t4.vectorLength (t4.operands 5) = t.vectorLength (t.operands 5) := by
    rw [h4s.2.1, h4rt, a1]
  have hM4 : t4.MaxVectorLength = t.MaxVectorLength := by rw [h4s.2.2, a2]
  obtain ⟨b1, b2, b3⟩ := shift_down_up_bytes t4 t6 k (by omega) (by omega) h4k h4 h6s h6rt h6k h6
  refine ⟨a1, ?_, ?_, by rw [b1, hL4], ?_⟩
  · intro i hi
    rw [a3 i (by omega)]
    simp [hi]
  · intro i hki hi
    rw [a3 i hi]
    simp [Nat.not_lt.mpr hki]
  · intro i hi
    have hb := b3 i (by omega)
    rw [hM4] at hb
    rw [hb, h4s.1, h4rt, a3 i hi]
    split_ifs <;> rfl

/-- C9 at a concrete input: the 5-byte vector 1,2,3,4,5 shifted down and up by 2 bytes. -/
theorem shift_down_up_zeroes_prefix_idempotent_witness :
    (shift_up shiftT2).2.vectorLength 4 = 5 ∧
    (∀ i, i < 2 → (shift_up shiftT2).2.vectors (4 * 16 + i) = 0) ∧
    (∀ i, 2 ≤ i → i < 5 →
      (shift_up shiftT2).2.vectors (4 * 16 + i) = shiftT1.vectors (1 * 16 + i)) ∧
    (shift_up shiftT4).2.vectorLength 6 = 5 ∧
    (∀ i, i < 5 →
      (shift_up shiftT4).2.vectors (6 * 16 + i) = (shift_up shiftT2).2.vectors (4 * 16 + i)) :=
  shift_down_up_zeroes_prefix_idempotent shiftT1 shiftT2 shiftT3 shiftT4 2
    (by decide) (by decide) (by decide) (by decide)
    ⟨rfl, rfl, rfl⟩ (by decide) (by decide) (by decide)
    ⟨rfl, rfl, rfl⟩ (by decide) (by decide) (by decide)
    ⟨rfl, rfl, rfl⟩ (by decide) (by decide) (by decide)

/-! Rotates -/

/-- The zero fill of a source tail: inside the first `len` bytes the source reads as its
zero-padded contents. -/
theorem zero_fill_apply (m : Nat → Byte) (src L len j : Nat) (hj : j < len) :
    (if len > L then memset m (src + L) 0 (len - L) else m) (src + j) =
      if j < L then m (src + j) else 0 := by
  simp only [ite_apply, memset_apply, toByte_zero]
  split_ifs <;> first
    | rfl
    | (exfalso; omega)

/-- After `rotate_down` with length `len`, the destination holds the zero-padded source
moved down by one element, the bottom element on top. -/
theorem rotate_down_bytes (t : CThread) (len : Nat)
    (hk : t.registers (t.operands 4) = len) (hlen : len ≤ t.MaxVectorLength)
    (hM : t.MaxVectorLength < 2 ^ 32) (hne : t.operands 0 ≠ t.operands 5) :
    (rotate_down t).2.vectorLength (t.operands 0) = len ∧
    (rotate_down t).2.MaxVectorLength = t.MaxVectorLength ∧
    (rotate_down t).2.operandType = t.operandType ∧
    ∀ i, i < len →
      (rotate_down t).2.vectors (t.operands 0 * t.MaxVectorLength + i) =
        if i + min (dataSizeTable t.operandType) len < len
        then
          (if i + min (dataSizeTable t.operandType) len < t.vectorLength (t.operands 5)
            then t.vectors (t.operands 5 * t.MaxVectorLength +
              (i + min (dataSizeTable t.operandType) len))
            else 0)
        else
          (if i + min (dataSizeTable t.operandType) len - len < t.vectorLength (t.operands 5)
            then t.vectors (t.operands 5 * t.MaxVectorLength +
              (i + min (dataSizeTable t.operandType) len - len))
            else 0) := by
  have hkM : ¬ len > t.MaxVectorLength := by omega
  have h32 : len % 2 ^ 32 = len := Nat.mod_eq_of_lt (by omega)
  have he : (if dataSizeTable t.operandType > len then len % 2 ^ 32
      else dataSizeTable t.operandType) = min (dataSizeTable t.operandType) len := by
    rw [h32]
    split_ifs <;> omega
  refine ⟨?_, rfl, rfl, ?_⟩
  · simp only [rotate_down, hk, hkM, if_false, h32, if_true]
  intro i hi
  have hsep := reg_sep t.MaxVectorLength hne
  simp only [rotate_down, hk, hkM, if_false, he]
  have hel : min (dataSizeTable t.operandType) len ≤ len := Nat.min_le_right _ _
  generalize min (dataSizeTable t.operandType) len = e at hel ⊢
  by_cases h : i + e < len
  · rw [if_pos h, memcpy_apply, if_neg (by omega), memcpy_apply, if_pos (by omega)]
    have ea : t.operands 5 * t.MaxVectorLength + e
        + (t.operands 0 * t.MaxVectorLength + i - t.operands 0 * t.MaxVectorLength)
        = t.operands 5 * t.MaxVectorLength + (i + e) := by omega
    rw [ea]
    exact zero_fill_apply _ _ _ _ _ h
  · rw [if_neg h, memcpy_apply, if_pos (by omega), memcpy_apply, if_neg (by omega)]
    have ea : t.operands 5 * t.MaxVectorLength
        + (t.operands 0 * t.MaxVectorLength + i
            - (t.operands 0 * t.MaxVectorLength + len - e))
        = t.operands 5 * t.MaxVectorLength + (i + e - len) := by omega
    rw [ea]
    exact zero_fill_apply _ _ _ _ _ (by omega)

/-- After `rotate_up` with length `len` of a source of that length, the destination holds the
source moved up by one element, the top element at the bottom. -/
theorem rotate_up_bytes (t : CThread) (len : Nat)
    (hk : t.registers (t.operands 4) = len) (hlen : len ≤ t.MaxVectorLength)
    (hL : t.vectorLength (t.operands 5) = len)
    (hM : t.MaxVectorLength < 2 ^ 32) (hne : t.operands 0 ≠ t.operands 5) :
    (rotate_up t).2.vectorLength (t.operands 0) = len ∧
    ∀ i, i < len →
      (rotate_up t).2.vectors (t.operands 0 * t.MaxVectorLength + i) =
        if i < min (dataSizeTable t.operandType) len
        then t.vectors (t.operands 5 * t.MaxVectorLength +
              (len - min (dataSizeTable t.operandType) len + i))
        else t.vectors (t.operands 5 * t.MaxVectorLength +
              (i - min (dataSizeTable t.operandType) len)) := by
  have hkM : ¬ len > t.MaxVectorLength := by omega
  have h32 : len % 2 ^ 32 = len := Nat.mod_eq_of_lt (by omega)
  have he : (if dataSizeTable t.operandType > len then len % 2 ^ 32
      else dataSizeTable t.operandType) = min (dataSizeTable t.operandType) len := by
    rw [h32]
    split_ifs <;> omega
  have hLL : ¬ len > len := by omega
  refine ⟨?_, ?_⟩
  · simp only [rotate_up, hk, hkM, if_false, h32, if_true]
  intro i hi
  have hsep := reg_sep t.MaxVectorLength hne
  simp only [rotate_up, hk, hkM, hL, hLL, if_false, he]
  have hel : min (dataSizeTable t.operandType) len ≤ len := Nat.min_le_right _ _
  generalize min (dataSizeTable t.operandType) len = e at hel ⊢
  by_cases h : i < e
  · rw [if_pos h, memcpy_apply, if_neg (by omega), memcpy_apply, if_pos (by omega)]
    congr 1
    omega
  · rw [if_neg h, memcpy_apply, if_pos (by omega), memcpy_apply, if_neg (by omega)]
    congr 1
    omega

/-- C10: `rotate_down` with length `len ≤ MaxVectorLength` followed by `rotate_up` with the
same length and operand type, each step between distinct registers, yields a vector of length
`len` whose bytes are those of the source, zero-padded to `len` bytes if it is shorter. (The
alignment of `len` to the element size is not needed.) -/
theorem rotate_down_up_roundtrip (t t2 : CThread) (len : Nat)
    (hlen : len ≤ t.MaxVectorLength) (hM : t.MaxVectorLength < 2 ^ 32)
    (h1k : t.registers (t.operands 4) = len) (h1 : t.operands 0 ≠ t.operands 5)
    (h2s : SameVectors (rotate_down t).2 t2) (h2ot : t2.operandType = t.operandType)
    (h2rt : t2.operands 5 = t.operands 0)
    (h2k : t2.registers (t2.operands 4) = len) (h2 : t2.operands 0 ≠ t2.operands 5) :
    (rotate_up t2).2.vectorLength (t2.operands 0) = len ∧
    ∀ i, i < len →
      (rotate_up t2).2.vectors (t2.operands 0 * t.MaxVectorLength + i) =
        if i < t.vectorLength (t.operands 5)
        then t.vectors (t.operands 5 * t.MaxVectorLength + i) else 0 := by
  obtain ⟨hv, hl, hm⟩ := h2s
  obtain ⟨d1, d2, _, d4⟩ := rotate_down_bytes t len h1k hlen hM h1
  have hM2 : t2.MaxVectorLength = t.MaxVectorLength := by rw [hm, d2]
  have hL2 : t2.vectorLength (t2.operands 5) = len := by rw [hl, h2rt, d1]
  obtain ⟨u1, u2⟩ := rotate_up_bytes t2 len h2k (by omega) hL2 (by omega) h2
  refine ⟨u1, ?_⟩
  intro i hi
  have hu := u2 i hi
  rw [hM2, h2ot, hv, h2rt] at hu
  rw [hu]
  have hel : min (dataSizeTable t.operandType) len ≤ len := Nat.min_le_right _ _
  generalize hee : min (dataSizeTable t.operandType) len = e at hel hu ⊢
  by_cases h : i < e
  · rw [if_pos h, d4 _ (by omega), hee, if_neg (by omega)]
    have ea : len - e + i + e - len = i := by omega
    rw [ea]
  · rw [if_neg h, d4 _ (by omega), hee, if_pos (by omega)]
    have ea : i - e + e = i := by omega
    rw [ea]

/-- C10 at a concrete input: the 6-byte vector 1..6 rotated as int16 elements with length 8,
between 16-byte registers. -/
theorem rotate_down_up_roundtrip_witness :
    (rotate_up rotT2).2.vectorLength 4 = 8 ∧
    ∀ i, i < 8 →
      (rotate_up rotT2).2.vectors (4 * 16 + i) =
        if i < 6 then rotT1.vectors (1 * 16 + i) else 0 :=
  rotate_down_up_roundtrip rotT1 rotT2 8 (by decide) (by decide) (by decide) (by decide)
    ⟨rfl, rfl, rfl⟩ (by decide) (by decide) (by decide) (by decide)

/-! Compress: evaluation of the saturation and overflow paths -/

/-- C2 (evaluation at the failing input): `compress` with signed saturation (op 5) at operand
type int16 stores the int16 lanes 0x0100, 0x00FF, 0xFF80, 0x007F as the bytes 0x00, 0xFF, 0x80,
0x7F, the lanes 0x0100 and 0x00FF truncated and not clamped to 0x7F; at operand type int8 the
byte pair 0x10, 0x00 is stored as the nibble pair 0x00, the value 16 not clamped to 7. -/
theorem compress_ss_int16_int8_not_clamped :
    regBytes (compress sampleEnv
      (mkThread 64 1 5 2 3 1 8 0 [0x00, 0x01, 0xFF, 0x00, 0x80, 0xFF, 0x7F, 0x00])).2 2 4
      = [0x00, 0xFF, 0x80, 0x7F] ∧
    (compress sampleEnv
      (mkThread 64 1 5 2 3 1 8 0 [0x00, 0x01, 0xFF, 0x00, 0x80, 0xFF, 0x7F, 0x00])).2.vectorLength 2
      = 4 ∧
    regBytes (compress sampleEnv (mkThread 64 0 5 2 3 1 2 0 [0x10, 0x00])).2 2 1 = [0x00] := by
  decide

/-- The int16 lane loop of `compress` never sets the signed overflow flag: the promoted
comparison `val - 0xFF80 > 0xFF` is false for every 16-bit `val`. -/
theorem compressBody1_overflowS2 (select source destination pos : Nat) (s : CompressState) :
    (compressBody1 select source destination pos s).overflowS2 = s.overflowS2 := by
  have h := readLE_lt s.mem (source + 2 * pos) 2
  have hf : ¬ ((readLE s.mem (source + 2 * pos) 2 : Int) - 0xFF80 > 0xFF) := by
    norm_num at h
    omega
  unfold compressBody1
  rcases select with _ | _ | _ | n
  · simp [hf]
  · simp
  · simp
  · simp

/-- No signed overflow interrupt is raised when the flag `overflowS2` is clear. -/
theorem compressInterrupts_no_sign (E : Env) (ot sel mask : Nat) (s : CompressState)
    (h : s.overflowS2 = false) :
    Interrupt.INT_OVERFL_SIGN ∉ compressInterrupts E ot sel mask s := by
  unfold compressInterrupts
  simp only [h, Bool.false_eq_true, and_false, if_false]
  split_ifs <;> simp

/-- C3 (the code at operand type int16): `compress` never raises `INT_OVERFL_SIGN` at operand
type int16, whatever the lanes, the selector and the mask are. -/
theorem compress_int16_never_signed_overflow (E : Env) (t : CThread)
    (hot : t.operandType = 1) (hi : Interrupt.INT_OVERFL_SIGN ∉ t.interrupts) :
    Interrupt.INT_OVERFL_SIGN ∉ (compress E t).2.interrupts := by
  have hS : ∀ (bound sel src dst : Nat) (s0 : CompressState), s0.overflowS2 = false →
      (forLoop bound 1 (compressBody1 sel src dst) bound 0 s0).overflowS2 = false := by
    intro bound sel src dst s0 h0
    obtain ⟨P, _, hP⟩ := forLoop_invariant bound 1 (compressBody1 sel src dst)
      (fun _ s => s.overflowS2 = false) (by omega)
      (fun pos s _ hs => by
        show (compressBody1 sel src dst pos s).overflowS2 = false
        rw [compressBody1_overflowS2]
        exact hs) bound 0 s0 (by omega) h0
    exact hP
  have hF : (compressFinal E t).overflowS2 = false := by
    simp only [compressFinal, hot, compressLoop]
    exact hS _ _ _ _ _ rfl
  show Interrupt.INT_OVERFL_SIGN ∉ t.interrupts ++ compressInterrupts E t.operandType
    ((t.op + 252) % 256) (t.parm 3) (compressFinal E t)
  simp only [List.mem_append, not_or]
  exact ⟨hi, compressInterrupts_no_sign _ _ _ _ _ hF⟩

/-- C3 at the claim's input: the mask requests the signed overflow interrupt, the int16 lane
0x0100 lies outside the signed 8-bit range, and `compress` with the wrap selector (op 4) does
not raise `INT_OVERFL_SIGN`. -/
theorem compress_int16_never_signed_overflow_witness :
    (2 % 2 ^ 32) &&& sampleEnv.MSK_OVERFL_SIGN ≠ 0 ∧
    ¬ (toInt 16 0x0100 ≤ 127) ∧
    Interrupt.INT_OVERFL_SIGN ∉ (compress sampleEnv
      (mkThread 64 1 4 2 3 1 8 2 [0x00, 0x01, 0xFF, 0x00, 0x80, 0xFF, 0x7F, 0x00])).2.interrupts :=
  ⟨by decide, by decide,
    compress_int16_never_signed_overflow sampleEnv
      (mkThread 64 1 4 2 3 1 8 2 [0x00, 0x01, 0xFF, 0x00, 0x80, 0xFF, 0x7F, 0x00]) rfl
      (by decide)⟩

/-- C6 (evaluation at the failing input): at operand type int8 the one-byte vector 0x8F,
expanded with sign extension (op 7, length 2) to the bytes 0x8F, 0xF8 and compressed with
signed saturation (op 5, length 2), comes back as the byte 0x88 and not 0x8F. -/
theorem expand_compress_ss_int8_not_roundtrip :
    regBytes (expand sampleEnv (mkThread 64 0 7 2 3 1 2 0 [0x8F])).2 2 2 = [0x8F, 0xF8] ∧
    (compress sampleEnv
      (nextThread (expand sampleEnv (mkThread 64 0 7 2 3 1 2 0 [0x8F])).2 5 4 3 2 2 0)).2.vectorLength 4
      = 1 ∧
    regBytes (compress sampleEnv
      (nextThread (expand sampleEnv (mkThread 64 0 7 2 3 1 2 0 [0x8F])).2 5 4 3 2 2 0)).2 4 1
      = [0x88] := by
  decide

/-- C7 (evaluation at the failing input): `expand` with sign extension (op 7) at operand type
int16 stores the source byte 0x80 as the 16-bit element 0x0080 (bytes 0x80, 0x00), not 0xFF80;
at operand type int8 the source byte 0x17 is stored as the bytes 0x17, 0x01, the low nibble 7
not extended to 0x07. -/
theorem expand_sign_int16_int8_not_extended :
    regBytes (expand sampleEnv (mkThread 64 1 7 2 3 1 2 0 [0x80])).2 2 2 = [0x80, 0x00] ∧
    regBytes (expand sampleEnv (mkThread 64 0 7 2 3 1 2 0 [0x17])).2 2 2 = [0x17, 0x01] := by
  decide

/-! Lane loops of compress and expand -/

theorem compressLoop_eq (E : Env) (ot sel src dst n : Nat) (s0 : CompressState) (h : ot ≤ 6) :
    compressLoop E ot sel src dst n s0 =
      forLoop n (laneStep ot) (compressBody E ot sel src dst) n 0 s0 := by
  interval_cases ot <;> rfl

theorem expandLoop_eq (E : Env) (ot se src dst n : Nat) (m : Nat → Byte) (h : ot ≤ 6) :
    expandLoop E ot se src dst n m =
      forLoop n (laneStep ot) (expandBody E ot se src dst) n 0 m := by
  interval_cases ot <;> rfl

/-- An iteration of the `compress` loop changes only the bytes of its destination lane. -/
theorem compressBody_frame (E : Env) (ot sel src dst p : Nat) (s : CompressState) (x : Nat)
    (hot : ot ≤ 4) (hx : x < dst + p ∨ dst + p + laneStep ot ≤ x) :
    (compressBody E ot sel src dst p s).mem x = s.mem x := by
  interval_cases ot <;> rcases sel with _ | _ | _ | n <;>
    simp only [compressBody, compressBody0, compressBody1, compressBody2, compressBody3,
      compressBody4, laneStep] at hx ⊢ <;>
    (try split_ifs) <;>
    simp only [writeLE_apply] <;>
    rw [if_neg (by omega)]

/-- What an iteration of the `compress` loop stores depends only on the bytes of its source
lane. -/
theorem compressBody_val (E : Env) (ot sel src dst p : Nat) (s s' : CompressState)
    (hot : ot ≤ 4)
    (h : ∀ j, j < 2 * laneStep ot → s.mem (src + 2 * p + j) = s'.mem (src + 2 * p + j))
    (j : Nat) (hj : j < laneStep ot) :
    (compressBody E ot sel src dst p s).mem (dst + p + j) =
      (compressBody E ot sel src dst p s').mem (dst + p + j) := by
  interval_cases ot
  · have hr := readLE_congr s.mem s'.mem (src + 2 * p) 2
      (fun i hi => h i (by simp only [laneStep]; omega))
    simp only [laneStep] at hj
    have hc : dst + p ≤ dst + p + j ∧ dst + p + j < dst + p + 1 := by omega
    rcases sel with _ | _ | _ | n <;>
      simp only [compressBody, compressBody0, hr] <;>
      (try split_ifs) <;>
      simp only [writeLE_apply, if_pos hc]
  · have hr := readLE_congr s.mem s'.mem (src + 2 * p) 2
      (fun i hi => h i (by simp only [laneStep]; omega))
    simp only [laneStep] at hj
    have hc : dst + p ≤ dst + p + j ∧ dst + p + j < dst + p + 1 := by omega
    rcases sel with _ | _ | _ | n <;>
      simp only [compressBody, compressBody1, hr] <;>
      simp only [writeLE_apply, if_pos hc]
  · have hr := readLE_congr s.mem s'.mem (src + 2 * p) 4
      (fun i hi => h i (by simp only [laneStep]; omega))
    simp only [laneStep] at hj
    have hc : dst + p ≤ dst + p + j ∧ dst + p + j < dst + p + 2 := by omega
    rcases sel with _ | _ | _ | n <;>
      simp only [compressBody, compressBody2, hr] <;>
      simp only [writeLE_apply, if_pos hc]
  · have hr := readLE_congr s.mem s'.mem (src + 2 * p) 8
      (fun i hi => h i (by simp only [laneStep]; omega))
    simp only [laneStep] at hj
    have hc : dst + p ≤ dst + p + j ∧ dst + p + j < dst + p + 4 := by omega
    rcases sel with _ | _ | _ | n <;>
      simp only [compressBody, compressBody3, hr] <;>
      simp only [writeLE_apply, if_pos hc]
  · have hr := readLE_congr s.mem s'.mem (src + 2 * p) 8
      (fun i hi => h i (by simp only [laneStep]; omega))
    have hr2 := readLE_congr s.mem s'.mem (src + 2 * p + 8) 8
      (fun i hi => by
        have := h (8 + i) (by simp only [laneStep]; omega)
        rw [show src + 2 * p + 8 + i = src + 2 * p + (8 + i) by omega]
        exact this)
    simp only [laneStep] at hj
    have hc : dst + p ≤ dst + p + j ∧ dst + p + j < dst + p + 8 := by omega
    rcases sel with _ | _ | _ | n <;>
      simp only [compressBody, compressBody4, hr, hr2] <;>
      simp only [writeLE_apply, if_pos hc]

theorem laneStep_pos (ot : Nat) (h : ot ≤ 6) : 0 < laneStep ot := by
  interval_cases ot <;> simp [laneStep]

/-- After `compress` with a length `N ≤ MaxVectorLength` that is a multiple of the source
element size, every destination lane holds what the loop body stores for it when run on the
zero-filled initial buffer. Source and destination may be the same register. -/
theorem compress_lanes (E : Env) (t : CThread) (N : Nat) (hot : t.operandType ≤ 4)
    (hN : t.registers (t.operands 4) = N) (hNM : N ≤ t.MaxVectorLength)
    (hM : t.MaxVectorLength < 2 ^ 32) (hdiv : 2 * laneStep t.operandType ∣ N)
    (p : Nat) (hp : laneStep t.operandType ∣ p) (hpN : p < N / 2)
    (j : Nat) (hj : j < laneStep t.operandType) :
    (compressFinal E t).mem (t.operands 0 * t.MaxVectorLength + p + j) =
      (compressBody E t.operandType ((t.op + 252) % 256) (t.operands 5 * t.MaxVectorLength)
        (t.operands 0 * t.MaxVectorLength) p
        { mem := zeroFill t.vectors (t.operands 5 * t.MaxVectorLength)
            (t.vectorLength (t.operands 5)) N,
          overflowU2 := false, overflowS2 := false, overflowF2 := false }).mem
        (t.operands 0 * t.MaxVectorLength + p + j) := by
  have h32 : N % 2 ^ 32 = N := Nat.mod_eq_of_lt (by omega)
  have hw := laneStep_pos t.operandType (by omega)
  have hdiv2 : laneStep t.operandType ∣ N / 2 := by
    obtain ⟨c, hc⟩ := hdiv
    refine ⟨c, ?_⟩
    rw [hc, Nat.mul_assoc, Nat.mul_div_cancel_left _ (by omega : 0 < 2)]
  unfold compressFinal
  simp only [hN, h32]
  rw [compressLoop_eq _ _ _ _ _ _ _ (by omega)]
  refine (forLoop_lanes CompressState.mem (N / 2) (N / 2) (laneStep t.operandType)
    (laneStep t.operandType) (2 * laneStep t.operandType)
    (fun p => t.operands 0 * t.MaxVectorLength + p)
    (fun p => t.operands 5 * t.MaxVectorLength + 2 * p) _ hw ?_ ?_ ?_ ?_ _).1 p hp hpN hpN j hj
  · intro a b ha hb hab
    have := dvd_lt_add_le ha hb hab
    show t.operands 0 * t.MaxVectorLength + a + laneStep t.operandType
      ≤ t.operands 0 * t.MaxVectorLength + b
    omega
  · intro a ha haN _ i hi
    have h1 := dvd_lt_add_le ha hdiv2 haN
    show t.operands 5 * t.MaxVectorLength + 2 * a + i < t.operands 0 * t.MaxVectorLength + 0 ∨
      t.operands 0 * t.MaxVectorLength + a ≤ t.operands 5 * t.MaxVectorLength + 2 * a + i
    by_cases hne : t.operands 0 = t.operands 5
    · rw [hne]
      omega
    · have := reg_sep t.MaxVectorLength hne
      omega
  · intro a s x hx
    exact compressBody_frame E _ _ _ _ a s x hot hx
  · intro a s s' h i hi
    exact compressBody_val E _ _ _ _ a s s' hot h i hi

/-- An iteration of the `expand` loop changes only the bytes of its destination lane. -/
theorem expandBody_frame (E : Env) (ot se src dst p : Nat) (m : Nat → Byte) (x : Nat)
    (hot : ot ≤ 4) (hx : x < dst + p * 2 ∨ dst + p * 2 + 2 * laneStep ot ≤ x) :
    expandBody E ot se src dst p m x = m x := by
  interval_cases ot <;>
    simp only [expandBody, expandBody0, expandBody1, expandBody2, expandBody3,
      expandBody4, laneStep] at hx ⊢ <;>
    simp only [writeLE_apply] <;>
    repeat rw [if_neg (by omega)]

/-- What an iteration of the `expand` loop stores depends only on the bytes of its source
lane. -/
theorem expandBody_val (E : Env) (ot se src dst p : Nat) (m m' : Nat → Byte)
    (hot : ot ≤ 4)
    (h : ∀ j, j < laneStep ot → m (src + p + j) = m' (src + p + j))
    (j : Nat) (hj : j < 2 * laneStep ot) :
    expandBody E ot se src dst p m (dst + p * 2 + j) =
      expandBody E ot se src dst p m' (dst + p * 2 + j) := by
  interval_cases ot
  · have hr : m (src + p) = m' (src + p) := h 0 (by simp [laneStep])
    simp only [laneStep] at hj
    have hc : dst + p * 2 ≤ dst + p * 2 + j ∧ dst + p * 2 + j < dst + p * 2 + 2 := by omega
    simp only [expandBody, expandBody0, hr, writeLE_apply, if_pos hc]
  · have hr : m (src + p) = m' (src + p) := h 0 (by simp [laneStep])
    simp only [laneStep] at hj
    have hc : dst + p * 2 ≤ dst + p * 2 + j ∧ dst + p * 2 + j < dst + p * 2 + 2 := by omega
    simp only [expandBody, expandBody1, hr, writeLE_apply, if_pos hc]
  · have hr := readLE_congr m m' (src + p) 2 (fun i hi => h i (by simp only [laneStep]; omega))
    simp only [laneStep] at hj
    have hc : dst + p * 2 ≤ dst + p * 2 + j ∧ dst + p * 2 + j < dst + p * 2 + 4 := by omega
    simp only [expandBody, expandBody2, hr, writeLE_apply, if_pos hc]
  · have hr := readLE_congr m m' (src + p) 4 (fun i hi => h i (by simp only [laneStep]; omega))
    simp only [laneStep] at hj
    have hc : dst + p * 2 ≤ dst + p * 2 + j ∧ dst + p * 2 + j < dst + p * 2 + 8 := by omega
    simp only [expandBody, expandBody3, hr, writeLE_apply, if_pos hc]
  · have hr := readLE_congr m m' (src + p) 8 (fun i hi => h i (by simp only [laneStep]; omega))
    simp only [laneStep] at hj
    simp only [expandBody, expandBody4, hr, writeLE_apply]
    by_cases h8 : j < 8
    · have hc1 : ¬ (dst + p * 2 + 8 ≤ dst + p * 2 + j ∧ dst + p * 2 + j < dst + p * 2 + 8 + 8) := by
        omega
      have hc2 : dst + p * 2 ≤ dst + p * 2 + j ∧ dst + p * 2 + j < dst + p * 2 + 8 := by omega
      simp only [if_neg hc1, if_pos hc2]
    · have hc1 : dst + p * 2 + 8 ≤ dst + p * 2 + j ∧ dst + p * 2 + j < dst + p * 2 + 8 + 8 := by
        omega
      simp only [if_pos hc1]

/-- After `expand` with a length `N ≤ MaxVectorLength` that is a multiple of the element size,
between distinct registers, every lane the loop writes holds what the loop body stores for it
when run on the zero-filled initial buffer. -/
theorem expand_lanes (E : Env) (t : CThread) (N : Nat) (hot : t.operandType ≤ 4)
    (hN : t.registers (t.operands 4) = N) (hNM : N ≤ t.MaxVectorLength)
    (hM : t.MaxVectorLength < 2 ^ 32) (hdiv : 2 * laneStep t.operandType ∣ N)
    (hne : t.operands 0 ≠ t.operands 5)
    (p : Nat) (hp : laneStep t.operandType ∣ p) (hpN : p < N)
    (j : Nat) (hj : j < 2 * laneStep t.operandType) :
    expandFinal E t (t.operands 0 * t.MaxVectorLength + p * 2 + j) =
      expandBody E t.operandType (t.op &&& 1) (t.operands 5 * t.MaxVectorLength)
        (t.operands 0 * t.MaxVectorLength) p
        (zeroFill t.vectors (t.operands 5 * t.MaxVectorLength)
            (t.vectorLength (t.operands 5)) (N / 2))
        (t.operands 0 * t.MaxVectorLength + p * 2 + j) := by
  have h32 : N % 2 ^ 32 = N := Nat.mod_eq_of_lt (by omega)
  have hnM : ¬ N > t.MaxVectorLength := by omega
  have hw := laneStep_pos t.operandType (by omega)
  have hdiv1 : laneStep t.operandType ∣ N := Dvd.dvd.trans (Dvd.intro_left 2 rfl) hdiv
  unfold expandFinal
  simp only [hN, h32, hnM, if_false]
  rw [expandLoop_eq _ _ _ _ _ _ _ (by omega)]
  refine (forLoop_lanes (fun m => m) N N (laneStep t.operandType)
    (2 * laneStep t.operandType) (laneStep t.operandType)
    (fun p => t.operands 0 * t.MaxVectorLength + p * 2)
    (fun p => t.operands 5 * t.MaxVectorLength + p) _ hw ?_ ?_ ?_ ?_ _).1 p hp hpN hpN j hj
  · intro a b ha hb hab
    have := dvd_lt_add_le ha hb hab
    show t.operands 0 * t.MaxVectorLength + a * 2 + 2 * laneStep t.operandType
      ≤ t.operands 0 * t.MaxVectorLength + b * 2
    omega
  · intro a ha haN _ i hi
    have h1 := dvd_lt_add_le ha hdiv1 haN
    show t.operands 5 * t.MaxVectorLength + a + i < t.operands 0 * t.MaxVectorLength + 0 * 2 ∨
      t.operands 0 * t.MaxVectorLength + a * 2 ≤ t.operands 5 * t.MaxVectorLength + a + i
    have := reg_sep t.MaxVectorLength hne
    omega
  · intro a s x hx
    exact expandBody_frame E _ _ _ _ a s x hot hx
  · intro a s s' h i hi
    exact expandBody_val E _ _ _ _ a s s' hot h i hi

/-! Round trip of expand and compress -/

/-- At the operand types 1..4 the low half of every lane that `expand` writes holds the bytes
of the narrow source element, with either extension. -/
theorem expandBody_low (E : Env) (ot se src dst p : Nat) (m : Nat → Byte)
    (h1 : 1 ≤ ot) (h4 : ot ≤ 4) (j : Nat) (hj : j < laneStep ot) :
    expandBody E ot se src dst p m (dst + p * 2 + j) = m (src + p + j) := by
  interval_cases ot
  · simp only [laneStep] at hj
    have hc : dst + p * 2 ≤ dst + p * 2 + j ∧ dst + p * 2 + j < dst + p * 2 + 2 := by omega
    have hj0 : j = 0 := by omega
    simp only [expandBody, expandBody1, writeLE_apply, if_pos hc, signExt1 _ (m (src + p)).isLt,
      ite_self, Nat.add_sub_cancel_left]
    subst hj0
    simp only [Nat.add_zero, pow_zero, Nat.div_one, toByte_val]
  · simp only [laneStep] at hj
    have hc : dst + p * 2 ≤ dst + p * 2 + j ∧ dst + p * 2 + j < dst + p * 2 + 4 := by omega
    have hlt := readLE_lt m (src + p) 2
    simp only [expandBody, expandBody2, writeLE_apply, if_pos hc, Nat.add_sub_cancel_left]
    rw [← toByte_readLE_div m (src + p) 2 j hj]
    apply toByte_div_congr _ _ 2 j _ hj
    rw [signExt2 _ (by norm_num at hlt ⊢; exact hlt)]
    split_ifs <;> omega
  · simp only [laneStep] at hj
    have hc : dst + p * 2 ≤ dst + p * 2 + j ∧ dst + p * 2 + j < dst + p * 2 + 8 := by omega
    have hlt := readLE_lt m (src + p) 4
    simp only [expandBody, expandBody3, writeLE_apply, if_pos hc, Nat.add_sub_cancel_left]
    rw [← toByte_readLE_div m (src + p) 4 j hj]
    apply toByte_div_congr _ _ 4 j _ hj
    rw [signExt3 _ (by norm_num at hlt ⊢; exact hlt)]
    split_ifs <;> omega
  · simp only [laneStep] at hj
    have hc1 : ¬ (dst + p * 2 + 8 ≤ dst + p * 2 + j ∧ dst + p * 2 + j < dst + p * 2 + 8 + 8) := by
      omega
    have hc2 : dst + p * 2 ≤ dst + p * 2 + j ∧ dst + p * 2 + j < dst + p * 2 + 8 := by omega
    simp only [expandBody, expandBody4, writeLE_apply, if_neg hc1, if_pos hc2,
      Nat.add_sub_cancel_left]
    exact toByte_readLE_div m (src + p) 8 j hj

/-- At the operand types 1..4 `compress` with the wrap selector stores the low half of the
source lane. -/
theorem compressBody_wrap_low (E : Env) (ot src dst p : Nat) (s : CompressState)
    (h1 : 1 ≤ ot) (h4 : ot ≤ 4) (j : Nat) (hj : j < laneStep ot) :
    (compressBody E ot 0 src dst p s).mem (dst + p + j) = s.mem (src + 2 * p + j) := by
  interval_cases ot <;> simp only [laneStep] at hj
  · have hc : dst + p ≤ dst + p + j ∧ dst + p + j < dst + p + 1 := by omega
    simp only [compressBody, compressBody1, writeLE_apply, if_pos hc, Nat.add_sub_cancel_left]
    exact toByte_readLE_div s.mem (src + 2 * p) 2 j (by omega)
  · have hc : dst + p ≤ dst + p + j ∧ dst + p + j < dst + p + 2 := by omega
    simp only [compressBody, compressBody2, writeLE_apply, if_pos hc, Nat.add_sub_cancel_left]
    exact toByte_readLE_div s.mem (src + 2 * p) 4 j (by omega)
  · have hc : dst + p ≤ dst + p + j ∧ dst + p + j < dst + p + 4 := by omega
    simp only [compressBody, compressBody3, writeLE_apply, if_pos hc, Nat.add_sub_cancel_left]
    exact toByte_readLE_div s.mem (src + 2 * p) 8 j (by omega)
  · have hc : dst + p ≤ dst + p + j ∧ dst + p + j < dst + p + 8 := by omega
    simp only [compressBody, compressBody4, writeLE_apply, if_pos hc, Nat.add_sub_cancel_left]
    exact toByte_readLE_div s.mem (src + 2 * p) 8 j (by omega)

theorem toByte_val_eq (n : Nat) : (toByte n).val = n % 256 := rfl

set_option maxRecDepth 100000 in
/-- The nibble pair that `expand` makes of a byte (either extension), read back as a 16-bit
value and packed by `compress` with the wrap selector, is the byte. -/
theorem nibble_key (se : Nat) (v : Byte) (x : Nat)
    (hx : x = (if se ≠ 0 then ofInt 8 (wrapInt 32 (toInt 8 v.val * 16) / 16) else v.val &&& 15)
      + 256 * (if se ≠ 0 then ofInt 8 (toInt 8 v.val / 16) else v.val >>> 4)) :
    toByte ((((x % 256 + 256 * (x / 256 % 256 + 256 * 0)) % 256 &&& 15) |||
      ((x % 256 + 256 * (x / 256 % 256 + 256 * 0)) / 256) <<< 4) % 256) = v := by
  subst hx
  by_cases h : se = 0
  · subst h
    simp only [ne_eq, not_true_eq_false, if_false]
    revert v
    decide
  · simp only [ne_eq, h, not_false_eq_true, if_true]
    revert v
    decide

/-- At operand type 0 a byte expanded to a nibble pair (either extension) and packed again by
`compress` with the wrap selector is the byte itself. -/
theorem nibble_pair_roundtrip (E : Env) (se src dst src2 dst2 p : Nat) (m : Nat → Byte)
    (s : CompressState)
    (h0 : s.mem (src2 + 2 * p) = expandBody E 0 se src dst p m (dst + p * 2))
    (h1 : s.mem (src2 + 2 * p + 1) = expandBody E 0 se src dst p m (dst + p * 2 + 1)) :
    (compressBody E 0 0 src2 dst2 p s).mem (dst2 + p) = m (src + p) := by
  have hc : dst2 + p ≤ dst2 + p ∧ dst2 + p < dst2 + p + 1 := by omega
  have hc0 : dst + p * 2 ≤ dst + p * 2 ∧ dst + p * 2 < dst + p * 2 + 2 := by omega
  have hc1 : dst + p * 2 ≤ dst + p * 2 + 1 ∧ dst + p * 2 + 1 < dst + p * 2 + 2 := by omega
  simp only [expandBody, expandBody0, writeLE_apply, if_pos hc0, if_pos hc1, Nat.sub_self,
    Nat.add_sub_cancel_left, pow_zero, pow_one, Nat.div_one] at h0 h1
  simp only [compressBody, compressBody0, writeLE_apply, if_pos hc, Nat.sub_self, pow_zero,
    Nat.div_one, readLE, h0, h1, toByte_val_eq]
  exact nibble_key se (m (src + p)) _ rfl

theorem zeroFill_of_le (m : Nat → Byte) (src init old : Nat) (h : old ≤ init) :
    zeroFill m src init old = m := by
  unfold zeroFill
  rw [if_neg (by omega)]

/-- Every offset splits into a multiple of the lane step and a remainder below it. -/
theorem lane_split (w i : Nat) (hw : 0 < w) : ∃ p j, w ∣ p ∧ j < w ∧ i = p + j :=
  ⟨i / w * w, i % w, Dvd.intro_left _ rfl, Nat.mod_lt _ hw, (Nat.div_add_mod' i w).symm⟩

/-- C5: for the integer operand types 0..4 and a narrow vector of byte length `L` in RT, `L` a
multiple of the narrow element size (`laneStep`, one byte for the nibble pairs of type 0) and
`2 * L ≤ MaxVectorLength`: `expand` with `registers[rs] = 2 * L` into a register distinct from
RT, followed by `compress` with the wrap selector (op 4) and `registers[rs] = 2 * L` from the
expanded register, leaves a register of length `L` whose bytes are those of the narrow vector.
This holds for the sign extension (op 7) as for the zero extension (op 8), and for every
destination register of `compress`. -/
theorem expand_compress_wrap_roundtrip (E : Env) (t t2 : CThread) (L : Nat)
    (hot : t.operandType ≤ 4) (hL : t.vectorLength (t.operands 5) = L)
    (hdiv : laneStep t.operandType ∣ L) (h2L : 2 * L ≤ t.MaxVectorLength)
    (hM : t.MaxVectorLength < 2 ^ 32)
    (hrs : t.registers (t.operands 4) = 2 * L) (hne : t.operands 0 ≠ t.operands 5)
    (h2s : SameVectors (expand E t).2 t2) (h2ot : t2.operandType = t.operandType)
    (h2op : t2.op = 4) (h2rt : t2.operands 5 = t.operands 0)
    (h2rs : t2.registers (t2.operands 4) = 2 * L) :
    (compress E t2).2.vectorLength (t2.operands 0) = L ∧
    ∀ i, i < L →
      (compress E t2).2.vectors (t2.operands 0 * t.MaxVectorLength + i) =
        t.vectors (t.operands 5 * t.MaxVectorLength + i) := by
  obtain ⟨hv, hl, hm⟩ := h2s
  have h32 : (2 * L) % 2 ^ 32 = 2 * L := Nat.mod_eq_of_lt (by omega)
  have hM2 : t2.MaxVectorLength = t.MaxVectorLength := hm
  have hv2 : t2.vectors = expandFinal E t := hv
  have hnM : ¬ 2 * L > t.MaxVectorLength := by omega
  have hL2 : t2.vectorLength (t2.operands 5) = 2 * L := by
    rw [hl, h2rt]
    simp only [expand, hrs, h32, hnM, if_false, if_true]
  have hw := laneStep_pos t.operandType (by omega)
  have hdivN : 2 * laneStep t.operandType ∣ 2 * L := Nat.mul_dvd_mul_left 2 hdiv
  have hhalf : 2 * L / 2 = L := by omega
  refine ⟨?_, ?_⟩
  · simp only [compress, h2rs, h32, hhalf, if_true]
  intro i hi
  obtain ⟨p, j, hp, hj, rfl⟩ := lane_split (laneStep t.operandType) i hw
  show (compressFinal E t2).mem (t2.operands 0 * t.MaxVectorLength + (p + j)) = _
  have hc := compress_lanes E t2 (2 * L) (by omega) h2rs (by omega) (by omega)
    (by rw [h2ot]; exact hdivN) p (by rw [h2ot]; exact hp) (by omega) j (by rw [h2ot]; exact hj)
  rw [hM2, h2ot, h2op, hL2, h2rt, zeroFill_of_le _ _ _ _ (le_refl _), hv2] at hc
  rw [← Nat.add_assoc, hc]
  have he : ∀ k, k < 2 * laneStep t.operandType →
      expandFinal E t (t.operands 0 * t.MaxVectorLength + p * 2 + k) =
        expandBody E t.operandType (t.op &&& 1) (t.operands 5 * t.MaxVectorLength)
          (t.operands 0 * t.MaxVectorLength) p t.vectors
          (t.operands 0 * t.MaxVectorLength + p * 2 + k) := by
    intro k hk
    have := expand_lanes E t (2 * L) hot hrs (by omega) hM hdivN hne p hp (by omega) k hk
    rw [hL, hhalf, zeroFill_of_le _ _ _ _ (le_refl _)] at this
    exact this
  have h256 : (4 + 252) % 256 = 0 := by norm_num
  rw [h256]
  rcases Nat.eq_zero_or_pos t.operandType with h0 | hpos
  · rw [h0] at hj he ⊢
    simp only [laneStep] at hj he
    have hj0 : j = 0 := by omega
    subst hj0
    have e0 := he 0 (by omega)
    have e1 := he 1 (by omega)
    rw [Nat.add_zero] at e0 ⊢
    rw [Nat.add_zero]
    apply nibble_pair_roundtrip E (t.op &&& 1) _ _ _ _ p t.vectors
    · show expandFinal E t (t.operands 0 * t.MaxVectorLength + 2 * p) = _
      rw [show 2 * p = p * 2 by omega]
      exact e0
    · show expandFinal E t (t.operands 0 * t.MaxVectorLength + 2 * p + 1) = _
      rw [show 2 * p = p * 2 by omega]
      exact e1
  · rw [compressBody_wrap_low E _ _ _ p _ hpos hot j hj]
    show expandFinal E t (t.operands 0 * t.MaxVectorLength + 2 * p + j) = _
    rw [show 2 * p = p * 2 by omega, he j (by omega),
      expandBody_low E _ _ _ _ p _ hpos hot j hj, Nat.add_assoc]

/-- C5 at a concrete input: the int16 vector 0x1234, 0xFF80 expanded to int32 and compressed
again, between 64-byte registers. -/
theorem expand_compress_wrap_roundtrip_witness :
    (compress sampleEnv ecT2).2.vectorLength 4 = 4 ∧
    ∀ i, i < 4 →
      (compress sampleEnv ecT2).2.vectors (4 * 64 + i) = ecT1.vectors (1 * 64 + i) :=
  expand_compress_wrap_roundtrip sampleEnv ecT1 ecT2 4 (by decide) (by decide) (by decide)
    (by decide) (by decide) (by decide) (by decide) ⟨rfl, rfl, rfl⟩ (by decide) (by decide)
    (by decide) (by decide)

/-! Compress with unsigned saturation -/

/-- At the operand types 1..4 `compress` with unsigned saturation stores the bytes of the
source lane, read as an unsigned integer, clamped to the largest unsigned value of the
destination width. -/
theorem compressBody_us_byte (E : Env) (ot src dst p : Nat) (s : CompressState)
    (h1 : 1 ≤ ot) (h4 : ot ≤ 4) (j : Nat) (hj : j < laneStep ot) :
    (compressBody E ot 2 src dst p s).mem (dst + p + j) =
      toByte (min (readLE s.mem (src + 2 * p) (2 * laneStep ot)) (256 ^ laneStep ot - 1)
        / 256 ^ j) := by
  interval_cases ot <;> simp only [laneStep] at hj <;>
    simp only [laneStep, Nat.reduceMul, Nat.reducePow, Nat.reduceSub]
  · have hc : dst + p ≤ dst + p + j ∧ dst + p + j < dst + p + 1 := by omega
    simp only [compressBody, compressBody1, writeLE_apply, if_pos hc, Nat.add_sub_cancel_left,
      decide_eq_true_eq]
    refine congrArg (fun x => toByte (x / 256 ^ j)) ?_
    rw [Nat.min_def]
    split_ifs <;> omega
  · have hc : dst + p ≤ dst + p + j ∧ dst + p + j < dst + p + 2 := by omega
    simp only [compressBody, compressBody2, writeLE_apply, if_pos hc, Nat.add_sub_cancel_left,
      decide_eq_true_eq]
    refine congrArg (fun x => toByte (x / 256 ^ j)) ?_
    rw [Nat.min_def]
    split_ifs <;> omega
  · have hc : dst + p ≤ dst + p + j ∧ dst + p + j < dst + p + 4 := by omega
    simp only [compressBody, compressBody3, writeLE_apply, if_pos hc, Nat.add_sub_cancel_left,
      decide_eq_true_eq]
    refine congrArg (fun x => toByte (x / 256 ^ j)) ?_
    rw [Nat.min_def]
    split_ifs <;> omega
  · have hc : dst + p ≤ dst + p + j ∧ dst + p + j < dst + p + 8 := by omega
    have hlo := readLE_lt s.mem (src + 2 * p) 8
    have hsplit := readLE_add s.mem (src + 2 * p) 8 8
    simp only [Nat.reducePow] at hlo hsplit
    rw [show (16 : Nat) = 8 + 8 from rfl]
    simp only [compressBody, compressBody4, writeLE_apply, if_pos hc, Nat.add_sub_cancel_left,
      decide_eq_true_eq, hsplit]
    refine congrArg (fun x => toByte (x / 256 ^ j)) ?_
    rw [Nat.min_def]
    split_ifs <;> omega

/-- C4 (counterexample): at operand type int16 the lane 0xFF80 is negative when read as a
signed 16-bit integer, and `compress` with unsigned saturation (op 6) stores it as 0xFF, not
as 0. -/
theorem compress_us_negative_lane_not_zero :
    toInt 16 (readLE (mkThread 64 1 6 2 3 1 2 0 [0x80, 0xFF]).vectors (1 * 64) 2) < 0 ∧
    (compress sampleEnv (mkThread 64 1 6 2 3 1 2 0 [0x80, 0xFF])).2.vectors (2 * 64) = 0xFF ∧
    (compress sampleEnv (mkThread 64 1 6 2 3 1 2 0 [0x80, 0xFF])).2.vectors (2 * 64) ≠ 0 := by
  decide

/-- C4 (amended): for the integer operand types 1..4 and `compress` with unsigned saturation
(op 6), with `registers[rs] = N` a multiple of the source element size and at most
`MaxVectorLength`: the destination has length `N / 2`, and every destination element (of
`laneStep operandType` bytes, at an offset `p` that is a multiple of that size) equals the
corresponding source element (of twice the size, at offset `2 * p` of the source after its zero
fill up to `N`), read as an unsigned integer of the source width, clamped to the largest
unsigned value of the destination width. A lane that is negative as a signed integer is large
as an unsigned one and is stored as that largest value. -/
theorem compress_us_clamps_unsigned (E : Env) (t : CThread) (N : Nat)
    (h1 : 1 ≤ t.operandType) (h4 : t.operandType ≤ 4) (hop : t.op = 6)
    (hN : t.registers (t.operands 4) = N) (hNM : N ≤ t.MaxVectorLength)
    (hM : t.MaxVectorLength < 2 ^ 32) (hdiv : 2 * laneStep t.operandType ∣ N) :
    (compress E t).2.vectorLength (t.operands 0) = N / 2 ∧
    ∀ p, laneStep t.operandType ∣ p → p < N / 2 →
      readLE (compress E t).2.vectors (t.operands 0 * t.MaxVectorLength + p)
          (laneStep t.operandType) =
        min (readLE (zeroFill t.vectors (t.operands 5 * t.MaxVectorLength)
                (t.vectorLength (t.operands 5)) N)
              (t.operands 5 * t.MaxVectorLength + 2 * p) (2 * laneStep t.operandType))
          (256 ^ laneStep t.operandType - 1) := by
  have h32 : N % 2 ^ 32 = N := Nat.mod_eq_of_lt (by omega)
  refine ⟨?_, ?_⟩
  · simp only [compress, hN, h32, if_true]
  intro p hp hpN
  have hpow : 0 < 256 ^ laneStep t.operandType := Nat.pow_pos (by norm_num)
  have h258 : (6 + 252) % 256 = 2 := by norm_num
  rw [readLE_of_bytes _ _ _ (min (readLE (zeroFill t.vectors (t.operands 5 * t.MaxVectorLength)
      (t.vectorLength (t.operands 5)) N)
      (t.operands 5 * t.MaxVectorLength + 2 * p) (2 * laneStep t.operandType))
      (256 ^ laneStep t.operandType - 1))]
  · apply Nat.mod_eq_of_lt
    have := Nat.min_le_right (readLE (zeroFill t.vectors (t.operands 5 * t.MaxVectorLength)
      (t.vectorLength (t.operands 5)) N)
      (t.operands 5 * t.MaxVectorLength + 2 * p) (2 * laneStep t.operandType))
      (256 ^ laneStep t.operandType - 1)
    omega
  · intro j hj
    show (compressFinal E t).mem (t.operands 0 * t.MaxVectorLength + p + j) = _
    rw [compress_lanes E t N (by omega) hN hNM hM hdiv p hp hpN j hj, hop, h258,
      compressBody_us_byte E _ _ _ p _ h1 h4 j hj]

/-- C4 (amended) at a concrete input: the int16 lanes 0xFF80 and 0x007F compressed with
unsigned saturation between 64-byte registers. -/
theorem compress_us_clamps_unsigned_witness :
    (compress sampleEnv (mkThread 64 1 6 2 3 1 4 0 [0x80, 0xFF, 0x7F, 0x00])).2.vectorLength 2
      = 4 / 2 ∧
    ∀ p, laneStep 1 ∣ p → p < 4 / 2 →
      readLE (compress sampleEnv (mkThread 64 1 6 2 3 1 4 0 [0x80, 0xFF, 0x7F, 0x00])).2.vectors
          (2 * 64 + p) (laneStep 1) =
        min (readLE (zeroFill (mkThread 64 1 6 2 3 1 4 0 [0x80, 0xFF, 0x7F, 0x00]).vectors
                (1 * 64) 4 4) (1 * 64 + 2 * p) (2 * laneStep 1))
          (256 ^ laneStep 1 - 1) :=
  compress_us_clamps_unsigned sampleEnv (mkThread 64 1 6 2 3 1 4 0 [0x80, 0xFF, 0x7F, 0x00]) 4
    (by decide) (by decide) (by decide) (by decide) (by decide) (by decide) (by decide)

/-! Bit packing: bits2bool -/

theorem dataSizeTableLog_eq (ot : Nat) (h : ot ≤ 4) : dataSizeTableLog ot = ot := by
  interval_cases ot <;> rfl

theorem dataSizeTable_eq (ot : Nat) (h : ot ≤ 4) : dataSizeTable ot = 2 ^ ot := by
  interval_cases ot <;> rfl

/-- An even word combined with a bit has that bit as its lowest bit. -/
theorem or_bit_mod_two (x b : Nat) (hx : x % 2 = 0) (hb : b < 2) : (x ||| b) % 2 = b := by
  rcases Nat.lt_or_ge b 1 with h0 | h1
  · have : b = 0 := by omega
    subst this
    simpa using hx
  · have : b = 1 := by omega
    subst this
    exact Nat.or_mod_two_eq_one.mpr (Or.inr rfl)

/-- The mask of `bits2bool` with its lowest bit removed is even, also after truncation to
an element of at least one byte. -/
theorem mask_even (mask k : Nat) (hk : 1 ≤ k) :
    ((mask &&& 0xFFFFFFFFFFFFFFFE) % 2 ^ k) % 2 = 0 := by
  have h2 : (2 : Nat) ∣ 2 ^ k := dvd_pow_self 2 (by omega)
  rw [Nat.mod_mod_of_dvd _ h2]
  by_contra h
  have h1 : (mask &&& 0xFFFFFFFFFFFFFFFE) % 2 = 1 := by omega
  have := (Nat.and_mod_two_eq_one.mp h1).2
  omega

theorem mask_even' (mask : Nat) : (mask &&& 0xFFFFFFFFFFFFFFFE) % 2 = 0 := by
  by_contra h
  have h1 : (mask &&& 0xFFFFFFFFFFFFFFFE) % 2 = 1 := by omega
  have := (Nat.and_mod_two_eq_one.mp h1).2
  omega

/-- An iteration of the `bits2bool` loop changes only the bytes of its destination element. -/
theorem bits2boolBody_frame (ot mask src dst i : Nat) (m : Nat → Byte) (x : Nat) (hot : ot ≤ 4)
    (hx : x < dst + i * 2 ^ ot ∨ dst + i * 2 ^ ot + 2 ^ ot ≤ x) :
    bits2boolBody ot mask src dst i m x = m x := by
  interval_cases ot <;>
    simp only [bits2boolBody, writeLE_apply, Nat.shiftLeft_eq, Nat.reducePow] at hx ⊢ <;>
    repeat rw [if_neg (by omega)]

/-- The lowest bit of the element that an iteration of the `bits2bool` loop stores is the
source bit, whatever the buffer holds elsewhere. -/
theorem bits2boolBody_bit (ot mask src dst i : Nat) (m : Nat → Byte) (hot : ot ≤ 4) :
    (bits2boolBody ot (mask &&& 0xFFFFFFFFFFFFFFFE) src dst i m (dst + i * 2 ^ ot)).val % 2 =
      ((m (src + i / 8)).val >>> (i &&& 7)) &&& 1 := by
  have hb : ((m (src + i / 8)).val >>> (i &&& 7)) &&& 1 < 2 := by
    rw [Nat.and_one_is_mod]
    omega
  have key : ∀ x : Nat, x % 2 = 0 →
      (toByte ((x ||| (((m (src + i / 8)).val >>> (i &&& 7)) &&& 1)) / 256 ^ 0)).val % 2 =
        ((m (src + i / 8)).val >>> (i &&& 7)) &&& 1 := by
    intro x hx
    have := or_bit_mod_two x _ hx hb
    simp only [toByte_val_eq, pow_zero, Nat.div_one]
    omega
  interval_cases ot
  · have hc : dst + i * 1 ≤ dst + i * 1 ∧ dst + i * 1 < dst + i * 1 + 1 := by omega
    simp only [bits2boolBody, writeLE_apply, Nat.shiftLeft_eq, Nat.reducePow, if_pos hc,
      Nat.sub_self]
    exact key _ (mask_even mask 8 (by omega))
  · have hc : dst + i * 2 ≤ dst + i * 2 ∧ dst + i * 2 < dst + i * 2 + 2 := by omega
    simp only [bits2boolBody, writeLE_apply, Nat.shiftLeft_eq, Nat.reducePow, if_pos hc,
      Nat.sub_self]
    exact key _ (mask_even mask 16 (by omega))
  · have hc : dst + i * 4 ≤ dst + i * 4 ∧ dst + i * 4 < dst + i * 4 + 4 := by omega
    simp only [bits2boolBody, writeLE_apply, Nat.shiftLeft_eq, Nat.reducePow, if_pos hc,
      Nat.sub_self]
    exact key _ (mask_even mask 32 (by omega))
  · have hc : dst + i * 8 ≤ dst + i * 8 ∧ dst + i * 8 < dst + i * 8 + 8 := by omega
    simp only [bits2boolBody, writeLE_apply, Nat.shiftLeft_eq, Nat.reducePow, if_pos hc,
      Nat.sub_self]
    exact key _ (mask_even' mask)
  · have hc : dst + i * 16 ≤ dst + i * 16 ∧ dst + i * 16 < dst + i * 16 + 8 := by omega
    have hc' : ¬ (dst + i * 16 + 8 ≤ dst + i * 16 ∧ dst + i * 16 < dst + i * 16 + 8 + 8) := by
      omega
    simp only [bits2boolBody, writeLE_apply, Nat.shiftLeft_eq, Nat.reducePow, if_pos hc,
      if_neg hc', Nat.sub_self]
    exact key _ (mask_even' mask)

/-- An index below the quotient `r / d` times `d` stays below `r`. -/
theorem lt_div_mul {i d r : Nat} (hd : 0 < d) (h : i < r / d) : i * d < r := by
  have h1 : (i + 1) * d ≤ r / d * d := Nat.mul_le_mul_right d h
  have h2 : r / d * d ≤ r := Nat.div_mul_le_self r d
  rw [Nat.add_mul, Nat.one_mul] at h1
  omega

/-- What an iteration of the `bits2bool` loop stores depends only on its source byte. -/
theorem bits2boolBody_val (ot mask src dst i : Nat) (m m' : Nat → Byte) (hot : ot ≤ 4)
    (h : m (src + i / 8) = m' (src + i / 8)) (j : Nat) (hj : j < 2 ^ ot) :
    bits2boolBody ot mask src dst i m (dst + i * 2 ^ ot + j) =
      bits2boolBody ot mask src dst i m' (dst + i * 2 ^ ot + j) := by
  interval_cases ot <;> simp only [Nat.reducePow] at hj ⊢
  · have hc : dst + i * 1 ≤ dst + i * 1 + j ∧ dst + i * 1 + j < dst + i * 1 + 1 := by omega
    simp only [bits2boolBody, writeLE_apply, Nat.shiftLeft_eq, Nat.reducePow, if_pos hc, h]
  · have hc : dst + i * 2 ≤ dst + i * 2 + j ∧ dst + i * 2 + j < dst + i * 2 + 2 := by omega
    simp only [bits2boolBody, writeLE_apply, Nat.shiftLeft_eq, Nat.reducePow, if_pos hc, h]
  · have hc : dst + i * 4 ≤ dst + i * 4 + j ∧ dst + i * 4 + j < dst + i * 4 + 4 := by omega
    simp only [bits2boolBody, writeLE_apply, Nat.shiftLeft_eq, Nat.reducePow, if_pos hc, h]
  · have hc : dst + i * 8 ≤ dst + i * 8 + j ∧ dst + i * 8 + j < dst + i * 8 + 8 := by omega
    simp only [bits2boolBody, writeLE_apply, Nat.shiftLeft_eq, Nat.reducePow, if_pos hc, h]
  · by_cases h8 : j < 8
    · have hc : dst + i * 16 ≤ dst + i * 16 + j ∧ dst + i * 16 + j < dst + i * 16 + 8 := by
        omega
      have hc' : ¬ (dst + i * 16 + 8 ≤ dst + i * 16 + j ∧
          dst + i * 16 + j < dst + i * 16 + 8 + 8) := by omega
      simp only [bits2boolBody, writeLE_apply, Nat.shiftLeft_eq, Nat.reducePow, if_pos hc,
        if_neg hc', h]
    · have hc' : dst + i * 16 + 8 ≤ dst + i * 16 + j ∧
          dst + i * 16 + j < dst + i * 16 + 8 + 8 := by omega
      simp only [bits2boolBody, writeLE_apply, Nat.shiftLeft_eq, Nat.reducePow, if_pos hc', h]

/-- After `bits2bool` with a length `rsv ≤ MaxVectorLength` between distinct registers, the
destination has length `rsv` and the lowest bit of its element `i`, for every `i` below the
number of elements `rsv / 2 ^ operandType`, is bit `i` of the source bytes. -/
theorem bits2bool_elements (t : CThread) (rsv : Nat) (hot : t.operandType ≤ 4)
    (hrs : t.registers (t.operands 4) = rsv) (hrsM : rsv ≤ t.MaxVectorLength)
    (hM : t.MaxVectorLength < 2 ^ 32) (hne : t.operands 0 ≠ t.operands 5) :
    (bits2bool t).2.vectorLength (t.operands 0) = rsv ∧
    (bits2bool t).2.MaxVectorLength = t.MaxVectorLength ∧
    ∀ i, i < rsv / 2 ^ t.operandType →
      ((bits2bool t).2.vectors (t.operands 0 * t.MaxVectorLength + i * 2 ^ t.operandType)).val % 2
        = ((t.vectors (t.operands 5 * t.MaxVectorLength + i / 8)).val >>> (i &&& 7)) &&& 1 := by
  have h32 : rsv % 2 ^ 32 = rsv := Nat.mod_eq_of_lt (by omega)
  have hnM : ¬ rsv > t.MaxVectorLength := by omega
  have hsep := reg_sep t.MaxVectorLength hne
  have hpos : 0 < 2 ^ t.operandType := Nat.pow_pos (by norm_num)
  refine ⟨?_, rfl, ?_⟩
  · simp only [bits2bool, hrs, hnM, if_false, h32, if_true]
  intro i hi
  have hmul : i * 2 ^ t.operandType < rsv := lt_div_mul hpos hi
  simp only [bits2bool, hrs, hnM, if_false, h32, dataSizeTableLog_eq _ hot,
    Nat.shiftRight_eq_div_pow rsv t.operandType]
  have key := (forLoop_lanes (fun m => m)
    (if rsv / 2 ^ t.operandType <
        (if t.operands 5 = t.operands 0 then rsv else t.vectorLength (t.operands 5)) * 8 % 2 ^ 32
      then (if t.operands 5 = t.operands 0 then rsv else t.vectorLength (t.operands 5)) * 8
        % 2 ^ 32
      else rsv / 2 ^ t.operandType)
    (rsv / 2 ^ t.operandType) 1 (2 ^ t.operandType) 1
    (fun p => t.operands 0 * t.MaxVectorLength + p * 2 ^ t.operandType)
    (fun p => t.operands 5 * t.MaxVectorLength + p / 8)
    (bits2boolBody t.operandType (t.parm 3 &&& 0xFFFFFFFFFFFFFFFE)
      (t.operands 5 * t.MaxVectorLength) (t.operands 0 * t.MaxVectorLength))
    (by omega) ?_ ?_ ?_ ?_ t.vectors).1 i (one_dvd i) ?_ hi 0 hpos
  · simp only [Nat.add_zero] at key
    rw [key]
    exact bits2boolBody_bit _ _ _ _ i _ hot
  · intro a b _ _ hab
    have : (a + 1) * 2 ^ t.operandType ≤ b * 2 ^ t.operandType :=
      Nat.mul_le_mul_right _ hab
    show t.operands 0 * t.MaxVectorLength + a * 2 ^ t.operandType + 2 ^ t.operandType
      ≤ t.operands 0 * t.MaxVectorLength + b * 2 ^ t.operandType
    rw [Nat.add_mul, Nat.one_mul] at this
    omega
  · intro a _ _ haK j hj
    have ha : a * 2 ^ t.operandType < rsv := lt_div_mul hpos haK
    have h1 : a ≤ a * 2 ^ t.operandType := Nat.le_mul_of_pos_right a hpos
    show t.operands 5 * t.MaxVectorLength + a / 8 + j
        < t.operands 0 * t.MaxVectorLength + 0 * 2 ^ t.operandType ∨
      t.operands 0 * t.MaxVectorLength + a * 2 ^ t.operandType
        ≤ t.operands 5 * t.MaxVectorLength + a / 8 + j
    rw [Nat.zero_mul]
    omega
  · intro a s x hx
    exact bits2boolBody_frame _ _ _ _ a s x hot hx
  · intro a s s' h j hj
    exact bits2boolBody_val _ _ _ _ a s s' hot (by simpa using h 0 (by omega)) j hj
  · split_ifs <;> omega

/-! Bit packing: bool2bits -/

/-- Bit 0 of a vector element read inside the register's length is bit 0 of its first byte. -/
theorem readVectorElement_bit (t : CThread) (v off : Nat) (hot : t.operandType ≤ 4)
    (hoff : off < t.vectorLength v) :
    readVectorElement t v off &&& 1 = (t.vectors (v * t.MaxVectorLength + off)).val % 2 := by
  obtain ⟨k, hk⟩ : ∃ k, min 8 (dataSizeTable t.operandType) = k + 1 := by
    have : 1 ≤ min 8 (dataSizeTable t.operandType) := by
      have := dataSizeTable_eq _ hot
      have h1 : 0 < 2 ^ t.operandType := Nat.pow_pos (by norm_num)
      omega
    exact ⟨min 8 (dataSizeTable t.operandType) - 1, by omega⟩
  have hlt : v * t.MaxVectorLength + off < v * t.MaxVectorLength + t.vectorLength v := by omega
  simp only [readVectorElement, hk, readLE, if_pos hlt, Nat.and_one_is_mod]
  omega

/-- Clearing the two low bits of a 32-bit value rounds it down to a multiple of 4. -/
theorem and_fffffffc (x : Nat) (hx : x < 2 ^ 32) : x &&& 0xFFFFFFFC = 4 * (x / 4) := by
  have h0 : (x &&& 0xFFFFFFFC) % 2 = 0 := by
    by_contra h
    have h1 : (x &&& 0xFFFFFFFC) % 2 = 1 := by omega
    have := (Nat.and_mod_two_eq_one.mp h1).2
    omega
  have h2 : (x &&& 0xFFFFFFFC) / 2 = x / 2 &&& 0x7FFFFFFE := Nat.and_div_two
  have h3 : (x / 2 &&& 0x7FFFFFFE) % 2 = 0 := by
    by_contra h
    have h1 : (x / 2 &&& 0x7FFFFFFE) % 2 = 1 := by omega
    have := (Nat.and_mod_two_eq_one.mp h1).2
    omega
  have h4 : (x / 2 &&& 0x7FFFFFFE) / 2 = x / 2 / 2 &&& 0x3FFFFFFF := Nat.and_div_two
  have h5 : x / 2 / 2 &&& 0x3FFFFFFF = x / 2 / 2 % 2 ^ 30 :=
    Nat.and_pow_two_sub_one_eq_mod (x / 2 / 2) 30
  have h6 : x / 2 / 2 % 2 ^ 30 = x / 2 / 2 := Nat.mod_eq_of_lt (by omega)
  omega

theorem packBits_lt (B : Nat → Nat) (base r : Nat) (hB : ∀ k, B k < 2) :
    packBits B base r < 2 ^ r := by
  induction r with
  | zero => simp [packBits]
  | succ k ih =>
    apply Nat.lt_pow_two_of_testBit
    intro i hi
    have h1 : (packBits B base k).testBit i = false :=
      Nat.testBit_lt_two_pow (Nat.lt_of_lt_of_le ih (Nat.pow_le_pow_right (by omega) (by omega)))
    have h2 : (B (base + k)).testBit (i - k) = false :=
      Nat.testBit_lt_two_pow (Nat.lt_of_lt_of_le (hB _)
        (by
          have : 2 ^ 1 ≤ 2 ^ (i - k) := Nat.pow_le_pow_right (by omega) (by omega)
          simpa using this))
    simp only [packBits, Nat.testBit_or, Nat.testBit_shiftLeft, h1, h2, Bool.and_false,
      Bool.or_false]

theorem packBits_testBit (B : Nat → Nat) (base r k : Nat) (hB : ∀ k, B k < 2) :
    (packBits B base r).testBit k = (decide (k < r) && decide (B (base + k) = 1)) := by
  induction r with
  | zero => simp [packBits]
  | succ i ih =>
    simp only [packBits, Nat.testBit_or, Nat.testBit_shiftLeft, ih]
    have hb := hB (base + i)
    by_cases hki : k < i
    · have h2 : ¬ k ≥ i := by omega
      have h3 : k < i + 1 := by omega
      simp [hki, h2, h3]
    · by_cases hke : k = i
      · subst hke
        have hb' : B (base + k) = 0 ∨ B (base + k) = 1 := by omega
        rcases hb' with h0 | h1
        · simp [h0]
        · simp [h1]
      · have h2 : k ≥ i := by omega
        have h3 : ¬ k < i + 1 := by omega
        have h4 : (B (base + i)).testBit (k - i) = false :=
          Nat.testBit_lt_two_pow (Nat.lt_of_lt_of_le hb
            (by
              have : 2 ^ 1 ≤ 2 ^ (k - i) := Nat.pow_le_pow_right (by omega) (by omega)
              simpa using this))
        simp [hki, h3, h4]

/-- Bit `b` of byte `j` of a value is its bit `8 * j + b`. -/
theorem toByte_div_testBit (V j b : Nat) (hb : b < 8) :
    (toByte (V / 256 ^ j)).val.testBit b = V.testBit (8 * j + b) := by
  rw [toByte_val_eq, show (256 : Nat) = 2 ^ 8 by norm_num, Nat.testBit_mod_two_pow,
    show ((2 : Nat) ^ 8) ^ j = 2 ^ (8 * j) by rw [← pow_mul],
    ← Nat.shiftRight_eq_div_pow, Nat.testBit_shiftRight]
  simp [hb]

/-- The loop of `bool2bits` between distinct registers, over `n` elements inside the source
register: every 32-bit block of the destination up to the last one written holds the lowest
bits of its (at most 32) source elements, the other bits zero. -/
theorem bool2bits_loop (t : CThread) (n : Nat) (hot : t.operandType ≤ 4)
    (hn : n * 2 ^ t.operandType ≤ t.vectorLength (t.operands 5))
    (hnM : n * 2 ^ t.operandType ≤ t.MaxVectorLength) (hM : t.MaxVectorLength < 2 ^ 32)
    (hne : t.operands 0 ≠ t.operands 5)
    (q : Nat) (hq : q < (n + 31) / 32) (j : Nat) (hj : j < 4) :
    (forLoop n 1 (bool2bitsBody t (t.operands 5) t.operandType
        (t.operands 0 * t.MaxVectorLength) n) n 0 (t.vectors, 0)).1
      (t.operands 0 * t.MaxVectorLength + 4 * q + j) =
    toByte (packBits
      (fun k => (t.vectors (t.operands 5 * t.MaxVectorLength + k * 2 ^ t.operandType)).val % 2)
      (32 * q) (min 32 (n - 32 * q)) / 256 ^ j) := by
  have hsep := reg_sep t.MaxVectorLength hne
  have hpos : 0 < 2 ^ t.operandType := Nat.pow_pos (by norm_num)
  have hB : ∀ k, (fun k => (t.vectors (t.operands 5 * t.MaxVectorLength
      + k * 2 ^ t.operandType)).val % 2) k < 2 := fun k => Nat.mod_lt _ (by omega)
  obtain ⟨P, hP, hPn, F, hF, _, hI2⟩ := forLoop_invariant n 1
    (bool2bitsBody t (t.operands 5) t.operandType (t.operands 0 * t.MaxVectorLength) n)
    (fun pos s => pos ≤ n ∧ ∃ F,
      ((pos = n ∧ F = (n + 31) / 32 ∧ s.2 = 0) ∨
        (pos < n ∧ F = pos / 32 ∧ s.2 = packBits
          (fun k => (t.vectors (t.operands 5 * t.MaxVectorLength
            + k * 2 ^ t.operandType)).val % 2) (32 * (pos / 32)) (pos % 32))) ∧
      (∀ x, (x < t.operands 0 * t.MaxVectorLength ∨
          t.operands 0 * t.MaxVectorLength + 4 * F ≤ x) → s.1 x = t.vectors x) ∧
      (∀ q, q < F → ∀ j, j < 4 → s.1 (t.operands 0 * t.MaxVectorLength + 4 * q + j) =
        toByte (packBits
          (fun k => (t.vectors (t.operands 5 * t.MaxVectorLength
            + k * 2 ^ t.operandType)).val % 2)
          (32 * q) (min 32 (n - 32 * q)) / 256 ^ j)))
    (by omega)
    (by
      rintro pos s hpos_lt ⟨_, F, hF, hI1, hI2⟩
      rcases hF with ⟨he, _, _⟩ | ⟨_, hFe, hbb⟩
      · omega
      have hoff : pos * 2 ^ t.operandType < n * 2 ^ t.operandType :=
        Nat.mul_lt_mul_of_pos_right hpos_lt hpos
      have hle : pos ≤ pos * 2 ^ t.operandType := Nat.le_mul_of_pos_right pos hpos
      have hbit : (readVectorElement { t with vectors := s.1 } (t.operands 5)
          (pos <<< t.operandType) &&& 1) % 2 ^ 8 =
          (t.vectors (t.operands 5 * t.MaxVectorLength + pos * 2 ^ t.operandType)).val % 2 := by
        have hrv := readVectorElement_bit { t with vectors := s.1 } (t.operands 5)
          (pos * 2 ^ t.operandType) hot
          (show pos * 2 ^ t.operandType < t.vectorLength (t.operands 5) by omega)
        rw [Nat.shiftLeft_eq, hrv]
        show (s.1 (t.operands 5 * t.MaxVectorLength + pos * 2 ^ t.operandType)).val % 2 % 2 ^ 8 = _
        rw [hI1 _ (by omega)]
        omega
      have hidx : (pos &&& 31) % 2 ^ 8 = pos % 32 := by
        rw [show (31 : Nat) = 2 ^ 5 - 1 by norm_num, Nat.and_pow_two_sub_one_eq_mod]
        omega
      have hnew : (s.2 ||| ((t.vectors (t.operands 5 * t.MaxVectorLength
            + pos * 2 ^ t.operandType)).val % 2) <<< (pos % 32)) % 2 ^ 32 =
          packBits (fun k => (t.vectors (t.operands 5 * t.MaxVectorLength
            + k * 2 ^ t.operandType)).val % 2) (32 * (pos / 32)) (pos % 32 + 1) := by
        have hlt := packBits_lt (fun k => (t.vectors (t.operands 5 * t.MaxVectorLength
            + k * 2 ^ t.operandType)).val % 2) (32 * (pos / 32)) (pos % 32 + 1) hB
        have hle32 : 2 ^ (pos % 32 + 1) ≤ 2 ^ 32 :=
          Nat.pow_le_pow_right (by omega) (by omega)
        have e : 32 * (pos / 32) + pos % 32 = pos := by omega
        rw [hbb]
        show (packBits _ _ (pos % 32) ||| _) % 2 ^ 32 = packBits _ _ (pos % 32) ||| _
        simp only [e]
        apply Nat.mod_eq_of_lt
        have hlt' := hlt
        simp only [packBits, e] at hlt'
        omega
      simp only [bool2bitsBody, hbit, hidx, hnew]
      refine ⟨by omega, ?_⟩
      by_cases hflush : pos % 32 = 31 ∨ pos = n - 1
      · rw [if_pos hflush]
        have haddr : (pos / 8) &&& 0xFFFFFFFC = 4 * (pos / 32) := by
          rw [and_fffffffc _ (by omega)]
          omega
        rw [haddr]
        refine ⟨pos / 32 + 1, ?_, ?_, ?_⟩
        · by_cases hlast : pos + 1 = n
          · exact Or.inl ⟨hlast, by omega, rfl⟩
          · have e1 : (pos + 1) / 32 = pos / 32 + 1 := by omega
            have e2 : (pos + 1) % 32 = 0 := by omega
            refine Or.inr ⟨by omega, by omega, ?_⟩
            rw [e2]
            rfl
        · intro x hx
          show writeLE s.1 _ 4 _ x = _
          rw [writeLE_apply, if_neg (by omega)]
          exact hI1 x (by omega)
        · intro q hq j hj
          show writeLE s.1 _ 4 _ _ = _
          rw [writeLE_apply]
          by_cases hql : q < pos / 32
          · rw [if_neg (by omega)]
            exact hI2 q (by omega) j hj
          · have hqe : q = pos / 32 := by omega
            subst hqe
            rw [if_pos (by omega), Nat.add_sub_cancel_left]
            have hmin : pos % 32 + 1 = min 32 (n - 32 * (pos / 32)) := by omega
            rw [hmin]
      · rw [if_neg hflush]
        refine ⟨pos / 32, Or.inr ⟨by omega, by omega, ?_⟩, ?_, ?_⟩
        · show packBits _ _ _ = _
          have e1 : (pos + 1) / 32 = pos / 32 := by omega
          have e2 : (pos + 1) % 32 = pos % 32 + 1 := by omega
          rw [e1, e2]
        · intro x hx
          exact hI1 x (by omega)
        · intro q hq j hj
          exact hI2 q (by omega) j hj)
    n 0 (t.vectors, 0) (by omega)
    ⟨by omega, 0, by
      rcases Nat.eq_zero_or_pos n with h0 | h0
      · left
        subst h0
        exact ⟨rfl, rfl, rfl⟩
      · right
        exact ⟨h0, rfl, rfl⟩,
      fun x _ => rfl, fun q hq => by omega⟩
  have hPe : P = n := by omega
  rcases hF with ⟨_, hFe, _⟩ | ⟨hlt, _, _⟩
  · exact hI2 q (by omega) j hj
  · omega

/-- C8: for an integer operand type 0..4 and a length `rsv ≤ MaxVectorLength`, `bits2bool`
applied to the bit source in RT (any mask value in `parm[3]`) followed by `bool2bits` applied
to the result with the same length, each step between distinct registers, yields a destination
whose bit `i` is bit `i` of the source for every `i` below the number of elements
`n = rsv / dataSize`, and whose remaining bits in the written 32-bit blocks (the bits up to
`32 * ⌈n / 32⌉`) are zero. (The alignment of `rsv` to the element size is not needed.) -/
theorem bits2bool_bool2bits_roundtrip (t t2 : CThread) (rsv : Nat)
    (hot : t.operandType ≤ 4) (hrs : t.registers (t.operands 4) = rsv)
    (hrsM : rsv ≤ t.MaxVectorLength) (hM : t.MaxVectorLength < 2 ^ 32)
    (hne : t.operands 0 ≠ t.operands 5)
    (h2s : SameVectors (bits2bool t).2 t2) (h2ot : t2.operandType = t.operandType)
    (h2rt : t2.operands 5 = t.operands 0) (h2rs : t2.registers (t2.operands 4) = rsv)
    (h2ne : t2.operands 0 ≠ t2.operands 5) :
    ∀ i, i < 32 * ((rsv / dataSizeTable t.operandType + 31) / 32) →
      ((bool2bits t2).2.vectors (t2.operands 0 * t.MaxVectorLength + i / 8)).val.testBit (i % 8) =
        (decide (i < rsv / dataSizeTable t.operandType) &&
          (t.vectors (t.operands 5 * t.MaxVectorLength + i / 8)).val.testBit (i % 8)) := by
  obtain ⟨hv, hl, hm⟩ := h2s
  obtain ⟨b1, b2, b3⟩ := bits2bool_elements t rsv hot hrs hrsM hM hne
  have hM2 : t2.MaxVectorLength = t.MaxVectorLength := by rw [hm, b2]
  have hL2 : t2.vectorLength (t2.operands 5) = rsv := by rw [hl, h2rt, b1]
  have h32 : rsv % 2 ^ 32 = rsv := Nat.mod_eq_of_lt (by omega)
  have hnM : ¬ rsv > t2.MaxVectorLength := by omega
  have hot2 : t2.operandType ≤ 4 := by omega
  have hmul : rsv / 2 ^ t.operandType * 2 ^ t.operandType ≤ rsv := Nat.div_mul_le_self _ _
  rw [dataSizeTable_eq _ hot]
  intro i hi
  have hfin : (bool2bits t2).2.vectors =
      (forLoop (rsv / 2 ^ t2.operandType) 1 (bool2bitsBody t2 (t2.operands 5) t2.operandType
        (t2.operands 0 * t2.MaxVectorLength) (rsv / 2 ^ t2.operandType))
        (rsv / 2 ^ t2.operandType) 0 (t2.vectors, 0)).1 := by
    simp only [bool2bits, h2rs, hnM, if_false, h32, dataSizeTableLog_eq _ hot2,
      Nat.shiftRight_eq_div_pow rsv t2.operandType]
  have hloop := bool2bits_loop t2 (rsv / 2 ^ t2.operandType) hot2
    (by rw [h2ot, hL2]; exact hmul) (by rw [h2ot, hM2]; omega) (by omega) h2ne
    (i / 32) (by rw [h2ot]; omega) (i % 32 / 8) (by omega)
  have eaddr : t2.operands 0 * t.MaxVectorLength + 4 * (i / 32) + i % 32 / 8
      = t2.operands 0 * t.MaxVectorLength + i / 8 := by omega
  rw [hM2, eaddr] at hloop
  rw [hfin, hM2, hloop, toByte_div_testBit _ _ _ (Nat.mod_lt _ (by omega)),
    packBits_testBit _ _ _ _ (fun k => Nat.mod_lt _ (by omega)), h2ot]
  have e1 : 8 * (i % 32 / 8) + i % 8 = i % 32 := by omega
  have e2 : 32 * (i / 32) + i % 32 = i := by omega
  rw [e1, e2]
  by_cases hin : i < rsv / 2 ^ t.operandType
  · have hd1 : i % 32 < min 32 (rsv / 2 ^ t.operandType - 32 * (i / 32)) := by omega
    have hbit := b3 i hin
    rw [hv, h2rt, hbit, Nat.testBit_to_div_mod, Nat.and_one_is_mod,
      Nat.shiftRight_eq_div_pow, show (7 : Nat) = 2 ^ 3 - 1 by norm_num,
      Nat.and_pow_two_sub_one_eq_mod]
    simp only [hd1, hin, decide_True, Bool.true_and, Nat.reducePow]
  · have hd1 : ¬ i % 32 < min 32 (rsv / 2 ^ t.operandType - 32 * (i / 32)) := by omega
    simp only [hd1, hin, decide_False, Bool.false_and]

/-- C8 at a concrete input: the bit source 0xA5, 0x3C unpacked into 12 int8 elements (mask
0xFE) and packed again, between 16-byte registers; bit 10 of the result is bit 10 of the
source. -/
theorem bits2bool_bool2bits_roundtrip_witness :
    10 < 32 * ((12 / dataSizeTable 0 + 31) / 32) ∧
    ((bool2bits bbT2).2.vectors (4 * 16 + 10 / 8)).val.testBit (10 % 8) =
      (decide (10 < 12 / dataSizeTable 0) &&
        (bbT1.vectors (1 * 16 + 10 / 8)).val.testBit (10 % 8)) :=
  ⟨by decide,
    bits2bool_bool2bits_roundtrip bbT1 bbT2 12 (by decide) (by decide) (by decide) (by decide)
      (by decide) ⟨rfl, rfl, rfl⟩ (by decide) (by decide) (by decide) (by decide) 10
      (by decide)⟩

/-! Rounding to a power of two -/

theorem bitScanReverseAux_spec (x : Nat) (hx : 0 < x) :
    ∀ k, x < 2 ^ k → 2 ^ bitScanReverseAux x k ≤ x ∧ x < 2 ^ (bitScanReverseAux x k + 1) ∧
      bitScanReverseAux x k < k := by
  intro k
  induction k with
  | zero => intro h; simp at h; omega
  | succ k ih =>
    intro h
    by_cases hk : 2 ^ k ≤ x
    · simp only [bitScanReverseAux, if_pos hk]
      exact ⟨hk, h, Nat.lt_succ_self k⟩
    · simp only [bitScanReverseAux, if_neg hk]
      have := ih (by omega)
      exact ⟨this.1, this.2.1, by omega⟩

theorem bitScanReverse_spec (x : Nat) (hx : 0 < x) (h : x < 2 ^ 64) :
    2 ^ bitScanReverse x ≤ x ∧ x < 2 ^ (bitScanReverse x + 1) ∧ bitScanReverse x < 64 :=
  bitScanReverseAux_spec x hx 64 h

theorem dataSizeMask_eq (ot : Nat) (h : ot ≤ 3) :
    dataSizeMask ot = 2 ^ dataSizeTableBits ot - 1 := by
  interval_cases ot <;> rfl

theorem dataSizeTableBits_le (ot : Nat) (h : ot ≤ 3) :
    8 ≤ dataSizeTableBits ot ∧ dataSizeTableBits ot ≤ 64 := by
  interval_cases ot <;> exact ⟨by decide, by decide⟩

theorem and_dataSizeMask (a ot : Nat) (h : ot ≤ 3) :
    a &&& dataSizeMask ot = a % 2 ^ dataSizeTableBits ot := by
  rw [dataSizeMask_eq ot h, Nat.and_pow_two_sub_one_eq_mod]

theorem pow_le_pow64 (w : Nat) (h : w ≤ 64) : 2 ^ w ≤ 2 ^ 64 :=
  Nat.pow_le_pow_right (by norm_num) h

/-- C11: for the operand types 0..3 and a masked input `am > 0`, `round_d2` returns a power of
two `r` with `r ≤ am < 2 * r`, and raises no interrupt. -/
theorem round_d2_bounds (t : CThread) (h3 : t.operandType ≤ 3)
    (ha : 0 < t.parm 2 &&& dataSizeMask t.operandType) :
    (round_d2 t).1 ≤ t.parm 2 &&& dataSizeMask t.operandType ∧
    t.parm 2 &&& dataSizeMask t.operandType < 2 * (round_d2 t).1 ∧
    (∃ k, (round_d2 t).1 = 2 ^ k) ∧ (round_d2 t).2 = t := by
  have hw := dataSizeTableBits_le _ h3
  have hlt : t.parm 2 &&& dataSizeMask t.operandType < 2 ^ 64 := by
    rw [and_dataSizeMask _ _ h3]
    exact lt_of_lt_of_le (Nat.mod_lt _ (Nat.pow_pos (by norm_num))) (pow_le_pow64 _ hw.2)
  obtain ⟨hs1, hs2, hs3⟩ := bitScanReverse_spec _ ha hlt
  have hsz : ¬ dataSizeTable t.operandType > 8 := by
    have : t.operandType ≤ 3 := h3
    interval_cases t.operandType <;> decide
  have hp : 2 ^ bitScanReverse (t.parm 2 &&& dataSizeMask t.operandType) < 2 ^ 64 :=
    Nat.pow_lt_pow_right (by norm_num) hs3
  have hr : (round_d2 t).1 = 2 ^ bitScanReverse (t.parm 2 &&& dataSizeMask t.operandType) := by
    simp only [round_d2, if_neg (Nat.pos_iff_ne_zero.mp ha), Nat.one_shiftLeft]
    exact Nat.mod_eq_of_lt hp
  refine ⟨by rw [hr]; exact hs1, ?_, ⟨_, hr⟩, ?_⟩
  · rw [hr]
    rw [pow_succ] at hs2
    omega
  · simp only [round_d2, if_neg hsz]
    split_ifs <;> rfl

theorem testBit_of_bounds (x s : Nat) (h1 : 2 ^ s ≤ x) (h2 : x < 2 ^ (s + 1)) :
    x.testBit s = true := by
  rw [Nat.testBit_to_div_mod]
  have : x / 2 ^ s = 1 := by
    apply Nat.div_eq_of_lt_le
    · simpa using h1
    · rw [pow_succ] at h2
      omega
  simp [this]

/-- A positive `a` with `a & (a - 1) = 0` is a power of two, and conversely. -/
theorem and_pred_eq_zero_iff (a : Nat) (ha : 0 < a) (h64 : a < 2 ^ 64) :
    a &&& (a - 1) = 0 ↔ ∃ k, a = 2 ^ k := by
  constructor
  · intro h
    obtain ⟨hs1, hs2, _⟩ := bitScanReverse_spec a ha h64
    refine ⟨bitScanReverse a, ?_⟩
    by_contra hne
    have hb1 := testBit_of_bounds a _ hs1 hs2
    have hb2 := testBit_of_bounds (a - 1) (bitScanReverse a) (by omega) (by omega)
    have : (a &&& (a - 1)).testBit (bitScanReverse a) = true := by
      rw [Nat.testBit_and, hb1, hb2]
      rfl
    rw [h] at this
    simp at this
  · rintro ⟨k, rfl⟩
    rw [Nat.and_pow_two_sub_one_eq_mod]
    exact Nat.mod_self _

theorem allOnes_not_pow : ¬ ∃ k, (0xFFFFFFFFFFFFFFFF : Nat) = 2 ^ k := by
  rintro ⟨k, hk⟩
  rcases k with _ | k
  · simp at hk
  · rw [pow_succ] at hk
    omega

/-- The three paths of `round_u2` for the operand types 0..3, `am` the masked input, `w` the
bit width and `s` the index of the top bit of `am`. -/
theorem round_u2_eval (E : Env) (t : CThread) (h3 : t.operandType ≤ 3) :
    (t.parm 2 &&& dataSizeMask t.operandType = 0 → round_u2 E t = (0, t)) ∧
    ((∃ k, t.parm 2 &&& dataSizeMask t.operandType = 2 ^ k) →
      round_u2 E t = (t.parm 2 &&& dataSizeMask t.operandType, t)) ∧
    (0 < t.parm 2 &&& dataSizeMask t.operandType →
      (¬ ∃ k, t.parm 2 &&& dataSizeMask t.operandType = 2 ^ k) →
      ∃ s, s < 64 ∧ 2 ^ s < t.parm 2 &&& dataSizeMask t.operandType ∧
        t.parm 2 &&& dataSizeMask t.operandType < 2 ^ (s + 1) ∧
        (dataSizeTableBits t.operandType ≤ s + 1 →
          round_u2 E t = (0xFFFFFFFFFFFFFFFF,
            if (t.parm 3 % 2 ^ 32) &&& E.MSK_OVERFL_SIGN ≠ 0 then
              t.interrupt Interrupt.INT_OVERFL_SIGN
            else if (t.parm 3 % 2 ^ 32) &&& E.MSK_OVERFL_UNSIGN ≠ 0 then
              t.interrupt Interrupt.INT_OVERFL_UNSIGN
            else t)) ∧
        (s + 1 < dataSizeTableBits t.operandType → round_u2 E t = (2 ^ (s + 1), t))) := by
  have hw := dataSizeTableBits_le _ h3
  have hlt : t.parm 2 &&& dataSizeMask t.operandType < 2 ^ 64 := by
    rw [and_dataSizeMask _ _ h3]
    exact lt_of_lt_of_le (Nat.mod_lt _ (Nat.pow_pos (by norm_num))) (pow_le_pow64 _ hw.2)
  have hsz : ¬ dataSizeTable t.operandType > 8 := by
    have : t.operandType ≤ 3 := h3
    interval_cases t.operandType <;> decide
  refine ⟨?_, ?_, ?_⟩
  · intro h0
    simp only [round_u2, if_neg hsz, h0, if_true]
  · rintro ⟨k, hk⟩
    have hpos : 0 < t.parm 2 &&& dataSizeMask t.operandType := by
      rw [hk]
      exact Nat.pow_pos (by norm_num)
    have hz := (and_pred_eq_zero_iff _ hpos hlt).2 ⟨k, hk⟩
    simp only [round_u2, if_neg hsz, if_neg (Nat.pos_iff_ne_zero.mp hpos), hz, if_true]
  · intro hpos hnp
    obtain ⟨hs1, hs2, hs3⟩ := bitScanReverse_spec _ hpos hlt
    have hnz : ¬ (t.parm 2 &&& dataSizeMask t.operandType) &&&
        ((t.parm 2 &&& dataSizeMask t.operandType) - 1) = 0 :=
      fun h => hnp ((and_pred_eq_zero_iff _ hpos hlt).1 h)
    have hsm : bitScanReverse (t.parm 2 &&& dataSizeMask t.operandType) % 2 ^ 32 =
        bitScanReverse (t.parm 2 &&& dataSizeMask t.operandType) :=
      Nat.mod_eq_of_lt (by omega)
    refine ⟨bitScanReverse (t.parm 2 &&& dataSizeMask t.operandType), hs3, ?_, hs2, ?_, ?_⟩
    · exact lt_of_le_of_ne hs1 (fun h => hnp ⟨_, h.symm⟩)
    · intro hge
      simp only [round_u2, if_neg hsz, if_neg (Nat.pos_iff_ne_zero.mp hpos), if_neg hnz, hsm,
        ge_iff_le, if_pos hge]
    · intro hl
      have hp : 2 ^ (bitScanReverse (t.parm 2 &&& dataSizeMask t.operandType) + 1) < 2 ^ 64 :=
        Nat.pow_lt_pow_right (by norm_num) (by omega)
      simp only [round_u2, if_neg hsz, if_neg (Nat.pos_iff_ne_zero.mp hpos), if_neg hnz, hsm,
        ge_iff_le, if_neg (Nat.not_le.mpr hl), Nat.one_shiftLeft, Nat.mod_eq_of_lt hp]

/-- C11 at a concrete input: `round_d2` of 0x2D at int8 is 0x20. -/
theorem round_d2_bounds_witness :
    (round_d2 (scalarThread 0 0 0x2D 0)).1 = 0x20 ∧
    (round_d2 (scalarThread 0 0 0x2D 0)).1 ≤ 0x2D &&& dataSizeMask 0 ∧
    0x2D &&& dataSizeMask 0 < 2 * (round_d2 (scalarThread 0 0 0x2D 0)).1 ∧
    (∃ k, (round_d2 (scalarThread 0 0 0x2D 0)).1 = 2 ^ k) ∧
    (round_d2 (scalarThread 0 0 0x2D 0)).2 = scalarThread 0 0 0x2D 0 :=
  ⟨by decide, round_d2_bounds (scalarThread 0 0 0x2D 0) (by decide) (by decide)⟩

/-- C12 (counterexample): at int8 the masked input 0x81 is positive, and `round_u2` returns
0xFFFFFFFFFFFFFFFF for it, which is not a power of two. -/
theorem round_u2_overflow_not_power_of_two :
    (scalarThread 0 0 0x81 0).operandType ≤ 3 ∧
    0 < (scalarThread 0 0 0x81 0).parm 2 &&& dataSizeMask (scalarThread 0 0 0x81 0).operandType ∧
    (round_u2 sampleEnv (scalarThread 0 0 0x81 0)).1 = 0xFFFFFFFFFFFFFFFF ∧
    ¬ ∃ k, (round_u2 sampleEnv (scalarThread 0 0 0x81 0)).1 = 2 ^ k := by
  have h : (round_u2 sampleEnv (scalarThread 0 0 0x81 0)).1 = 0xFFFFFFFFFFFFFFFF := by decide
  refine ⟨by decide, by decide, h, ?_⟩
  rw [h]
  exact allOnes_not_pow

/-- C12 (amended): for the operand types 0..3 of bit width `w`, every mask and every masked
input `am > 0`, the value returned by `round_u2` is at least `am`; it is a power of two when
`am` is a power of two or `am ≤ 2 ^ (w - 1)`, and it is 0xFFFFFFFFFFFFFFFF otherwise. -/
theorem round_u2_ge_and_power_unless_overflow (E : Env) (t : CThread)
    (h3 : t.operandType ≤ 3) (ha : 0 < t.parm 2 &&& dataSizeMask t.operandType) :
    t.parm 2 &&& dataSizeMask t.operandType ≤ (round_u2 E t).1 ∧
    (((∃ k, t.parm 2 &&& dataSizeMask t.operandType = 2 ^ k) ∨
        t.parm 2 &&& dataSizeMask t.operandType ≤ 2 ^ (dataSizeTableBits t.operandType - 1)) →
      ∃ k, (round_u2 E t).1 = 2 ^ k) ∧
    (¬ ((∃ k, t.parm 2 &&& dataSizeMask t.operandType = 2 ^ k) ∨
        t.parm 2 &&& dataSizeMask t.operandType ≤ 2 ^ (dataSizeTableBits t.operandType - 1)) →
      (round_u2 E t).1 = 0xFFFFFFFFFFFFFFFF) := by
  obtain ⟨_, hpow, hgen⟩ := round_u2_eval E t h3
  have hw := dataSizeTableBits_le _ h3
  have hlt : t.parm 2 &&& dataSizeMask t.operandType < 2 ^ 64 := by
    rw [and_dataSizeMask _ _ h3]
    exact lt_of_lt_of_le (Nat.mod_lt _ (Nat.pow_pos (by norm_num))) (pow_le_pow64 _ hw.2)
  by_cases hp : ∃ k, t.parm 2 &&& dataSizeMask t.operandType = 2 ^ k
  · rw [hpow hp]
    exact ⟨le_refl _, fun _ => hp, fun h => absurd (Or.inl hp) h⟩
  · obtain ⟨s, hs64, hs1, hs2, hov, hno⟩ := hgen ha hp
    by_cases hc : dataSizeTableBits t.operandType ≤ s + 1
    · rw [hov hc]
      refine ⟨by simp only []; omega, ?_, fun _ => rfl⟩
      rintro (h | h)
      · exact absurd h hp
      · exfalso
        have : 2 ^ (dataSizeTableBits t.operandType - 1) ≤ 2 ^ s :=
          Nat.pow_le_pow_right (by norm_num) (by omega)
        omega
    · rw [hno (by omega)]
      refine ⟨le_of_lt hs2, fun _ => ⟨_, rfl⟩, ?_⟩
      intro h
      exfalso
      apply h
      right
      have : 2 ^ (s + 1) ≤ 2 ^ (dataSizeTableBits t.operandType - 1) :=
        Nat.pow_le_pow_right (by norm_num) (by omega)
      omega

/-- C12 (amended) at concrete inputs: at int8, 0x2D is rounded up to 0x40. -/
theorem round_u2_ge_and_power_unless_overflow_witness :
    (round_u2 sampleEnv (scalarThread 0 0 0x2D 0)).1 = 0x40 ∧
    0x2D &&& dataSizeMask 0 ≤ (round_u2 sampleEnv (scalarThread 0 0 0x2D 0)).1 ∧
    (((∃ k, 0x2D &&& dataSizeMask 0 = 2 ^ k) ∨
        0x2D &&& dataSizeMask 0 ≤ 2 ^ (dataSizeTableBits 0 - 1)) →
      ∃ k, (round_u2 sampleEnv (scalarThread 0 0 0x2D 0)).1 = 2 ^ k) ∧
    (¬ ((∃ k, 0x2D &&& dataSizeMask 0 = 2 ^ k) ∨
        0x2D &&& dataSizeMask 0 ≤ 2 ^ (dataSizeTableBits 0 - 1)) →
      (round_u2 sampleEnv (scalarThread 0 0 0x2D 0)).1 = 0xFFFFFFFFFFFFFFFF) :=
  ⟨by decide, round_u2_ge_and_power_unless_overflow sampleEnv (scalarThread 0 0 0x2D 0)
    (by decide) (by decide)⟩

/-- C13: for the operand types 0..3 of bit width `w` and the masked input `am`: when `am` is
not a power of two and `am > 2 ^ (w - 1)`, `round_u2` returns 0xFFFFFFFFFFFFFFFF and raises
`INT_OVERFL_SIGN` if the mask `parm[3]` has `MSK_OVERFL_SIGN` set, otherwise
`INT_OVERFL_UNSIGN` if it has `MSK_OVERFL_UNSIGN` set, otherwise nothing; on every other input
it raises no interrupt, returns 0 for `am = 0`, and for `am > 0` returns the least power of two
that is at least `am` (so, not 0xFFFFFFFFFFFFFFFF). -/
theorem round_u2_overflow_path (E : Env) (t : CThread) (h3 : t.operandType ≤ 3) :
    (((¬ ∃ k, t.parm 2 &&& dataSizeMask t.operandType = 2 ^ k) ∧
        2 ^ (dataSizeTableBits t.operandType - 1) < t.parm 2 &&& dataSizeMask t.operandType) →
      (round_u2 E t).1 = 0xFFFFFFFFFFFFFFFF ∧
      (round_u2 E t).2 =
        if (t.parm 3 % 2 ^ 32) &&& E.MSK_OVERFL_SIGN ≠ 0 then
          t.interrupt Interrupt.INT_OVERFL_SIGN
        else if (t.parm 3 % 2 ^ 32) &&& E.MSK_OVERFL_UNSIGN ≠ 0 then
          t.interrupt Interrupt.INT_OVERFL_UNSIGN
        else t) ∧
    (¬ ((¬ ∃ k, t.parm 2 &&& dataSizeMask t.operandType = 2 ^ k) ∧
        2 ^ (dataSizeTableBits t.operandType - 1) < t.parm 2 &&& dataSizeMask t.operandType) →
      (round_u2 E t).2 = t ∧
      (t.parm 2 &&& dataSizeMask t.operandType = 0 → (round_u2 E t).1 = 0) ∧
      (0 < t.parm 2 &&& dataSizeMask t.operandType →
        t.parm 2 &&& dataSizeMask t.operandType ≤ (round_u2 E t).1 ∧
        (∃ k, (round_u2 E t).1 = 2 ^ k) ∧
        (round_u2 E t).1 ≠ 0xFFFFFFFFFFFFFFFF ∧
        ∀ k, t.parm 2 &&& dataSizeMask t.operandType ≤ 2 ^ k → (round_u2 E t).1 ≤ 2 ^ k)) := by
  obtain ⟨hzero, hpow, hgen⟩ := round_u2_eval E t h3
  have hw := dataSizeTableBits_le _ h3
  have hmono : ∀ i j : Nat, 2 ^ i < 2 ^ j → i < j := fun i j h =>
    (Nat.pow_lt_pow_iff_right (by norm_num)).1 h
  refine ⟨?_, ?_⟩
  · rintro ⟨hnp, hbig⟩
    have hpos : 0 < t.parm 2 &&& dataSizeMask t.operandType :=
      lt_of_le_of_lt (Nat.zero_le _) hbig
    obtain ⟨s, _, hs1, hs2, hov, _⟩ := hgen hpos hnp
    have hc : dataSizeTableBits t.operandType ≤ s + 1 := by
      have := hmono _ _ (lt_trans hbig hs2)
      omega
    rw [hov hc]
    exact ⟨rfl, rfl⟩
  · intro hn
    rcases Nat.eq_zero_or_pos (t.parm 2 &&& dataSizeMask t.operandType) with h0 | hpos
    · rw [hzero h0]
      exact ⟨rfl, fun _ => rfl, fun h => absurd h (by omega)⟩
    · by_cases hp : ∃ k, t.parm 2 &&& dataSizeMask t.operandType = 2 ^ k
      · rw [hpow hp]
        refine ⟨rfl, fun h => absurd h (by omega), fun _ => ⟨le_refl _, hp, ?_, fun k hk => hk⟩⟩
        intro h
        exact allOnes_not_pow (by rw [← h]; exact hp)
      · obtain ⟨s, hs64, hs1, hs2, _, hno⟩ := hgen hpos hp
        have hc : s + 1 < dataSizeTableBits t.operandType := by
          by_contra hge
          apply hn
          refine ⟨hp, ?_⟩
          have : 2 ^ (dataSizeTableBits t.operandType - 1) ≤ 2 ^ s :=
            Nat.pow_le_pow_right (by norm_num) (by omega)
          omega
        rw [hno hc]
        refine ⟨rfl, fun h => absurd h (by omega), fun _ => ⟨le_of_lt hs2, ⟨_, rfl⟩, ?_, ?_⟩⟩
        · intro h
          exact allOnes_not_pow ⟨_, h.symm⟩
        · intro k hk
          have := hmono _ _ (lt_of_lt_of_le hs1 hk)
          exact Nat.pow_le_pow_right (by norm_num) (by omega)

theorem odd_not_pow (n : Nat) (h1 : n % 2 = 1) (h2 : n ≠ 1) : ¬ ∃ k, n = 2 ^ k := by
  rintro ⟨k, hk⟩
  rcases k with _ | k
  · simp at hk
    exact h2 hk
  · rw [pow_succ] at hk
    omega

/-- C13 at the concrete input of the specification: `a = 0x8000000000000001` at int64 with the
mask `MSK_OVERFL_UNSIGN` raises `INT_OVERFL_UNSIGN` and returns 0xFFFFFFFFFFFFFFFF. -/
theorem round_u2_overflow_path_witness :
    (scalarThread 3 0 0x8000000000000001 sampleEnv.MSK_OVERFL_UNSIGN).operandType ≤ 3 ∧
    (round_u2 sampleEnv (scalarThread 3 0 0x8000000000000001 sampleEnv.MSK_OVERFL_UNSIGN)).1
      = 0xFFFFFFFFFFFFFFFF ∧
    (round_u2 sampleEnv (scalarThread 3 0 0x8000000000000001 sampleEnv.MSK_OVERFL_UNSIGN)).2
      = (scalarThread 3 0 0x8000000000000001 sampleEnv.MSK_OVERFL_UNSIGN).interrupt
          Interrupt.INT_OVERFL_UNSIGN :=
  ⟨by decide,
    ((round_u2_overflow_path sampleEnv
      (scalarThread 3 0 0x8000000000000001 sampleEnv.MSK_OVERFL_UNSIGN) (by decide)).1
      ⟨odd_not_pow _ (by decide) (by decide), by decide⟩).1,
    ((round_u2_overflow_path sampleEnv
      (scalarThread 3 0 0x8000000000000001 sampleEnv.MSK_OVERFL_UNSIGN) (by decide)).1
      ⟨odd_not_pow _ (by decide) (by decide), by decide⟩).2.trans rfl⟩

/-! Saturating addition and subtraction -/

/-- The test of a single bit with `&`, as a quotient. -/
theorem and_pow_ne_zero (x k sb : Nat) (hs : sb = 2 ^ k) :
    x &&& sb ≠ 0 ↔ x / 2 ^ k % 2 = 1 := by
  subst hs
  have hbit : x.testBit k = decide (x / 2 ^ k % 2 = 1) := Nat.testBit_to_div_mod
  constructor
  · intro h
    by_contra hn
    apply h
    apply Nat.eq_of_testBit_eq
    intro i
    rw [Nat.testBit_and, Nat.testBit_two_pow, Nat.zero_testBit]
    by_cases hik : k = i
    · subst hik
      simp [hbit, hn]
    · simp [hik]
  · intro h hz
    have : (x &&& 2 ^ k).testBit k = true := by
      rw [Nat.testBit_and, Nat.testBit_two_pow, hbit]
      simp [h]
    rw [hz] at this
    simp at this

theorem testBit_not64 (x k : Nat) (hk : k < 64) : (not64 x).testBit k = !x.testBit k := by
  unfold not64
  rw [Nat.testBit_xor, show (0xFFFFFFFFFFFFFFFF : Nat) = 2 ^ 64 - 1 from rfl,
    Nat.testBit_two_pow_sub_one]
  simp [hk]

theorem bit_div (x k : Nat) : x / 2 ^ k % 2 = 1 ↔ x.testBit k = true := by
  rw [Nat.testBit_to_div_mod]
  simp

/-- The overflow test of `add_ss` and `add_oc` at the sign bit `2 ^ k`: the operands agree in
that bit and the result differs from them. -/
theorem add_overflow_test (a b r k sb : Nat) (hs : sb = 2 ^ k) (hk : k < 64) :
    (not64 (a ^^^ b) &&& (a ^^^ r)) &&& sb ≠ 0 ↔
      (a / 2 ^ k % 2 = b / 2 ^ k % 2 ∧ a / 2 ^ k % 2 ≠ r / 2 ^ k % 2) := by
  rw [and_pow_ne_zero _ k sb hs, bit_div, Nat.testBit_and, testBit_not64 _ _ hk,
    Nat.testBit_xor, Nat.testBit_xor]
  have ha := bit_div a k
  have hb := bit_div b k
  have hr := bit_div r k
  generalize a / 2 ^ k = qa at ha ⊢
  generalize b / 2 ^ k = qb at hb ⊢
  generalize r / 2 ^ k = qr at hr ⊢
  cases hta : a.testBit k <;> cases htb : b.testBit k <;> cases htr : r.testBit k <;>
    simp only [hta, htb, htr] at ha hb hr ⊢ <;> simp at ha hb hr ⊢ <;> omega

/-- The overflow test of `sub_ss` and `sub_oc` at the sign bit `2 ^ k`: the operands differ in
that bit and the result differs from the first operand. -/
theorem sub_overflow_test (a b r k sb : Nat) (hs : sb = 2 ^ k) :
    ((a ^^^ b) &&& (a ^^^ r)) &&& sb ≠ 0 ↔
      (a / 2 ^ k % 2 ≠ b / 2 ^ k % 2 ∧ a / 2 ^ k % 2 ≠ r / 2 ^ k % 2) := by
  rw [and_pow_ne_zero _ k sb hs, bit_div, Nat.testBit_and, Nat.testBit_xor, Nat.testBit_xor]
  have ha := bit_div a k
  have hb := bit_div b k
  have hr := bit_div r k
  generalize a / 2 ^ k = qa at ha ⊢
  generalize b / 2 ^ k = qb at hb ⊢
  generalize r / 2 ^ k = qr at hr ⊢
  cases hta : a.testBit k <;> cases htb : b.testBit k <;> cases htr : r.testBit k <;>
    simp only [hta, htb, htr] at ha hb hr ⊢ <;> simp at ha hb hr ⊢ <;> omega

theorem and_mask8 (x : Nat) : x &&& 0xFF = x % 2 ^ 8 := Nat.and_pow_two_sub_one_eq_mod x 8
theorem and_mask16 (x : Nat) : x &&& 0xFFFF = x % 2 ^ 16 := Nat.and_pow_two_sub_one_eq_mod x 16
theorem and_mask32 (x : Nat) : x &&& 0xFFFFFFFF = x % 2 ^ 32 :=
  Nat.and_pow_two_sub_one_eq_mod x 32
theorem and_mask64 (x : Nat) : x &&& 0xFFFFFFFFFFFFFFFF = x % 2 ^ 64 :=
  Nat.and_pow_two_sub_one_eq_mod x 64

/-- C17: for the operand types 0..3 of bit width `w`, with `ua`, `ub` the low `w` bits of the
operands: the low `w` bits of `add_us` are `min (ua + ub) (2 ^ w - 1)`, the low `w` bits of
`sub_us` are `max (ua - ub) 0` (over the integers), and neither raises an interrupt. -/
theorem add_us_sub_us_saturate (t : CThread) (h3 : t.operandType ≤ 3) :
    (((add_us t).1 % 2 ^ dataSizeTableBits t.operandType : Nat) : Int) =
      min (((t.parm 1 % 2 ^ dataSizeTableBits t.operandType : Nat) : Int) +
          ((t.parm 2 % 2 ^ dataSizeTableBits t.operandType : Nat) : Int))
        (2 ^ dataSizeTableBits t.operandType - 1) ∧
    (((sub_us t).1 % 2 ^ dataSizeTableBits t.operandType : Nat) : Int) =
      max (((t.parm 1 % 2 ^ dataSizeTableBits t.operandType : Nat) : Int) -
          ((t.parm 2 % 2 ^ dataSizeTableBits t.operandType : Nat) : Int)) 0 ∧
    (add_us t).2 = t ∧ (sub_us t).2 = t := by
  refine ⟨?_, ?_, rfl, rfl⟩
  · simp only [add_us]
    generalize t.parm 1 = a
    generalize t.parm 2 = b
    generalize t.operandType = ot at h3 ⊢
    interval_cases ot <;>
      simp only [dataSizeMask, dataSizeTableBits, and_mask8, and_mask16, and_mask32, and_mask64,
        Nat.reducePow, Int.reducePow] <;>
      split_ifs <;> omega
  · simp only [sub_us, sub64]
    generalize t.parm 1 = a
    generalize t.parm 2 = b
    generalize t.operandType = ot at h3 ⊢
    interval_cases ot <;>
      simp only [dataSizeMask, dataSizeTableBits, and_mask8, and_mask16, and_mask32, and_mask64,
        Nat.reducePow, Int.reducePow] <;>
      split_ifs <;> omega

/-- C17 at the concrete input of the specification: `sub_us(0x03, 0x05)` at int8 returns 0. -/
theorem add_us_sub_us_saturate_witness :
    (sub_us (scalarThread 0 0x03 0x05 0)).1 = 0x00 ∧
    (((add_us (scalarThread 0 0x03 0x05 0)).1 % 2 ^ dataSizeTableBits 0 : Nat) : Int) =
      min (((0x03 % 2 ^ dataSizeTableBits 0 : Nat) : Int) +
          ((0x05 % 2 ^ dataSizeTableBits 0 : Nat) : Int)) (2 ^ dataSizeTableBits 0 - 1) ∧
    (((sub_us (scalarThread 0 0x03 0x05 0)).1 % 2 ^ dataSizeTableBits 0 : Nat) : Int) =
      max (((0x03 % 2 ^ dataSizeTableBits 0 : Nat) : Int) -
          ((0x05 % 2 ^ dataSizeTableBits 0 : Nat) : Int)) 0 ∧
    (add_us (scalarThread 0 0x03 0x05 0)).2 = scalarThread 0 0x03 0x05 0 ∧
    (sub_us (scalarThread 0 0x03 0x05 0)).2 = scalarThread 0 0x03 0x05 0 :=
  ⟨by decide, add_us_sub_us_saturate (scalarThread 0 0x03 0x05 0) (by decide)⟩

/-- The signed reading without a case distinction: the sign bit counts negatively. -/
theorem toInt_eq_div (w n : Nat) (hw : 0 < w) :
    toInt w n = ((n % 2 ^ w : Nat) : Int) -
      ((2 ^ w : Nat) : Int) * ((n % 2 ^ w / 2 ^ (w - 1) : Nat) : Int) := by
  obtain ⟨k, rfl⟩ : ∃ k, w = k + 1 := ⟨w - 1, by omega⟩
  have hlt : n % 2 ^ (k + 1) < 2 ^ (k + 1) := Nat.mod_lt _ (Nat.pow_pos (by norm_num))
  have hp : 0 < 2 ^ k := Nat.pow_pos (by norm_num)
  simp only [toInt, Nat.add_sub_cancel, Int.ofNat_eq_coe]
  rw [pow_succ] at hlt ⊢
  generalize n % (2 ^ k * 2) = r at hlt ⊢
  split_ifs with h
  · rw [Nat.div_eq_of_lt h]
    simp
  · have : r / 2 ^ k = 1 := Nat.div_eq_of_lt_le (by omega) (by omega)
    rw [this]
    simp

/-! Width-generic facts about residues and signs -/

theorem bit_top (x k : Nat) : x / 2 ^ k % 2 = x % 2 ^ (k + 1) / 2 ^ k := by
  rw [pow_succ, Nat.mod_mul_right_div_self]

/-- The overflow test of the additions, on the top bit of the `m`-residues. -/
theorem add_overflow_top (a b r k sb m : Nat) (hs : sb = 2 ^ k) (hm : m = 2 ^ (k + 1))
    (hk : k < 64) :
    (not64 (a ^^^ b) &&& (a ^^^ r)) &&& sb ≠ 0 ↔
      (a % m / sb = b % m / sb ∧ a % m / sb ≠ r % m / sb) := by
  rw [add_overflow_test a b r k sb hs hk, bit_top, bit_top, bit_top, ← hs, ← hm]

/-- The overflow test of the subtractions, on the top bit of the `m`-residues. -/
theorem sub_overflow_top (a b r k sb m : Nat) (hs : sb = 2 ^ k) (hm : m = 2 ^ (k + 1)) :
    ((a ^^^ b) &&& (a ^^^ r)) &&& sb ≠ 0 ↔
      (a % m / sb ≠ b % m / sb ∧ a % m / sb ≠ r % m / sb) := by
  rw [sub_overflow_test a b r k sb hs, bit_top, bit_top, bit_top, ← hs, ← hm]

/-- The low bits of the wrapped difference depend on the low bits of the operands only. -/
theorem sub64_mod (ot a b : Nat) (h3 : ot ≤ 3) :
    sub64 a b % 2 ^ dataSizeTableBits ot =
      (a % 2 ^ dataSizeTableBits ot +
        (2 ^ dataSizeTableBits ot - b % 2 ^ dataSizeTableBits ot)) % 2 ^ dataSizeTableBits ot := by
  interval_cases ot <;> simp only [dataSizeTableBits, sub64, Nat.reducePow] <;> omega

/-- The widths of the operand types 0..3: `w = k + 1` bits, mask `2 ^ w - 1`, sign bit
`2 ^ k`. -/
theorem width_glue (ot : Nat) (h3 : ot ≤ 3) :
    ∃ k, k < 64 ∧ dataSizeTableBits ot = k + 1 ∧ dataSizeMask ot = 2 ^ (k + 1) - 1 ∧
      dataSizeMask ot >>> 1 = 2 ^ k - 1 ∧ (dataSizeMask ot >>> 1) + 1 = 2 ^ k := by
  interval_cases ot
  · exact ⟨7, by decide, rfl, by decide, by decide, by decide⟩
  · exact ⟨15, by decide, rfl, by decide, by decide, by decide⟩
  · exact ⟨31, by decide, rfl, by decide, by decide, by decide⟩
  · exact ⟨63, by decide, rfl, by decide, by decide, by decide⟩

/-- The residue of `x` modulo `2 ^ (k + 1)`, its top bit and its signed reading. -/
theorem residue_facts (k x : Nat) :
    x % 2 ^ (k + 1) < 2 ^ (k + 1) ∧
    ((x % 2 ^ (k + 1) / 2 ^ k = 0 ∧ x % 2 ^ (k + 1) < 2 ^ k ∧
        toInt (k + 1) x = ((x % 2 ^ (k + 1) : Nat) : Int)) ∨
      (x % 2 ^ (k + 1) / 2 ^ k = 1 ∧ 2 ^ k ≤ x % 2 ^ (k + 1) ∧
        toInt (k + 1) x = ((x % 2 ^ (k + 1) : Nat) : Int) - ((2 ^ (k + 1) : Nat) : Int))) := by
  have hp : 0 < 2 ^ k := Nat.pow_pos (by norm_num)
  have hM : 2 ^ (k + 1) = 2 * 2 ^ k := by rw [pow_succ, Nat.mul_comm]
  have hlt : x % 2 ^ (k + 1) < 2 ^ (k + 1) := Nat.mod_lt _ (by omega)
  refine ⟨hlt, ?_⟩
  simp only [toInt, Nat.add_sub_cancel, Int.ofNat_eq_coe]
  generalize x % 2 ^ (k + 1) = r at hlt ⊢
  by_cases h : r < 2 ^ k
  · left
    exact ⟨Nat.div_eq_of_lt h, h, by rw [if_pos h]⟩
  · right
    exact ⟨Nat.div_eq_of_lt_le (by omega) (by omega), by omega, by rw [if_neg h]⟩

theorem add_mod_cases (u v m : Nat) (hu : u < m) (hv : v < m) :
    ((u + v) % m = u + v ∧ u + v < m) ∨ ((u + v) % m + m = u + v ∧ (u + v) % m < m) := by
  by_cases h : u + v < m
  · left
    exact ⟨Nat.mod_eq_of_lt h, h⟩
  · right
    have h1 : (u + v) % m = u + v - m := by
      rw [Nat.mod_eq_sub_mod (by omega), Nat.mod_eq_of_lt (by omega)]
    omega

theorem add64_mod (k a b : Nat) (hk : k < 64) :
    ((a + b) % 2 ^ 64) % 2 ^ (k + 1) = (a % 2 ^ (k + 1) + b % 2 ^ (k + 1)) % 2 ^ (k + 1) := by
  rw [Nat.mod_mod_of_dvd _ (pow_dvd_pow 2 (by omega : k + 1 ≤ 64)), Nat.add_mod]

theorem int_two_pow (k : Nat) : (2 : Int) ^ k = ((2 ^ k : Nat) : Int) := by
  norm_cast

/-- The two tests of `add_oc`, for the operand types 0..3: the unsigned test holds exactly when
the unsigned sum does not fit, the signed test exactly when the signed sum does not fit. -/
theorem add_oc_tests (ot a b : Nat) (h3 : ot ≤ 3) :
    (((a + b) % 2 ^ 64 &&& dataSizeMask ot) < (a &&& dataSizeMask ot) ↔
      2 ^ dataSizeTableBits ot ≤ a % 2 ^ dataSizeTableBits ot + b % 2 ^ dataSizeTableBits ot) ∧
    ((not64 (a ^^^ b) &&& (a ^^^ (a + b) % 2 ^ 64)) &&& ((dataSizeMask ot >>> 1) + 1) ≠ 0 ↔
      (toInt (dataSizeTableBits ot) a + toInt (dataSizeTableBits ot) b
          < -(2 ^ (dataSizeTableBits ot - 1)) ∨
        2 ^ (dataSizeTableBits ot - 1) - 1
          < toInt (dataSizeTableBits ot) a + toInt (dataSizeTableBits ot) b)) ∧
    ((a + b) % 2 ^ 64) % 2 ^ dataSizeTableBits ot = (a + b) % 2 ^ dataSizeTableBits ot := by
  obtain ⟨k, hk, hw, hmask, -, hsb⟩ := width_glue ot h3
  have hdvd : (a + b) % 2 ^ 64 % 2 ^ (k + 1) = (a + b) % 2 ^ (k + 1) :=
    Nat.mod_mod_of_dvd _ (pow_dvd_pow 2 (by omega : k + 1 ≤ 64))
  have hM : 2 ^ (k + 1) = 2 * 2 ^ k := by rw [pow_succ, Nat.mul_comm]
  rw [hw, hsb, hmask]
  refine ⟨?_, ?_, hdvd⟩
  all_goals
    simp only [Nat.and_pow_two_sub_one_eq_mod, Nat.add_sub_cancel, int_two_pow,
      add_overflow_top a b _ k (2 ^ k) (2 ^ (k + 1)) rfl rfl hk]
    obtain ⟨fa1, fa2⟩ := residue_facts k a
    obtain ⟨fb1, fb2⟩ := residue_facts k b
    obtain ⟨fr1, fr2⟩ := residue_facts k ((a + b) % 2 ^ 64)
    have hc := add_mod_cases _ _ _ fa1 fb1
    rw [add64_mod k a b hk] at fr1 fr2 ⊢
    generalize toInt (k + 1) a = sa at fa2 ⊢
    generalize toInt (k + 1) b = sb at fb2 ⊢
    generalize toInt (k + 1) ((a + b) % 2 ^ 64) = sr at fr2
    generalize (a % 2 ^ (k + 1) + b % 2 ^ (k + 1)) % 2 ^ (k + 1) = R at fr1 fr2 hc ⊢
    generalize a % 2 ^ (k + 1) = A at fa1 fa2 hc ⊢
    generalize b % 2 ^ (k + 1) = B at fb1 fb2 hc ⊢
    generalize A / 2 ^ k = qa at fa2 ⊢
    generalize B / 2 ^ k = qb at fb2 ⊢
    generalize R / 2 ^ k = qr at fr2 ⊢
    generalize 2 ^ (k + 1) = M at *
    generalize 2 ^ k = H at *
    omega

theorem sub_mod_cases (u v m : Nat) (hu : u < m) (hv : v < m) :
    (v ≤ u ∧ (u + (m - v)) % m = u - v) ∨ (u < v ∧ (u + (m - v)) % m = u + m - v) := by
  by_cases h : v ≤ u
  · left
    refine ⟨h, ?_⟩
    rw [show u + (m - v) = (u - v) + m by omega, Nat.add_mod_right, Nat.mod_eq_of_lt (by omega)]
  · right
    refine ⟨by omega, ?_⟩
    rw [Nat.mod_eq_of_lt (by omega)]
    omega

/-- The signed reading of the saturation value `(sizeMask >> 1) + c` of the signed handlers. -/
theorem toInt_sat (k : Nat) (c : Prop) [Decidable c] :
    toInt (k + 1) (2 ^ k - 1 + (if c then 1 else 0)) =
      if c then -((2 ^ k : Nat) : Int) else ((2 ^ k : Nat) : Int) - 1 := by
  have hp : 0 < 2 ^ k := Nat.pow_pos (by norm_num)
  have hM : 2 ^ (k + 1) = 2 * 2 ^ k := by rw [pow_succ, Nat.mul_comm]
  obtain ⟨f1, f2⟩ := residue_facts k (2 ^ k - 1 + (if c then 1 else 0))
  by_cases hc : c
  · simp only [if_pos hc] at f1 f2 ⊢
    rw [Nat.mod_eq_of_lt (by omega)] at f2
    generalize toInt (k + 1) (2 ^ k - 1 + 1) = s at f2 ⊢
    generalize 2 ^ (k + 1) = M at *
    generalize (2 ^ k - 1 + 1) / 2 ^ k = q at *
    generalize 2 ^ k = H at *
    omega
  · simp only [if_neg hc] at f1 f2 ⊢
    rw [Nat.mod_eq_of_lt (by omega)] at f2
    generalize toInt (k + 1) (2 ^ k - 1 + 0) = s at f2 ⊢
    generalize 2 ^ (k + 1) = M at *
    generalize (2 ^ k - 1 + 0) / 2 ^ k = q at *
    generalize 2 ^ k = H at *
    omega

/-- The signed reading of the result of `add_ss` is the clamped sum. -/
theorem add_ss_val (t : CThread) (h3 : t.operandType ≤ 3) :
    toInt (dataSizeTableBits t.operandType) (add_ss t).1 =
      max (-(2 ^ (dataSizeTableBits t.operandType - 1)))
        (min (toInt (dataSizeTableBits t.operandType) (t.parm 1) +
            toInt (dataSizeTableBits t.operandType) (t.parm 2))
          (2 ^ (dataSizeTableBits t.operandType - 1) - 1)) := by
  obtain ⟨k, hk, hw, -, hsh, hsb⟩ := width_glue t.operandType h3
  have hM : 2 ^ (k + 1) = 2 * 2 ^ k := by rw [pow_succ, Nat.mul_comm]
  simp only [add_ss]
  generalize t.parm 1 = a
  generalize t.parm 2 = b
  rw [hw, hsb, hsh]
  simp only [Nat.add_sub_cancel, int_two_pow, toInt_sat,
    add_overflow_top a b _ k (2 ^ k) (2 ^ (k + 1)) rfl rfl hk, and_pow_ne_zero a k (2 ^ k) rfl,
    bit_top, apply_ite (toInt (k + 1)), min_def, max_def]
  obtain ⟨fa1, fa2⟩ := residue_facts k a
  obtain ⟨fb1, fb2⟩ := residue_facts k b
  obtain ⟨fr1, fr2⟩ := residue_facts k ((a + b) % 2 ^ 64)
  have hc := add_mod_cases _ _ _ fa1 fb1
  rw [add64_mod k a b hk] at fr1 fr2 ⊢
  generalize toInt (k + 1) a = sa at fa2 ⊢
  generalize toInt (k + 1) b = sb at fb2 ⊢
  generalize toInt (k + 1) ((a + b) % 2 ^ 64) = sr at fr2 ⊢
  generalize (a % 2 ^ (k + 1) + b % 2 ^ (k + 1)) % 2 ^ (k + 1) = R at fr1 fr2 hc ⊢
  generalize a % 2 ^ (k + 1) = A at fa1 fa2 hc ⊢
  generalize b % 2 ^ (k + 1) = B at fb1 fb2 hc ⊢
  generalize A / 2 ^ k = qa at fa2 ⊢
  generalize B / 2 ^ k = qb at fb2 ⊢
  generalize R / 2 ^ k = qr at fr2 ⊢
  generalize 2 ^ (k + 1) = M at *
  generalize 2 ^ k = H at *
  split_ifs <;> omega

/-- The signed reading of the result of `sub_ss` is the clamped difference. -/
theorem sub_ss_val (t : CThread) (h3 : t.operandType ≤ 3) :
    toInt (dataSizeTableBits t.operandType) (sub_ss t).1 =
      max (-(2 ^ (dataSizeTableBits t.operandType - 1)))
        (min (toInt (dataSizeTableBits t.operandType) (t.parm 1) -
            toInt (dataSizeTableBits t.operandType) (t.parm 2))
          (2 ^ (dataSizeTableBits t.operandType - 1) - 1)) := by
  obtain ⟨k, hk, hw, -, hsh, hsb⟩ := width_glue t.operandType h3
  have hM : 2 ^ (k + 1) = 2 * 2 ^ k := by rw [pow_succ, Nat.mul_comm]
  have hr := sub64_mod t.operandType (t.parm 1) (t.parm 2) h3
  simp only [sub_ss]
  generalize t.parm 1 = a at hr ⊢
  generalize t.parm 2 = b at hr ⊢
  rw [hw] at hr
  rw [hw, hsb, hsh]
  simp only [Nat.add_sub_cancel, int_two_pow, toInt_sat,
    sub_overflow_top a b _ k (2 ^ k) (2 ^ (k + 1)) rfl rfl, and_pow_ne_zero a k (2 ^ k) rfl,
    bit_top, apply_ite (toInt (k + 1)), min_def, max_def]
  obtain ⟨fa1, fa2⟩ := residue_facts k a
  obtain ⟨fb1, fb2⟩ := residue_facts k b
  obtain ⟨fr1, fr2⟩ := residue_facts k (sub64 a b)
  have hc := sub_mod_cases _ _ _ fa1 fb1
  rw [hr] at fr1 fr2 ⊢
  generalize toInt (k + 1) a = sa at fa2 ⊢
  generalize toInt (k + 1) b = sb at fb2 ⊢
  generalize toInt (k + 1) (sub64 a b) = sr at fr2 ⊢
  generalize (a % 2 ^ (k + 1) + (2 ^ (k + 1) - b % 2 ^ (k + 1))) % 2 ^ (k + 1) = R
    at fr1 fr2 hc ⊢
  generalize a % 2 ^ (k + 1) = A at fa1 fa2 hc ⊢
  generalize b % 2 ^ (k + 1) = B at fb1 fb2 hc ⊢
  generalize A / 2 ^ k = qa at fa2 ⊢
  generalize B / 2 ^ k = qb at fb2 ⊢
  generalize R / 2 ^ k = qr at fr2 ⊢
  generalize 2 ^ (k + 1) = M at *
  generalize 2 ^ k = H at *
  split_ifs <;> omega

/-- The two tests of `sub_oc`, for the operand types 0..3: the unsigned test holds exactly when
the subtrahend is the larger unsigned value, the signed test exactly when the signed difference
does not fit. -/
theorem sub_oc_tests (ot a b : Nat) (h3 : ot ≤ 3) :
    ((sub64 a b &&& dataSizeMask ot) > (a &&& dataSizeMask ot) ↔
      a % 2 ^ dataSizeTableBits ot < b % 2 ^ dataSizeTableBits ot) ∧
    (((a ^^^ b) &&& (a ^^^ sub64 a b)) &&& ((dataSizeMask ot >>> 1) + 1) ≠ 0 ↔
      (toInt (dataSizeTableBits ot) a - toInt (dataSizeTableBits ot) b
          < -(2 ^ (dataSizeTableBits ot - 1)) ∨
        2 ^ (dataSizeTableBits ot - 1) - 1
          < toInt (dataSizeTableBits ot) a - toInt (dataSizeTableBits ot) b)) ∧
    (((sub64 a b % 2 ^ dataSizeTableBits ot : Nat) : Int) =
      ((a : Int) - (b : Int)) % 2 ^ dataSizeTableBits ot) := by
  obtain ⟨k, hk, hw, hmask, -, hsb⟩ := width_glue ot h3
  have hM : 2 ^ (k + 1) = 2 * 2 ^ k := by rw [pow_succ, Nat.mul_comm]
  have hr := sub64_mod ot a b h3
  rw [hw] at hr
  rw [hw, hsb, hmask]
  obtain ⟨fa1, fa2⟩ := residue_facts k a
  obtain ⟨fb1, fb2⟩ := residue_facts k b
  obtain ⟨fr1, fr2⟩ := residue_facts k (sub64 a b)
  have hc := sub_mod_cases _ _ _ fa1 fb1
  refine ⟨?_, ?_, ?_⟩
  · simp only [Nat.and_pow_two_sub_one_eq_mod, gt_iff_lt]
    rw [hr]
    omega
  · simp only [Nat.add_sub_cancel, int_two_pow,
      sub_overflow_top a b _ k (2 ^ k) (2 ^ (k + 1)) rfl rfl]
    rw [hr] at fr1 fr2 ⊢
    generalize toInt (k + 1) a = sa at fa2 ⊢
    generalize toInt (k + 1) b = sb at fb2 ⊢
    generalize toInt (k + 1) (sub64 a b) = sr at fr2
    generalize (a % 2 ^ (k + 1) + (2 ^ (k + 1) - b % 2 ^ (k + 1))) % 2 ^ (k + 1) = R
      at fr1 fr2 hc ⊢
    generalize a % 2 ^ (k + 1) = A at fa1 fa2 hc ⊢
    generalize b % 2 ^ (k + 1) = B at fb1 fb2 hc ⊢
    generalize A / 2 ^ k = qa at fa2 ⊢
    generalize B / 2 ^ k = qb at fb2 ⊢
    generalize R / 2 ^ k = qr at fr2 ⊢
    generalize 2 ^ (k + 1) = M at *
    generalize 2 ^ k = H at *
    omega
  · rw [hr]
    have hpos : (0 : Int) < ((2 ^ (k + 1) : Nat) : Int) := by
      exact_mod_cast Nat.pow_pos (by norm_num : 0 < 2)
    rw [int_two_pow]
    have e1 : ((a : Int) - (b : Int)) % ((2 ^ (k + 1) : Nat) : Int) =
        (((a % 2 ^ (k + 1) : Nat) : Int) - ((b % 2 ^ (k + 1) : Nat) : Int)) %
          ((2 ^ (k + 1) : Nat) : Int) := by
      push_cast
      exact Int.sub_emod _ _ _
    rw [e1]
    rcases hc with ⟨h1, h2⟩ | ⟨h1, h2⟩
    · rw [h2, Int.emod_eq_of_lt (by omega) (by omega)]
      omega
    · rw [h2]
      have : (((a % 2 ^ (k + 1) : Nat) : Int) - ((b % 2 ^ (k + 1) : Nat) : Int)) %
          ((2 ^ (k + 1) : Nat) : Int) =
          ((a % 2 ^ (k + 1) : Nat) : Int) - ((b % 2 ^ (k + 1) : Nat) : Int) +
            ((2 ^ (k + 1) : Nat) : Int) := by
        rw [← Int.add_emod_self, Int.emod_eq_of_lt (by omega) (by omega)]
      rw [this]
      omega

/-- C16: for the operand types 0..3 of bit width `w`, with `sa`, `sb` the low `w` bits of the
operands read as signed integers: the low `w` bits of `add_ss`, read as signed, are `sa + sb`
clamped to `[-2 ^ (w - 1), 2 ^ (w - 1) - 1]`, the low `w` bits of `sub_ss`, read as signed, are
`sa - sb` clamped to the same range, and neither raises an interrupt. -/
theorem add_ss_sub_ss_saturate (t : CThread) (h3 : t.operandType ≤ 3) :
    toInt (dataSizeTableBits t.operandType) (add_ss t).1 =
      max (-(2 ^ (dataSizeTableBits t.operandType - 1)))
        (min (toInt (dataSizeTableBits t.operandType) (t.parm 1) +
            toInt (dataSizeTableBits t.operandType) (t.parm 2))
          (2 ^ (dataSizeTableBits t.operandType - 1) - 1)) ∧
    toInt (dataSizeTableBits t.operandType) (sub_ss t).1 =
      max (-(2 ^ (dataSizeTableBits t.operandType - 1)))
        (min (toInt (dataSizeTableBits t.operandType) (t.parm 1) -
            toInt (dataSizeTableBits t.operandType) (t.parm 2))
          (2 ^ (dataSizeTableBits t.operandType - 1) - 1)) ∧
    (add_ss t).2 = t ∧ (sub_ss t).2 = t :=
  ⟨add_ss_val t h3, sub_ss_val t h3, rfl, rfl⟩

/-- C16 at the concrete input of the specification: `add_ss(0x7F, 0x01)` at int8 returns
0x7F. -/
theorem add_ss_sub_ss_saturate_witness :
    (add_ss (scalarThread 0 0x7F 0x01 0)).1 = 0x7F ∧
    toInt (dataSizeTableBits 0) (add_ss (scalarThread 0 0x7F 0x01 0)).1 =
      max (-(2 ^ (dataSizeTableBits 0 - 1)))
        (min (toInt (dataSizeTableBits 0) 0x7F + toInt (dataSizeTableBits 0) 0x01)
          (2 ^ (dataSizeTableBits 0 - 1) - 1)) ∧
    toInt (dataSizeTableBits 0) (sub_ss (scalarThread 0 0x7F 0x01 0)).1 =
      max (-(2 ^ (dataSizeTableBits 0 - 1)))
        (min (toInt (dataSizeTableBits 0) 0x7F - toInt (dataSizeTableBits 0) 0x01)
          (2 ^ (dataSizeTableBits 0 - 1) - 1)) ∧
    (add_ss (scalarThread 0 0x7F 0x01 0)).2 = scalarThread 0 0x7F 0x01 0 ∧
    (sub_ss (scalarThread 0 0x7F 0x01 0)).2 = scalarThread 0 0x7F 0x01 0 :=
  ⟨by decide, add_ss_sub_ss_saturate (scalarThread 0 0x7F 0x01 0) (by decide)⟩

/-! Arithmetic with overflow check -/

theorem and_or_right (x y z : Nat) : (x ||| y) &&& z = (x &&& z) ||| (y &&& z) := by
  apply Nat.eq_of_testBit_eq
  intro i
  simp only [Nat.testBit_and, Nat.testBit_or, Bool.and_or_distrib_right]

/-- The flag value `carry.q & 3` after the two conditional `carry.b |= 1`, `carry.b |= 2`. -/
theorem flags_combine (f : Nat) (U S : Prop) [Decidable U] [Decidable S] :
    (if S then (if U then f ||| 1 else f) ||| 2 else (if U then f ||| 1 else f)) &&& 3 =
      ((f &&& 3) ||| (if U then 1 else 0)) ||| 2 * (if S then 1 else 0) := by
  by_cases hU : U <;> by_cases hS : S <;>
    simp only [if_pos, if_neg, hU, hS, not_false_eq_true, and_or_right,
      show 1 &&& 3 = 1 from rfl, show 2 &&& 3 = 2 from rfl, Nat.mul_one, Nat.mul_zero,
      Nat.or_zero]

/-- A flag bit below bit 2 that is set in `f` is set in every `(f & 3) | x | y`. -/
theorem flags_kept (f x y i : Nat) (hi : i < 2) (h : f.testBit i = true) :
    (((f &&& 3) ||| x) ||| y).testBit i = true := by
  have h3 : (3 : Nat).testBit i = true := by
    rw [show (3 : Nat) = 2 ^ 2 - 1 from rfl, Nat.testBit_two_pow_sub_one]
    simpa using hi
  rw [Nat.testBit_or, Nat.testBit_or, Nat.testBit_and, h, h3]
  rfl

/-- C19: for the operand types 0..3 of bit width `w`, operands `a`, `b` and the incoming flags
`f_rs`, `f_rt` read from the odd lanes of RS and RT: `add_oc` returns `(a + b) mod 2 ^ w` in its
low `w` bits and stores `((f_rs | f_rt) & 3) | u | 2 * s` in `parm[5]`, with `u = 1` iff
`ua + ub ≥ 2 ^ w` and `s = 1` iff `sa + sb` is outside the signed range; `sub_oc` does the same
for `a - b`, with `u = 1` iff `ua < ub` and `s = 1` iff `sa - sb` is outside the signed range;
neither raises an interrupt, and a flag bit set on input stays set. -/
theorem add_oc_sub_oc_flags (t : CThread) (h3 : t.operandType ≤ 3) :
    (add_oc t).1 % 2 ^ dataSizeTableBits t.operandType =
      (t.parm 1 + t.parm 2) % 2 ^ dataSizeTableBits t.operandType ∧
    (add_oc t).2.parm 5 =
      (((readVectorElement t (t.operands 4) (t.vectorOffset + dataSizeTable t.operandType) |||
          readVectorElement t (t.operands 5) (t.vectorOffset + dataSizeTable t.operandType))
          &&& 3) |||
        (if 2 ^ dataSizeTableBits t.operandType ≤
            t.parm 1 % 2 ^ dataSizeTableBits t.operandType +
              t.parm 2 % 2 ^ dataSizeTableBits t.operandType then 1 else 0)) |||
        2 * (if (toInt (dataSizeTableBits t.operandType) (t.parm 1) +
                toInt (dataSizeTableBits t.operandType) (t.parm 2)
                  < -(2 ^ (dataSizeTableBits t.operandType - 1)) ∨
              2 ^ (dataSizeTableBits t.operandType - 1) - 1 <
                toInt (dataSizeTableBits t.operandType) (t.parm 1) +
                  toInt (dataSizeTableBits t.operandType) (t.parm 2)) then 1 else 0) ∧
    (((sub_oc t).1 % 2 ^ dataSizeTableBits t.operandType : Nat) : Int) =
      ((t.parm 1 : Int) - (t.parm 2 : Int)) % 2 ^ dataSizeTableBits t.operandType ∧
    (sub_oc t).2.parm 5 =
      (((readVectorElement t (t.operands 4) (t.vectorOffset + dataSizeTable t.operandType) |||
          readVectorElement t (t.operands 5) (t.vectorOffset + dataSizeTable t.operandType))
          &&& 3) |||
        (if t.parm 1 % 2 ^ dataSizeTableBits t.operandType <
            t.parm 2 % 2 ^ dataSizeTableBits t.operandType then 1 else 0)) |||
        2 * (if (toInt (dataSizeTableBits t.operandType) (t.parm 1) -
                toInt (dataSizeTableBits t.operandType) (t.parm 2)
                  < -(2 ^ (dataSizeTableBits t.operandType - 1)) ∨
              2 ^ (dataSizeTableBits t.operandType - 1) - 1 <
                toInt (dataSizeTableBits t.operandType) (t.parm 1) -
                  toInt (dataSizeTableBits t.operandType) (t.parm 2)) then 1 else 0) ∧
    (add_oc t).2.interrupts = t.interrupts ∧ (sub_oc t).2.interrupts = t.interrupts ∧
    (∀ i, i < 2 →
      (readVectorElement t (t.operands 4) (t.vectorOffset + dataSizeTable t.operandType) |||
        readVectorElement t (t.operands 5) (t.vectorOffset + dataSizeTable t.operandType)).testBit i
          = true →
      ((add_oc t).2.parm 5).testBit i = true ∧ ((sub_oc t).2.parm 5).testBit i = true) := by
  have h4 : t.operandType < 4 := by omega
  obtain ⟨hau, has, har⟩ := add_oc_tests t.operandType (t.parm 1) (t.parm 2) h3
  obtain ⟨hsu, hss, hsr⟩ := sub_oc_tests t.operandType (t.parm 1) (t.parm 2) h3
  refine ⟨?_, ?_, ?_, ?_, ?_, ?_, ?_⟩
  · simp only [add_oc, if_pos h4]
    exact har
  · simp only [add_oc, if_pos h4, if_true, carryIn, hau, has]
    exact flags_combine _ _ _
  · simp only [sub_oc, if_pos h4]
    exact hsr
  · simp only [sub_oc, if_pos h4, if_true, carryIn, hsu, hss]
    exact flags_combine _ _ _
  · simp only [add_oc, if_pos h4]
  · simp only [sub_oc, if_pos h4]
  · intro i hi hf
    simp only [add_oc, sub_oc, if_pos h4, if_true, carryIn, flags_combine]
    exact ⟨flags_kept _ _ _ i hi hf, flags_kept _ _ _ i hi hf⟩

set_option maxRecDepth 100000 in
/-- C19 at a concrete input: at int8, 0x7F + 0x01 with the incoming flag 1 gives 0x80 and the
flags 3 (the incoming bit 0 is kept, signed overflow is added). -/
theorem add_oc_sub_oc_flags_witness :
    (ocThread 0x01).operandType ≤ 3 ∧
    (add_oc (ocThread 0x01)).1 = 0x80 ∧
    (add_oc (ocThread 0x01)).2.parm 5 = 3 ∧
    (sub_oc (ocThread 0x01)).2.parm 5 = 1 :=
  ⟨by decide, by decide,
    (add_oc_sub_oc_flags (ocThread 0x01) (by decide)).2.1.trans (by decide),
    (add_oc_sub_oc_flags (ocThread 0x01) (by decide)).2.2.2.1.trans (by decide)⟩

/-! Multiplication with overflow check -/

/-- At int8 the switch of `mul_oc` on the operands 0xFF and 0x01 stores the signed product -1
and reports an unsigned overflow, whatever the earlier content of `result`. -/
theorem mulChecked_ff_01 (E : Env) (result0 : Nat) :
    mulChecked E 0 0xFF 0x01 result0 = some (setLow 32 result0 0xFFFFFFFF, true, false) := by
  have hv : ofInt 32 (wrapInt 32 (toInt 8 0xFF * toInt 8 0x01)) = 0xFFFFFFFF := by decide
  simp only [mulChecked, hv]
  refine congrArg some (Prod.ext rfl (Prod.ext ?_ ?_))
  · simp only [decide_eq_true_eq, setLow, Nat.reducePow, ne_eq]
    omega
  · simp only [decide_eq_false_iff_not, not_not, setLow, toInt_eq_div 8 _ (by decide),
      toInt_eq_div 32 _ (by decide), Nat.reducePow, Nat.reduceSub, ne_eq]
    omega

/-- At int8 the switch of `mul_oc` on the operands 0xFF and 0xFF stores the signed product 1
and reports no overflow, whatever the earlier content of `result`. -/
theorem mulChecked_ff_ff (E : Env) (result0 : Nat) :
    mulChecked E 0 0xFF 0xFF result0 = some (setLow 32 result0 1, false, false) := by
  have hv : ofInt 32 (wrapInt 32 (toInt 8 0xFF * toInt 8 0xFF)) = 1 := by decide
  simp only [mulChecked, hv]
  refine congrArg some (Prod.ext rfl (Prod.ext ?_ ?_))
  · simp only [decide_eq_false_iff_not, not_not, setLow, Nat.reducePow, ne_eq]
    omega
  · simp only [decide_eq_false_iff_not, not_not, setLow, toInt_eq_div 8 _ (by decide),
      toInt_eq_div 32 _ (by decide), Nat.reducePow, Nat.reduceSub, ne_eq]
    omega

set_option maxRecDepth 100000 in
/-- C20 (counterexample): at int8 with no incoming flags, for every content of the
uninitialised `result` and every parameter record: for a = 0xFF, b = 0x01 the unsigned product
255 is below 2 ^ 8, yet `mul_oc` sets bit 0 of `parm[5]`; for a = b = 0xFF the unsigned product
65025 is not below 2 ^ 8, yet `mul_oc` leaves bit 0 of `parm[5]` clear. -/
theorem mul_oc_unsigned_flag_from_signed_product (E : Env) (result0 : Nat) :
    (scalarThread 0 0xFF 0x01 0).operandType ≤ 2 ∧
    carryIn (scalarThread 0 0xFF 0x01 0) = 0 ∧
    ((scalarThread 0 0xFF 0x01 0).parm 1 % 2 ^ 8) * ((scalarThread 0 0xFF 0x01 0).parm 2 % 2 ^ 8)
      < 2 ^ 8 ∧
    (mul_oc E (scalarThread 0 0xFF 0x01 0) result0).2.parm 5 = 1 ∧
    ((mul_oc E (scalarThread 0 0xFF 0x01 0) result0).2.parm 5).testBit 0 = true ∧
    carryIn (scalarThread 0 0xFF 0xFF 0) = 0 ∧
    2 ^ 8 ≤ ((scalarThread 0 0xFF 0xFF 0).parm 1 % 2 ^ 8) *
      ((scalarThread 0 0xFF 0xFF 0).parm 2 % 2 ^ 8) ∧
    (mul_oc E (scalarThread 0 0xFF 0xFF 0) result0).2.parm 5 = 0 ∧
    ((mul_oc E (scalarThread 0 0xFF 0xFF 0) result0).2.parm 5).testBit 0 = false := by
  have hc1 : carryIn (scalarThread 0 0xFF 0x01 0) = 0 := by decide
  have hc2 : carryIn (scalarThread 0 0xFF 0xFF 0) = 0 := by decide
  have h1 : (mul_oc E (scalarThread 0 0xFF 0x01 0) result0).2.parm 5 = 1 := by
    have hm : mulChecked E (scalarThread 0 0xFF 0x01 0).operandType
        ((scalarThread 0 0xFF 0x01 0).parm 1) ((scalarThread 0 0xFF 0x01 0).parm 2) result0 =
        some (setLow 32 result0 0xFFFFFFFF, true, false) := mulChecked_ff_01 E result0
    simp only [mul_oc, hm, hc1]
    rfl
  have h2 : (mul_oc E (scalarThread 0 0xFF 0xFF 0) result0).2.parm 5 = 0 := by
    have hm : mulChecked E (scalarThread 0 0xFF 0xFF 0).operandType
        ((scalarThread 0 0xFF 0xFF 0).parm 1) ((scalarThread 0 0xFF 0xFF 0).parm 2) result0 =
        some (setLow 32 result0 1, false, false) := mulChecked_ff_ff E result0
    simp only [mul_oc, hm, hc2]
    rfl
  refine ⟨by decide, hc1, by decide, h1, ?_, hc2, by decide, h2, ?_⟩
  · rw [h1]
    rfl
  · rw [h2]
    rfl

/-! Saturating multiplication -/

/-- The low bits of the result of `mul_us` are the clamped product of the unsigned operands. -/
theorem mul_us_val (E : Env) (t : CThread) (result0 : Nat) (h2 : t.operandType ≤ 2) :
    (mul_us E t result0).1 % 2 ^ dataSizeTableBits t.operandType =
      min ((t.parm 1 % 2 ^ dataSizeTableBits t.operandType) *
          (t.parm 2 % 2 ^ dataSizeTableBits t.operandType))
        (2 ^ dataSizeTableBits t.operandType - 1) ∧
    (mul_us E t result0).2 = t := by
  have hp : (t.parm 1 % 2 ^ dataSizeTableBits t.operandType) *
      (t.parm 2 % 2 ^ dataSizeTableBits t.operandType) ≤
      (2 ^ dataSizeTableBits t.operandType - 1) * (2 ^ dataSizeTableBits t.operandType - 1) := by
    have hpos : 0 < 2 ^ dataSizeTableBits t.operandType := Nat.pow_pos (by norm_num)
    exact Nat.mul_le_mul (Nat.le_sub_one_of_lt (Nat.mod_lt _ hpos))
      (Nat.le_sub_one_of_lt (Nat.mod_lt _ hpos))
  simp only [mul_us]
  generalize t.parm 1 = a at hp ⊢
  generalize t.parm 2 = b at hp ⊢
  generalize t.operandType = ot at h2 hp ⊢
  interval_cases ot <;>
    simp only [mulUnsigned, dataSizeMask, dataSizeTableBits, setLow, Nat.reducePow,
      Nat.reduceSub, Nat.reduceMul, decide_eq_true_eq, ne_eq] at hp ⊢
  · generalize a % 256 * (b % 256) = p at hp ⊢
    refine ⟨?_, trivial⟩
    split_ifs <;> omega
  · generalize a % 65536 * (b % 65536) = p at hp ⊢
    refine ⟨?_, trivial⟩
    split_ifs <;> omega
  · generalize a % 4294967296 * (b % 4294967296) = p at hp ⊢
    refine ⟨?_, trivial⟩
    split_ifs <;> omega

/-- Bounds and sign of a product of two integers of magnitude at most `B`. -/
theorem int_mul_facts (x y B : Int) (hx1 : -B ≤ x) (hx2 : x < B) (hy1 : -B ≤ y) (hy2 : y < B) :
    -(B * B) < x * y ∧ x * y ≤ B * B ∧ (0 ≤ x → 0 ≤ y → 0 ≤ x * y) ∧
    (x < 0 → y < 0 → 0 < x * y) ∧ (0 ≤ x → y < 0 → x * y ≤ 0) ∧ (x < 0 → 0 ≤ y → x * y ≤ 0) := by
  refine ⟨by nlinarith, by nlinarith, fun h1 h2 => mul_nonneg h1 h2,
    fun h1 h2 => mul_pos_of_neg_of_neg h1 h2,
    fun h1 h2 => mul_nonpos_of_nonneg_of_nonpos h1 (le_of_lt h2),
    fun h1 h2 => mul_nonpos_of_nonpos_of_nonneg (le_of_lt h1) h2⟩

/-- The sign test `(a ^ b) & signBit` of `mul_ss`, on the top bit of the `m`-residues. -/
theorem xor_sign_top (a b k sb m : Nat) (hs : sb = 2 ^ k) (hm : m = 2 ^ (k + 1)) :
    (a ^^^ b) &&& sb ≠ 0 ↔ a % m / sb ≠ b % m / sb := by
  rw [and_pow_ne_zero _ k sb hs, bit_div, Nat.testBit_xor]
  have ha := bit_div a k
  have hb := bit_div b k
  rw [bit_top] at ha hb
  rw [← hs, ← hm] at ha hb
  have ha2 : a % m / sb < 2 := by
    rw [hs, hm, ← bit_top]
    exact Nat.mod_lt _ (by norm_num)
  have hb2 : b % m / sb < 2 := by
    rw [hs, hm, ← bit_top]
    exact Nat.mod_lt _ (by norm_num)
  generalize a % m / sb = qa at ha ha2 ⊢
  generalize b % m / sb = qb at hb hb2 ⊢
  cases hta : a.testBit k <;> cases htb : b.testBit k <;>
    simp only [hta, htb] at ha hb ⊢ <;> simp at ha hb ⊢ <;> omega

theorem toInt_setLow (w old new : Nat) : toInt w (setLow w old new) = toInt w new := by
  have h : setLow w old new % 2 ^ w = new % 2 ^ w := by
    unfold setLow
    rw [Nat.add_comm, Nat.add_mul_mod_self_right, Nat.mod_mod]
  unfold toInt
  rw [h]

theorem toInt_ofInt32 (P : Int) (h1 : -2147483648 ≤ P) (h2 : P < 2147483648) :
    toInt 32 (ofInt 32 P) = P := by
  simp only [toInt_eq_div 32 _ (by decide), ofInt, Nat.reducePow, Nat.reduceSub,
    Int.ofNat_eq_coe, Nat.cast_ofNat]
  omega

theorem toInt_ofInt64 (P : Int) (h1 : -9223372036854775808 ≤ P)
    (h2 : P < 9223372036854775808) : toInt 64 (ofInt 64 P) = P := by
  simp only [toInt_eq_div 64 _ (by decide), ofInt, Nat.reducePow, Nat.reduceSub,
    Int.ofNat_eq_coe, Nat.cast_ofNat]
  omega

theorem narrow_8_32 (r : Nat) (h1 : -128 ≤ toInt 32 r) (h2 : toInt 32 r < 128) :
    toInt 8 r = toInt 32 r := by
  simp only [toInt_eq_div 8 _ (by decide), toInt_eq_div 32 _ (by decide), Nat.reducePow,
    Nat.reduceSub, Nat.cast_ofNat] at h1 h2 ⊢
  omega

theorem narrow_16_32 (r : Nat) (h1 : -32768 ≤ toInt 32 r) (h2 : toInt 32 r < 32768) :
    toInt 16 r = toInt 32 r := by
  simp only [toInt_eq_div 16 _ (by decide), toInt_eq_div 32 _ (by decide), Nat.reducePow,
    Nat.reduceSub, Nat.cast_ofNat] at h1 h2 ⊢
  omega

theorem narrow_32_64 (r : Nat) (h1 : -2147483648 ≤ toInt 64 r) (h2 : toInt 64 r < 2147483648) :
    toInt 32 r = toInt 64 r := by
  simp only [toInt_eq_div 32 _ (by decide), toInt_eq_div 64 _ (by decide), Nat.reducePow,
    Nat.reduceSub, Nat.cast_ofNat] at h1 h2 ⊢
  omega

/-- The saturation step of `mul_ss` at width `k + 1`: `r` holds the exact product `P` in a
wider signed field, the test compares the narrow reading of `r` with `P`. -/
theorem mul_ss_core (k a b r : Nat) (P : Int) (hP : P = toInt (k + 1) a * toInt (k + 1) b)
    (hn : -(2 ^ k) ≤ P → P < 2 ^ k → toInt (k + 1) r = P) :
    toInt (k + 1) (if toInt (k + 1) r ≠ P then
        2 ^ k - 1 + (if a % 2 ^ (k + 1) / 2 ^ k ≠ b % 2 ^ (k + 1) / 2 ^ k then 1 else 0)
      else r) = max (-(2 ^ k)) (min P (2 ^ k - 1)) := by
  have hM : 2 ^ (k + 1) = 2 * 2 ^ k := by rw [pow_succ, Nat.mul_comm]
  have hp : 0 < 2 ^ k := Nat.pow_pos (by norm_num)
  obtain ⟨fa1, fa2⟩ := residue_facts k a
  obtain ⟨fb1, fb2⟩ := residue_facts k b
  obtain ⟨fr1, fr2⟩ := residue_facts k r
  simp only [int_two_pow] at hn ⊢
  simp only [apply_ite (toInt (k + 1)), toInt_sat, min_def, max_def]
  generalize toInt (k + 1) a = sa at fa2 hP
  generalize toInt (k + 1) b = sb at fb2 hP
  obtain ⟨h3, h4, h5, h6⟩ : (0 ≤ sa → 0 ≤ sb → 0 ≤ P) ∧ (sa < 0 → sb < 0 → 0 < P) ∧
      (0 ≤ sa → sb < 0 → P ≤ 0) ∧ (sa < 0 → 0 ≤ sb → P ≤ 0) := by
    subst hP
    exact ⟨fun h1 h2 => mul_nonneg h1 h2, fun h1 h2 => mul_pos_of_neg_of_neg h1 h2,
      fun h1 h2 => mul_nonpos_of_nonneg_of_nonpos h1 (le_of_lt h2),
      fun h1 h2 => mul_nonpos_of_nonpos_of_nonneg (le_of_lt h1) h2⟩
  clear hP
  generalize toInt (k + 1) r = sr at fr2 hn ⊢
  generalize a % 2 ^ (k + 1) = A at fa1 fa2 ⊢
  generalize b % 2 ^ (k + 1) = B at fb1 fb2 ⊢
  generalize r % 2 ^ (k + 1) = R at fr1 fr2 ⊢
  generalize A / 2 ^ k = qa at fa2 ⊢
  generalize B / 2 ^ k = qb at fb2 ⊢
  generalize R / 2 ^ k = qr at fr2 ⊢
  generalize 2 ^ (k + 1) = M at *
  generalize 2 ^ k = H at *
  split_ifs <;> omega

/-- The signed reading of the low bits of the result of `mul_ss` is the clamped product of the
signed operands. -/
theorem mul_ss_val (E : Env) (t : CThread) (result0 : Nat) (h2 : t.operandType ≤ 2) :
    toInt (dataSizeTableBits t.operandType) (mul_ss E t result0).1 =
      max (-(2 ^ (dataSizeTableBits t.operandType - 1)))
        (min (toInt (dataSizeTableBits t.operandType) (t.parm 1) *
            toInt (dataSizeTableBits t.operandType) (t.parm 2))
          (2 ^ (dataSizeTableBits t.operandType - 1) - 1)) ∧
    (mul_ss E t result0).2 = t := by
  simp only [mul_ss]
  generalize t.parm 1 = a
  generalize t.parm 2 = b
  generalize t.operandType = ot at h2 ⊢
  interval_cases ot
  · simp only [mulSigned, dataSizeMask, dataSizeTableBits, Nat.reduceShiftRight, Nat.reduceAdd,
      xor_sign_top a b 7 128 256 (by norm_num) (by norm_num), decide_eq_true_eq]
    refine ⟨?_, trivial⟩
    have ha := toInt_eq_div 8 a (by decide)
    have hb := toInt_eq_div 8 b (by decide)
    simp only [Nat.reducePow, Nat.reduceSub, Nat.cast_ofNat] at ha hb
    obtain ⟨h1, h2, -⟩ := int_mul_facts (toInt 8 a) (toInt 8 b) 128 (by omega) (by omega)
      (by omega) (by omega)
    have hcore := mul_ss_core 7 a b
    generalize hP : toInt 8 a * toInt 8 b = P at h1 h2 ⊢
    have hR : toInt 32 (setLow 32 result0 (ofInt 32 (wrapInt 32 P))) = P := by
      rw [toInt_setLow, wrapInt, toInt_ofInt32 P (by omega) (by omega),
        toInt_ofInt32 P (by omega) (by omega)]
    generalize setLow 32 result0 (ofInt 32 (wrapInt 32 P)) = r at hR ⊢
    have hfin := hcore r P hP.symm (fun h3 h4 => by
      rw [← hR] at h3 h4 ⊢
      exact narrow_8_32 r (by simpa using h3) (by simpa using h4))
    rw [hR]
    simpa only [Nat.reducePow, Int.reducePow, Nat.reduceSub, Nat.reduceAdd] using hfin
  · simp only [mulSigned, dataSizeMask, dataSizeTableBits, Nat.reduceShiftRight, Nat.reduceAdd,
      xor_sign_top a b 15 32768 65536 (by norm_num) (by norm_num), decide_eq_true_eq]
    refine ⟨?_, trivial⟩
    have ha := toInt_eq_div 16 a (by decide)
    have hb := toInt_eq_div 16 b (by decide)
    simp only [Nat.reducePow, Nat.reduceSub, Nat.cast_ofNat] at ha hb
    obtain ⟨h1, h2, -⟩ := int_mul_facts (toInt 16 a) (toInt 16 b) 32768 (by omega) (by omega)
      (by omega) (by omega)
    have hcore := mul_ss_core 15 a b
    generalize hP : toInt 16 a * toInt 16 b = P at h1 h2 ⊢
    have hR : toInt 32 (setLow 32 result0 (ofInt 32 (wrapInt 32 P))) = P := by
      rw [toInt_setLow, wrapInt, toInt_ofInt32 P (by omega) (by omega),
        toInt_ofInt32 P (by omega) (by omega)]
    generalize setLow 32 result0 (ofInt 32 (wrapInt 32 P)) = r at hR ⊢
    have hfin := hcore r P hP.symm (fun h3 h4 => by
      rw [← hR] at h3 h4 ⊢
      exact narrow_16_32 r (by simpa using h3) (by simpa using h4))
    rw [hR]
    simpa only [Nat.reducePow, Int.reducePow, Nat.reduceSub, Nat.reduceAdd] using hfin
  · simp only [mulSigned, dataSizeMask, dataSizeTableBits, Nat.reduceShiftRight, Nat.reduceAdd,
      xor_sign_top a b 31 2147483648 4294967296 (by norm_num) (by norm_num), decide_eq_true_eq]
    refine ⟨?_, trivial⟩
    have ha := toInt_eq_div 32 a (by decide)
    have hb := toInt_eq_div 32 b (by decide)
    simp only [Nat.reducePow, Nat.reduceSub, Nat.cast_ofNat] at ha hb
    obtain ⟨h1, h2, -⟩ := int_mul_facts (toInt 32 a) (toInt 32 b) 2147483648 (by omega) (by omega)
      (by omega) (by omega)
    have hcore := mul_ss_core 31 a b
    generalize hP : toInt 32 a * toInt 32 b = P at h1 h2 ⊢
    have hR : toInt 64 (ofInt 64 (wrapInt 64 P)) = P := by
      rw [wrapInt, toInt_ofInt64 P (by omega) (by omega),
        toInt_ofInt64 P (by omega) (by omega)]
    generalize ofInt 64 (wrapInt 64 P) = r at hR ⊢
    have hfin := hcore r P hP.symm (fun h3 h4 => by
      rw [← hR] at h3 h4 ⊢
      exact narrow_32_64 r (by simpa using h3) (by simpa using h4))
    rw [hR]
    simpa only [Nat.reducePow, Int.reducePow, Nat.reduceSub, Nat.reduceAdd] using hfin

/-- C18: for the operand types 0..2 of bit width `w` and all operands (`result0` is the
indeterminate initial content of the local `result`): the low `w` bits of `mul_ss`, read as
signed, are the exact product of the signed `w`-bit operand values clamped to
`[-2 ^ (w - 1), 2 ^ (w - 1) - 1]`; the low `w` bits of `mul_us` are `min (ua * ub) (2 ^ w - 1)`
for the unsigned `w`-bit operand values; neither raises an interrupt. -/
theorem mul_ss_mul_us_saturate (E : Env) (t : CThread) (result0 : Nat)
    (h2 : t.operandType ≤ 2) :
    toInt (dataSizeTableBits t.operandType) (mul_ss E t result0).1 =
      max (-(2 ^ (dataSizeTableBits t.operandType - 1)))
        (min (toInt (dataSizeTableBits t.operandType) (t.parm 1) *
            toInt (dataSizeTableBits t.operandType) (t.parm 2))
          (2 ^ (dataSizeTableBits t.operandType - 1) - 1)) ∧
    (mul_us E t result0).1 % 2 ^ dataSizeTableBits t.operandType =
      min ((t.parm 1 % 2 ^ dataSizeTableBits t.operandType) *
          (t.parm 2 % 2 ^ dataSizeTableBits t.operandType))
        (2 ^ dataSizeTableBits t.operandType - 1) ∧
    (mul_ss E t result0).2 = t ∧ (mul_us E t result0).2 = t :=
  ⟨(mul_ss_val E t result0 h2).1, (mul_us_val E t result0 h2).1, (mul_ss_val E t result0 h2).2,
    (mul_us_val E t result0 h2).2⟩

/-- C18 at a concrete input: at int8, 0x10 * 0x10 = 256 is stored as 0x7F by `mul_ss` and as
0xFF by `mul_us`. -/
theorem mul_ss_mul_us_saturate_witness :
    (scalarThread 0 0x10 0x10 0).operandType ≤ 2 ∧
    (mul_ss sampleEnv (scalarThread 0 0x10 0x10 0) 0).1 = 0x7F ∧
    (mul_us sampleEnv (scalarThread 0 0x10 0x10 0) 0).1 = 0xFF ∧
    toInt (dataSizeTableBits 0) (mul_ss sampleEnv (scalarThread 0 0x10 0x10 0) 0).1 =
      max (-(2 ^ (dataSizeTableBits 0 - 1)))
        (min (toInt (dataSizeTableBits 0) 0x10 * toInt (dataSizeTableBits 0) 0x10)
          (2 ^ (dataSizeTableBits 0 - 1) - 1)) :=
  ⟨by decide, by decide, by decide,
    (mul_ss_mul_us_saturate sampleEnv (scalarThread 0 0x10 0x10 0) 0 (by decide)).1⟩

/-! Vector length after compress -/

/-- C15 (counterexample): with `MaxVectorLength = 16` (a multiple of 16) and every vector length
at most 16 before the call, `compress` (op 4, int16) with `registers[rs] = 100` sets
`vectorLength[rd]` to 50, which exceeds `MaxVectorLength`; this holds for every parameter
record. -/
theorem compress_length_exceeds_max (E : Env) :
    16 ∣ (mkThread 16 1 4 2 3 1 100 0 [1, 2, 3, 4]).MaxVectorLength ∧
    (∀ r, (mkThread 16 1 4 2 3 1 100 0 [1, 2, 3, 4]).vectorLength r ≤
      (mkThread 16 1 4 2 3 1 100 0 [1, 2, 3, 4]).MaxVectorLength) ∧
    (compress E (mkThread 16 1 4 2 3 1 100 0 [1, 2, 3, 4])).2.vectorLength 2 = 50 ∧
    (compress E (mkThread 16 1 4 2 3 1 100 0 [1, 2, 3, 4])).2.MaxVectorLength = 16 ∧
    ¬ ((compress E (mkThread 16 1 4 2 3 1 100 0 [1, 2, 3, 4])).2.vectorLength 2 ≤
      (compress E (mkThread 16 1 4 2 3 1 100 0 [1, 2, 3, 4])).2.MaxVectorLength) := by
  have h50 : (compress E (mkThread 16 1 4 2 3 1 100 0 [1, 2, 3, 4])).2.vectorLength 2 = 50 := rfl
  have h16 : (compress E (mkThread 16 1 4 2 3 1 100 0 [1, 2, 3, 4])).2.MaxVectorLength = 16 := rfl
  refine ⟨by decide, ?_, h50, h16, ?_⟩
  · intro r
    show (if r = 1 then 4 else 0) ≤ 16
    split_ifs <;> omega
  · rw [h50, h16]
    decide

/-! Sparse compress -/

theorem dataSizeTable_cases (ot : Nat) (h : ot ≤ 6) :
    dataSizeTable ot = 1 ∨ dataSizeTable ot = 2 ∨ dataSizeTable ot = 4 ∨
      dataSizeTable ot = 8 ∨ dataSizeTable ot = 16 := by
  interval_cases ot <;> simp [dataSizeTable]

/-- The element copy of the sparse handlers moves `es` bytes from `S` to `D` when the source
does not start inside the destination element. -/
theorem sparseCopy_apply (es : Nat) (m : Nat → Byte) (D S x : Nat)
    (hes : es = 1 ∨ es = 2 ∨ es = 4 ∨ es = 8 ∨ es = 16) (hsep : D ≤ S ∨ S + es ≤ D) :
    sparseCopy es m D S x = if D ≤ x ∧ x < D + es then m (S + (x - D)) else m x := by
  rcases hes with rfl | rfl | rfl | rfl | rfl
  · simp only [sparseCopy, writeLE_apply]
    split_ifs with h
    · exact toByte_readLE_div m S 1 (x - D) (by omega)
    · rfl
  · simp only [sparseCopy, writeLE_apply]
    split_ifs with h
    · exact toByte_readLE_div m S 2 (x - D) (by omega)
    · rfl
  · simp only [sparseCopy, writeLE_apply]
    split_ifs with h
    · exact toByte_readLE_div m S 4 (x - D) (by omega)
    · rfl
  · simp only [sparseCopy, writeLE_apply]
    split_ifs with h
    · exact toByte_readLE_div m S 8 (x - D) (by omega)
    · rfl
  · simp only [sparseCopy]
    by_cases h2 : D + 8 ≤ x ∧ x < D + 8 + 8
    · have hc : D ≤ x ∧ x < D + 16 := by omega
      rw [writeLE_apply, if_pos h2, if_pos hc, toByte_readLE_div _ _ 8 _ (by omega),
        writeLE_apply]
      have hn : ¬ (D ≤ S + 8 + (x - (D + 8)) ∧ S + 8 + (x - (D + 8)) < D + 8) := by omega
      rw [if_neg hn]
      exact congrArg m (by omega)
    · rw [writeLE_apply, if_neg h2]
      by_cases h1 : D ≤ x ∧ x < D + 8
      · have hc : D ≤ x ∧ x < D + 16 := by omega
        rw [writeLE_apply, if_pos h1, if_pos hc, toByte_readLE_div _ _ 8 _ (by omega)]
      · have hc : ¬ (D ≤ x ∧ x < D + 16) := by omega
        rw [writeLE_apply, if_neg h1, if_neg hc]

theorem selectedBefore_succ (m : Nat → Byte) (masksrc es k : Nat) :
    selectedBefore m masksrc es (k + 1) = selectedBefore m masksrc es k +
      (if (m (masksrc + k * es)).val % 2 = 1 then 1 else 0) := rfl

theorem selectedBefore_mono (m : Nat → Byte) (masksrc es a b : Nat) (h : a ≤ b) :
    selectedBefore m masksrc es a ≤ selectedBefore m masksrc es b := by
  induction b with
  | zero =>
    have : a = 0 := by omega
    subst this
    exact le_refl _
  | succ n ih =>
    rcases Nat.lt_or_ge a (n + 1) with h1 | h1
    · have := ih (by omega)
      rw [selectedBefore_succ]
      omega
    · have : a = n + 1 := by omega
      subst this
      exact le_refl _

theorem selectedBefore_le (m : Nat → Byte) (masksrc es k : Nat) :
    selectedBefore m masksrc es k ≤ k := by
  induction k with
  | zero => exact le_refl _
  | succ n ih =>
    rw [selectedBefore_succ]
    split_ifs <;> omega

theorem selectedBefore_congr (m m' : Nat → Byte) (masksrc es c : Nat)
    (h : ∀ k, k < c → m (masksrc + k * es) = m' (masksrc + k * es)) :
    ∀ k, k ≤ c → selectedBefore m masksrc es k = selectedBefore m' masksrc es k := by
  intro k
  induction k with
  | zero => intro _; rfl
  | succ n ih =>
    intro hn
    rw [selectedBefore_succ, selectedBefore_succ, ih (by omega), h n (by omega)]

/-- The loop of `compress_sparse` over a scanned length `N`, with registers of `M` bytes: it
ends after `c` lanes, `c` the number of lanes at offsets below `N`; `pos2` is then the size of
the selected lanes, and every selected lane `k` of the source (as it is before the loop) is in
the destination at the offset given by the number of selected lanes before it. -/
theorem compressSparse_loop (mem0 : Nat → Byte) (es M rd rt rm N : Nat)
    (hes : es = 1 ∨ es = 2 ∨ es = 4 ∨ es = 8 ∨ es = 16) (hdiv : es ∣ M) (hN : N ≤ M) :
    ∃ c, N ≤ c * es ∧ c * es < N + es ∧
      (forLoop N es (compressSparseBody es (rm * M) (rt * M) (rd * M)) N 0 (mem0, 0)).2 =
        es * selectedBefore mem0 (rm * M) es c ∧
      ∀ k, k < c → (mem0 (rm * M + k * es)).val % 2 = 1 → ∀ j, j < es →
        (forLoop N es (compressSparseBody es (rm * M) (rt * M) (rd * M)) N 0 (mem0, 0)).1
            (rd * M + es * selectedBefore mem0 (rm * M) es k + j) =
          mem0 (rt * M + k * es + j) := by
  have hes0 : 0 < es := by omega
  have key := forLoop_invariant N es (compressSparseBody es (rm * M) (rt * M) (rd * M))
    (fun pos s => ∃ c, pos = c * es ∧ pos < N + es ∧
      s.2 = es * selectedBefore mem0 (rm * M) es c ∧
      (∀ x, (x < rd * M ∨ rd * M + s.2 ≤ x) → s.1 x = mem0 x) ∧
      ∀ k, k < c → (mem0 (rm * M + k * es)).val % 2 = 1 → ∀ j, j < es →
        s.1 (rd * M + es * selectedBefore mem0 (rm * M) es k + j) = mem0 (rt * M + k * es + j))
    hes0 ?_ N 0 (mem0, 0) (by omega)
    ⟨0, by simp, by omega, by simp [selectedBefore], fun _ _ => rfl,
      fun k hk => absurd hk (by omega)⟩
  · obtain ⟨P, hP, c, hPc, hPlt, h2, -, hcopy⟩ := key
    exact ⟨c, by omega, by omega, h2, hcopy⟩
  · rintro pos ⟨m, p2⟩ hpos ⟨c, hc, -, h2, hframe, hcopy⟩
    simp only at h2 hframe hcopy
    have hcnt := selectedBefore_le mem0 (rm * M) es c
    have hp2 : p2 ≤ pos := by
      rw [h2, hc, Nat.mul_comm c es]
      exact Nat.mul_le_mul_left es hcnt
    have hposM : pos + es ≤ M :=
      dvd_lt_add_le (hc ▸ Dvd.intro_left c rfl) hdiv (by omega)
    have hmask : m (rm * M + pos) = mem0 (rm * M + c * es) := by
      rw [← hc]
      apply hframe
      by_cases hr : rm = rd
      · subst hr
        right
        omega
      · rcases reg_sep M hr with h | h
        · left
          omega
        · right
          omega
    have hsucc : (c + 1) * es = pos + es := by rw [Nat.succ_mul, hc]
    by_cases hb : (mem0 (rm * M + c * es)).val % 2 = 1
    · have hcond : (m (rm * M + pos)).val &&& 1 ≠ 0 := by
        rw [hmask, Nat.and_one_is_mod]
        omega
      have hsep : rd * M + p2 ≤ rt * M + pos ∨ rt * M + pos + es ≤ rd * M + p2 := by
        by_cases hr : rd = rt
        · subst hr
          left
          omega
        · rcases reg_sep M hr with h | h
          · left
            omega
          · right
            omega
      have hsrc : ∀ j, j < es → m (rt * M + pos + j) = mem0 (rt * M + c * es + j) := by
        intro j hj
        rw [← hc]
        apply hframe
        by_cases hr : rt = rd
        · subst hr
          right
          omega
        · rcases reg_sep M hr with h | h
          · left
            omega
          · right
            omega
      simp only [compressSparseBody, if_pos hcond]
      refine ⟨c + 1, hsucc.symm, by omega, ?_, ?_, ?_⟩
      · rw [selectedBefore_succ, if_pos hb, Nat.mul_add, Nat.mul_one, h2]
      · intro x hx
        rw [sparseCopy_apply es m _ _ x hes hsep, if_neg (by omega)]
        exact hframe x (by omega)
      · intro k hk hbk j hj
        rw [sparseCopy_apply es m _ _ _ hes hsep]
        rcases Nat.lt_or_ge k c with hkc | hkc
        · have h1 := selectedBefore_mono mem0 (rm * M) es (k + 1) c (by omega)
          rw [selectedBefore_succ, if_pos hbk] at h1
          have h3 : es * (selectedBefore mem0 (rm * M) es k + 1) ≤
              es * selectedBefore mem0 (rm * M) es c := Nat.mul_le_mul_left es h1
          rw [Nat.mul_add, Nat.mul_one, ← h2] at h3
          rw [if_neg (by omega)]
          exact hcopy k hkc hbk j hj
        · have hkc2 : k = c := by omega
          subst hkc2
          rw [← h2, if_pos (by omega)]
          rw [show rt * M + pos + (rd * M + p2 + j - (rd * M + p2)) = rt * M + pos + j by omega]
          exact hsrc j hj
    · have hcond : ¬ (m (rm * M + pos)).val &&& 1 ≠ 0 := by
        rw [hmask, Nat.and_one_is_mod]
        omega
      simp only [compressSparseBody, if_neg hcond]
      refine ⟨c + 1, hsucc.symm, by omega, ?_, hframe, ?_⟩
      · rw [selectedBefore_succ, if_neg hb, Nat.add_zero, h2]
      · intro k hk hbk j hj
        have hkc : k < c := by
          rcases Nat.lt_or_ge k c with h | h
          · exact h
          · have : k = c := by omega
            subst this
            exact absurd hbk hb
        exact hcopy k hkc hbk j hj

theorem compressSparseLength_eq (t : CThread)
    (hrm : t.vectorLength (t.operands 1) ≤ t.MaxVectorLength) :
    compressSparseLength t = min (t.registers (t.operands 4)) (t.vectorLength (t.operands 1)) := by
  simp only [compressSparseLength, Nat.min_def]
  split_ifs <;> omega

theorem zeroFill_byte (m : Nat → Byte) (src L N x : Nat) :
    zeroFill m src L N (src + x) = if L ≤ x ∧ x < N then 0 else m (src + x) := by
  unfold zeroFill
  by_cases h : N > L
  · rw [if_pos h, memset_apply, toByte_zero]
    by_cases hc : L ≤ x ∧ x < N
    · rw [if_pos hc, if_pos (by omega)]
    · rw [if_neg hc, if_neg (by omega)]
  · rw [if_neg h, if_neg (by omega)]

/-- C14: for every operand type 0..6 with element size `es`, with `MaxVectorLength` a multiple of
`es` and below 2 ^ 32 and the mask register RM within `MaxVectorLength`, and `N` the smaller of
`registers[rs]` and the length of RM (the lanes at offsets below `registers[rs]` that lie in the
mask): after `compress_sparse`, `vectorLength[rd]` is `es` times the number of lanes at offsets
below `N` whose mask lane has bit 0 set, and every such lane `k` of RT (its bytes from
`vectorLength[rt]` up to `N` read as zero) is in RD at the offset `es` times the number of
selected lanes before it, so RD is the concatenation of the selected lanes in increasing
order. The registers RD, RT and RM may coincide. -/
theorem compress_sparse_packs_selected_lanes (t : CThread) (hot : t.operandType ≤ 6)
    (hdiv : dataSizeTable t.operandType ∣ t.MaxVectorLength) (hM : t.MaxVectorLength < 2 ^ 32)
    (hrm : t.vectorLength (t.operands 1) ≤ t.MaxVectorLength) :
    (compress_sparse t).2.vectorLength (t.operands 0) =
      dataSizeTable t.operandType *
        selectedBefore t.vectors (t.operands 1 * t.MaxVectorLength) (dataSizeTable t.operandType)
          ((min (t.registers (t.operands 4)) (t.vectorLength (t.operands 1)) +
            dataSizeTable t.operandType - 1) / dataSizeTable t.operandType) ∧
    ∀ k, k * dataSizeTable t.operandType <
        min (t.registers (t.operands 4)) (t.vectorLength (t.operands 1)) →
      (t.vectors (t.operands 1 * t.MaxVectorLength + k * dataSizeTable t.operandType)).val % 2
        = 1 →
      ∀ j, j < dataSizeTable t.operandType →
        (compress_sparse t).2.vectors (t.operands 0 * t.MaxVectorLength +
            dataSizeTable t.operandType *
              selectedBefore t.vectors (t.operands 1 * t.MaxVectorLength)
                (dataSizeTable t.operandType) k + j) =
          if t.vectorLength (t.operands 5) ≤ k * dataSizeTable t.operandType + j ∧
              k * dataSizeTable t.operandType + j <
                min (t.registers (t.operands 4)) (t.vectorLength (t.operands 1)) then 0
          else t.vectors (t.operands 5 * t.MaxVectorLength +
            (k * dataSizeTable t.operandType + j)) := by
  have hes := dataSizeTable_cases t.operandType hot
  have hNeq := compressSparseLength_eq t hrm
  generalize hN : min (t.registers (t.operands 4)) (t.vectorLength (t.operands 1)) = N
    at hNeq ⊢
  have hNL : N ≤ t.vectorLength (t.operands 1) := by
    rw [← hN]
    exact Nat.min_le_right _ _
  have hNM : N ≤ t.MaxVectorLength := le_trans hNL hrm
  generalize hesd : dataSizeTable t.operandType = es at hes hdiv ⊢
  have hes0 : 0 < es := by omega
  obtain ⟨c, hc1, hc2, hlen, hcopy⟩ := compressSparse_loop
    (zeroFill t.vectors (t.operands 5 * t.MaxVectorLength) (t.vectorLength (t.operands 5)) N)
    es t.MaxVectorLength (t.operands 0) (t.operands 5) (t.operands 1) N hes hdiv hNM
  have hfin : compressSparseFinal t =
      forLoop N es (compressSparseBody es (t.operands 1 * t.MaxVectorLength)
        (t.operands 5 * t.MaxVectorLength) (t.operands 0 * t.MaxVectorLength)) N 0
        (zeroFill t.vectors (t.operands 5 * t.MaxVectorLength) (t.vectorLength (t.operands 5)) N,
          0) := by
    simp only [compressSparseFinal, hNeq, hesd]
  have hlt : ∀ k, k < c → k * es < N := by
    intro k hk
    have : (k + 1) * es ≤ c * es := Nat.mul_le_mul_right es hk
    rw [Nat.succ_mul] at this
    omega
  have hmask : ∀ k, k < c →
      zeroFill t.vectors (t.operands 5 * t.MaxVectorLength) (t.vectorLength (t.operands 5)) N
          (t.operands 1 * t.MaxVectorLength + k * es) =
        t.vectors (t.operands 1 * t.MaxVectorLength + k * es) := by
    intro k hk
    have hk2 := hlt k hk
    unfold zeroFill
    by_cases hf : N > t.vectorLength (t.operands 5)
    · rw [if_pos hf, memset_apply]
      by_cases hr : t.operands 1 = t.operands 5
      · rw [hr] at hNL
        omega
      · rw [if_neg]
        rcases reg_sep t.MaxVectorLength hr with h | h <;> omega
    · rw [if_neg hf]
  have hsel := selectedBefore_congr _ t.vectors (t.operands 1 * t.MaxVectorLength) es c hmask
  have hcdiv : (N + es - 1) / es = c :=
    Nat.div_eq_of_lt_le (by omega) (by rw [Nat.succ_mul]; omega)
  have hcM : c * es ≤ t.MaxVectorLength := by
    by_contra hcon
    have := dvd_lt_add_le hdiv (Dvd.intro_left c rfl) (Nat.lt_of_not_le hcon)
    omega
  refine ⟨?_, ?_⟩
  · have hcnt := selectedBefore_le t.vectors (t.operands 1 * t.MaxVectorLength) es c
    have hle : es * selectedBefore t.vectors (t.operands 1 * t.MaxVectorLength) es c ≤ c * es := by
      rw [Nat.mul_comm c es]
      exact Nat.mul_le_mul_left es hcnt
    simp only [compress_sparse, if_true, hfin, hlen, hsel c (le_refl c), hcdiv]
    exact Nat.mod_eq_of_lt (by omega)
  · intro k hk hbit j hj
    have hkc : k < c := by
      by_contra hcon
      have : c * es ≤ k * es := Nat.mul_le_mul_right es (by omega)
      omega
    have h1 := hcopy k hkc (by rw [hmask k hkc]; exact hbit) j hj
    rw [hsel k (le_of_lt hkc)] at h1
    simp only [compress_sparse, hfin]
    rw [h1, Nat.add_assoc, zeroFill_byte]

set_option maxRecDepth 100000 in
/-- C14 at a concrete input: at int8 with RT = RM holding the bytes 1, 2, 3, 4 and
`registers[rs] = 4`, the lanes 0 and 2 are selected; RD gets the length 2 and the bytes 1, 3. -/
theorem compress_sparse_packs_selected_lanes_witness :
    sparseThread.operandType ≤ 6 ∧
    (compress_sparse sparseThread).2.vectorLength 2 = 2 ∧
    (compress_sparse sparseThread).2.vectors (2 * 64 + 0) = 1 ∧
    (compress_sparse sparseThread).2.vectors (2 * 64 + 1) = 3 :=
  ⟨by decide,
    (compress_sparse_packs_selected_lanes sparseThread (by decide) (by decide) (by decide)
      (by decide)).1.trans (by decide),
    ((compress_sparse_packs_selected_lanes sparseThread (by decide) (by decide) (by decide)
      (by decide)).2 0 (by decide) (by decide) 0 (by decide)).trans (by decide),
    ((compress_sparse_packs_selected_lanes sparseThread (by decide) (by decide) (by decide)
      (by decide)).2 2 (by decide) (by decide) 0 (by decide)).trans (by decide)⟩

/-! Division with overflow check -/

/-- C21 (counterexample): at int8 with the divisor 0 and no incoming flags, `div_oc` assigns
only the 32-bit member `result.i = 0x80` of the uninitialised local `result` and returns the
64-bit member: the returned value keeps the upper half `result0` had, so it is 0x100000080,
not the sign bit 0x80, when that half holds 1. The flags are 3 and no interrupt is raised. -/
theorem div_oc_zero_divisor_returns_indeterminate_upper_half (result0 : Nat) :
    (scalarThread 0 1 0 0).operandType ≤ 3 ∧
    (scalarThread 0 1 0 0).parm 2 % 2 ^ 8 = 0 ∧
    (div_oc (scalarThread 0 1 0 0) result0).1 = result0 / 2 ^ 32 * 2 ^ 32 + 0x80 ∧
    (div_oc (scalarThread 0 1 0 0) (2 ^ 32)).1 = 0x100000080 ∧
    (div_oc (scalarThread 0 1 0 0) (2 ^ 32)).1 ≠ 2 ^ (8 - 1) ∧
    (div_oc (scalarThread 0 1 0 0) result0).2.parm 5 = 3 ∧
    (div_oc (scalarThread 0 1 0 0) result0).2.interrupts = [] := by
  have hc : carryIn (scalarThread 0 1 0 0) = 0 := by decide
  have h1 : (div_oc (scalarThread 0 1 0 0) result0).1 = setLow 32 result0 0x80 := rfl
  have h5 : (div_oc (scalarThread 0 1 0 0) result0).2.parm 5 =
      (carryIn (scalarThread 0 1 0 0) ||| 3) &&& 3 := rfl
  refine ⟨by decide, by decide, ?_, by decide, by decide, ?_, rfl⟩
  · rw [h1]
    rfl
  · rw [h5, hc]
    rfl

/-! Division of a double-size dividend -/

set_option maxRecDepth 100000 in
/-- C22 (counterexample): signed `div_ex` (op 24) at int8 with the mask bit for signed overflow
set. For the dividend 200 (high lane 0x00, low lane 0xC8) and the divisor 1 the quotient 200
is outside [-128, 127], yet the handler returns 0xC8 and raises nothing. For the dividend -128
(high lane 0xFF, low lane 0x80) and the divisor 1 the quotient -128 is inside the range, yet
the handler takes the overflow outcome and raises `INT_OVERFL_SIGN`. -/
theorem div_ex_signed_overflow_test_wrong :
    toInt 16 (0x00 * 256 + 0xC8) = 200 ∧ toInt 8 1 = 1 ∧
    Int.tdiv 200 1 = 200 ∧ ¬ ((200 : Int) ≤ 2 ^ (8 - 1) - 1) ∧
    (div_ex sampleEnv (divExThread 0 24 0xC8 1 sampleEnv.MSK_OVERFL_SIGN [0xC8, 0x00])).1
      = 0xC8 ∧
    (div_ex sampleEnv (divExThread 0 24 0xC8 1 sampleEnv.MSK_OVERFL_SIGN [0xC8, 0x00])).1
      ≠ 2 ^ (8 - 1) ∧
    (div_ex sampleEnv
      (divExThread 0 24 0xC8 1 sampleEnv.MSK_OVERFL_SIGN [0xC8, 0x00])).2.interrupts = [] ∧
    toInt 16 (0xFF * 256 + 0x80) = -128 ∧
    Int.tdiv (-128) 1 = -128 ∧ (-(2 ^ (8 - 1)) : Int) ≤ -128 ∧ (-128 : Int) ≤ 2 ^ (8 - 1) - 1 ∧
    (div_ex sampleEnv (divExThread 0 24 0x80 1 sampleEnv.MSK_OVERFL_SIGN [0x80, 0xFF])).1
      = 2 ^ (8 - 1) ∧
    (div_ex sampleEnv
      (divExThread 0 24 0x80 1 sampleEnv.MSK_OVERFL_SIGN [0x80, 0xFF])).2.parm 5 = 0 ∧
    (div_ex sampleEnv
      (divExThread 0 24 0x80 1 sampleEnv.MSK_OVERFL_SIGN [0x80, 0xFF])).2.interrupts
      = [Interrupt.INT_OVERFL_SIGN] := by
  decide

/-! Square root -/

/-- C24 (counterexample): at int16 the input 256 is non-negative and its square root is 16,
but `sqrt_` takes the root of the signed 8-bit view of the operand, which is 0, and returns
0, for every parameter record. -/
theorem sqrt_int16_takes_root_of_low_byte (E : Env) :
    (scalarThread 1 0 256 0).operandType ≤ 3 ∧
    0 ≤ toInt 16 ((scalarThread 1 0 256 0).parm 2) ∧
    Nat.sqrt ((scalarThread 1 0 256 0).parm 2) = 16 ∧
    toInt 8 ((scalarThread 1 0 256 0).parm 2) = 0 ∧
    (sqrt_ E (scalarThread 1 0 256 0)).1 = 0 ∧
    (sqrt_ E (scalarThread 1 0 256 0)).1 ≠ 16 ∧
    (sqrt_ E (scalarThread 1 0 256 0)).2.interrupts = [] := by
  have h : (sqrt_ E (scalarThread 1 0 256 0)).1 = 0 := rfl
  refine ⟨by decide, by decide, Nat.sqrt_eq 16, by decide, h, ?_, rfl⟩
  rw [h]
  decide

/-! Shift and add -/

set_option maxRecDepth 100000 in
/-- C30 (counterexample): at int8 with the overflow checks and the signed check enabled in
`numContr`, a = 0, b = 0x40 and the shift count 1: the shifted value 64 * 2 = 128 is outside
[-128, 127], so the shift loses bits at the operand width (and 0 + 128 does not fit either),
yet `shifti_add` raises no interrupt and returns 0x80. -/
theorem shifti_add_misses_shift_overflow_below_64_bits :
    (shiftiThread 0 0x40 1).operandType ≤ 3 ∧
    (shiftiThread 0 0x40 1).numContr &&& sampleEnv.MSK_OVERFL_I ≠ 0 ∧
    (shiftiThread 0 0x40 1).numContr &&& sampleEnv.MSK_OVERFL_SIGN ≠ 0 ∧
    toInt 8 ((shiftiThread 0 0x40 1).parm 1) * 2 ^ ((shiftiThread 0 0x40 1).parm 2) = 128 ∧
    ¬ ((128 : Int) ≤ 2 ^ (8 - 1) - 1) ∧
    (shifti_add sampleEnv (shiftiThread 0 0x40 1)).1 = 0x80 ∧
    (shifti_add sampleEnv (shiftiThread 0 0x40 1)).2.interrupts = [] := by
  decide

/-! Replacement of a bit field -/

/-- The start position and the bit count that `replace_bits` takes from the 32-bit view of the
immediate are its bits 16..23 and 24..31. -/
theorem replace_bits_fields (b : Nat) :
    ((b % 2 ^ 32) >>> 16) % 256 = b / 2 ^ 16 % 256 ∧
    ((b % 2 ^ 32) >>> 24) % 256 = b / 2 ^ 24 % 256 := by
  simp only [Nat.shiftRight_eq_div_pow, Nat.reducePow]
  omega

/-- C28: for every `a` and every immediate, with `start` its bits 16..23 and `count` its bits
24..31: `replace_bits` raises `INT_INST_ILLEGAL` (and nothing else) if `count > 32` or
`start + count > 64`, the sum taken over the natural numbers, and raises nothing otherwise. -/
theorem replace_bits_illegal_iff (E : Env) (t : CThread) :
    (replace_bits E t).2.interrupts =
      if t.parm 2 / 2 ^ 24 % 256 > 32 ∨
          t.parm 2 / 2 ^ 16 % 256 + t.parm 2 / 2 ^ 24 % 256 > 64 then
        t.interrupts ++ [Interrupt.INT_INST_ILLEGAL]
      else t.interrupts := by
  obtain ⟨h1, h2⟩ := replace_bits_fields (t.parm 2)
  simp only [replace_bits, h1, h2]
  split_ifs <;> rfl

theorem sub64_one (x : Nat) (h1 : 0 < x) (h2 : x < 2 ^ 64) : sub64 x 1 = x - 1 := by
  simp only [sub64, Nat.reducePow] at h2 ⊢
  omega

/-- The shift `x << n` of `shl64` bit by bit, for a count below 64. -/
theorem testBit_shl64 (E : Env) (x n i : Nat) (hn : n < 64) :
    (shl64 E x n).testBit i = (decide (i < 64) && (decide (n ≤ i) && x.testBit (i - n))) := by
  simp only [shl64, if_pos hn, Nat.testBit_mod_two_pow, Nat.testBit_shiftLeft, ge_iff_le]

/-- C27: for every `a` and every immediate, with `value` its bits 0..15, `start` its bits
16..23 and `count` its bits 24..31, `count ≤ 32` and `start + count ≤ 64` (for `start = 64`,
where the code shifts zero by 64 bits, that shift is taken to give zero): every bit `i < 64`
of the result of `replace_bits` outside the window `[start, start + count)` is bit `i` of `a`,
every bit inside the window is bit `i - start` of the 16-bit value (zero from bit 16 of the
value on), and no interrupt is raised. -/
theorem replace_bits_window (E : Env) (t : CThread)
    (hcount : t.parm 2 / 2 ^ 24 % 256 ≤ 32)
    (hsum : t.parm 2 / 2 ^ 16 % 256 + t.parm 2 / 2 ^ 24 % 256 ≤ 64)
    (h64 : t.parm 2 / 2 ^ 16 % 256 < 64 ∨ E.shlOver 0 64 = 0) :
    (∀ i, i < 64 →
      ((replace_bits E t).1).testBit i =
        if t.parm 2 / 2 ^ 16 % 256 ≤ i ∧
            i < t.parm 2 / 2 ^ 16 % 256 + t.parm 2 / 2 ^ 24 % 256 then
          (t.parm 2 % 2 ^ 16).testBit (i - t.parm 2 / 2 ^ 16 % 256)
        else (t.parm 1).testBit i) ∧
    (∀ j, 16 ≤ j → (t.parm 2 % 2 ^ 16).testBit j = false) ∧
    (replace_bits E t).2 = t := by
  obtain ⟨h1, h2⟩ := replace_bits_fields (t.parm 2)
  refine ⟨?_, ?_, ?_⟩
  · intro i hi
    simp only [replace_bits, h1, h2]
    generalize t.parm 2 / 2 ^ 16 % 256 = pos at hsum h64 ⊢
    generalize t.parm 2 / 2 ^ 24 % 256 = num at hcount hsum ⊢
    generalize t.parm 2 % 2 ^ 16 = val
    generalize t.parm 1 = a
    have hp : (2 : Nat) ^ num < 2 ^ 64 := Nat.pow_lt_pow_right (by norm_num) (by omega)
    have hone : shl64 E 1 num = 2 ^ num := by
      simp only [shl64, if_pos (show num < 64 by omega), Nat.one_shiftLeft,
        Nat.mod_eq_of_lt hp]
    rw [hone, sub64_one _ (Nat.pow_pos (by norm_num)) hp]
    rcases Nat.lt_or_ge pos 64 with hpos | hpos
    · rw [Nat.testBit_or, Nat.testBit_and, testBit_not64 _ _ hi, testBit_shl64 E _ _ _ hpos,
        testBit_shl64 E _ _ _ hpos, Nat.testBit_and, Nat.testBit_two_pow_sub_one]
      by_cases hw : pos ≤ i ∧ i < pos + num
      · have e1 : decide (i < 64) = true := by simpa using hi
        have e2 : decide (pos ≤ i) = true := by simpa using hw.1
        have e3 : decide (i - pos < num) = true := by
          simp only [decide_eq_true_eq]
          omega
        rw [if_pos hw, e1, e2, e3]
        simp
      · rw [if_neg hw]
        by_cases hpi : pos ≤ i
        · have e3 : decide (i - pos < num) = false := by
            simp only [decide_eq_false_iff_not]
            omega
          rw [e3]
          simp
        · have e2 : decide (pos ≤ i) = false := by simpa using hpi
          rw [e2]
          simp
    · have hpos64 : pos = 64 := by omega
      have hnum : num = 0 := by omega
      have hE : E.shlOver 0 64 = 0 := by
        rcases h64 with h | h
        · omega
        · exact h
      subst hpos64 hnum
      have hz : shl64 E 0 64 = 0 := by
        simp only [shl64, if_neg (show ¬ (64 < 64) by omega), hE]
      have hm : val &&& (2 ^ 0 - 1) = 0 := by simp
      rw [show (2 : Nat) ^ 0 - 1 = 0 from rfl] at hm ⊢
      rw [hm, hz, if_neg (by omega), Nat.testBit_or, Nat.testBit_and, testBit_not64 _ _ hi]
      simp
  · intro j hj
    rw [Nat.testBit_mod_two_pow]
    have : decide (j < 16) = false := by
      simp only [decide_eq_false_iff_not]
      omega
    rw [this]
    rfl
  · have hc : ¬ (t.parm 2 / 2 ^ 24 % 256 > 32 ∨
        t.parm 2 / 2 ^ 16 % 256 + t.parm 2 / 2 ^ 24 % 256 > 64) := by omega
    simp only [replace_bits, h1, h2, if_neg hc]

set_option maxRecDepth 100000 in
/-- C27 at a concrete input: the value 0xA5 put into the bits 8..15 of the all-ones word. -/
theorem replace_bits_window_witness :
    (replace_bits sampleEnv (scalarThread 3 0xFFFFFFFFFFFFFFFF 0x080800A5 0)).1
      = 0xFFFFFFFFFFFFA5FF ∧
    ((replace_bits sampleEnv (scalarThread 3 0xFFFFFFFFFFFFFFFF 0x080800A5 0)).1).testBit 9
      = false ∧
    ((replace_bits sampleEnv (scalarThread 3 0xFFFFFFFFFFFFFFFF 0x080800A5 0)).1).testBit 16
      = true ∧
    (replace_bits sampleEnv (scalarThread 3 0xFFFFFFFFFFFFFFFF 0x080800A5 0)).2
      = scalarThread 3 0xFFFFFFFFFFFFFFFF 0x080800A5 0 :=
  ⟨by decide,
    ((replace_bits_window sampleEnv (scalarThread 3 0xFFFFFFFFFFFFFFFF 0x080800A5 0)
      (by decide) (by decide) (Or.inl (by decide))).1 9 (by decide)).trans (by decide),
    ((replace_bits_window sampleEnv (scalarThread 3 0xFFFFFFFFFFFFFFFF 0x080800A5 0)
      (by decide) (by decide) (Or.inl (by decide))).1 16 (by decide)).trans (by decide),
    (replace_bits_window sampleEnv (scalarThread 3 0xFFFFFFFFFFFFFFFF 0x080800A5 0)
      (by decide) (by decide) (Or.inl (by decide))).2.2⟩

/-! Absolute value -/

set_option maxRecDepth 100000 in
/-- C29 (counterexample): at int8 with a = 0x80, the minimum signed value, and the immediate 8
(bits 0..1 are 0, the wrap policy, and bit 2 is clear): `abs_64` raises `INT_INST_ILLEGAL` and
returns the 64-bit negation of `a`, not `a`. -/
theorem abs_64_immediate_bit_3_illegal :
    (scalarThread 0 0x80 8 0).operandType ≤ 3 ∧
    (scalarThread 0 0x80 8 0).parm 1 % 2 ^ 8 = 2 ^ (8 - 1) ∧
    (scalarThread 0 0x80 8 0).parm 2 % 4 = 0 ∧
    (scalarThread 0 0x80 8 0).parm 2 / 4 % 2 = 0 ∧
    (abs_64 (scalarThread 0 0x80 8 0)).2.interrupts = [Interrupt.INT_INST_ILLEGAL] ∧
    (abs_64 (scalarThread 0 0x80 8 0)).1 = 0xFFFFFFFFFFFFFF80 ∧
    (abs_64 (scalarThread 0 0x80 8 0)).1 ≠ (scalarThread 0 0x80 8 0).parm 1 := by
  decide

set_option maxRecDepth 1000000 in
/-- Clearing bit 2 of a byte leaves its bits 0..1 and 3..7. -/
theorem and_not_four (imm : Nat) (h : imm < 256) :
    imm &&& 0xFFFFFFFB = imm / 8 * 8 + imm % 4 :=
  (by decide : ∀ x, x < 256 → x &&& 0xFFFFFFFB = x / 8 * 8 + x % 4) imm h

/-- C29 (amended): for the operand types 0..3 of bit width `w`, `a` the minimum signed value
(low `w` bits equal to `2 ^ (w - 1)`) and the immediate byte `imm`: when the bits 3..7 of `imm`
are zero, `abs_64` returns `a` for bits 0..1 equal to 0, `2 ^ (w - 1) - 1` for 1 and 0 for 2,
and raises `INT_OVERFL_SIGN` if bit 2 of `imm` is set and nothing else; when a bit 3..7 of
`imm` is set or bits 0..1 are 3, it raises `INT_INST_ILLEGAL` (after `INT_OVERFL_SIGN` if bit 2
is set) and returns the 64-bit negation of `a`. -/
theorem abs_64_min_signed_policies (t : CThread) (h3 : t.operandType ≤ 3)
    (hmin : t.parm 1 % 2 ^ dataSizeTableBits t.operandType =
      2 ^ (dataSizeTableBits t.operandType - 1)) :
    (t.parm 2 % 256 / 8 = 0 → t.parm 2 % 256 % 4 = 0 → (abs_64 t).1 = t.parm 1) ∧
    (t.parm 2 % 256 / 8 = 0 → t.parm 2 % 256 % 4 = 1 →
      (abs_64 t).1 = 2 ^ (dataSizeTableBits t.operandType - 1) - 1) ∧
    (t.parm 2 % 256 / 8 = 0 → t.parm 2 % 256 % 4 = 2 → (abs_64 t).1 = 0) ∧
    (t.parm 2 % 256 / 8 = 0 → t.parm 2 % 256 % 4 ≠ 3 →
      (abs_64 t).2.interrupts = t.interrupts ++
        (if t.parm 2 % 256 / 4 % 2 = 1 then [Interrupt.INT_OVERFL_SIGN] else [])) ∧
    (t.parm 2 % 256 / 8 ≠ 0 ∨ t.parm 2 % 256 % 4 = 3 →
      (abs_64 t).2.interrupts = t.interrupts ++
        (if t.parm 2 % 256 / 4 % 2 = 1 then [Interrupt.INT_OVERFL_SIGN] else []) ++
        [Interrupt.INT_INST_ILLEGAL] ∧
      (abs_64 t).1 = neg64 (t.parm 1)) := by
  obtain ⟨k, hk, hw, hmask, hsh, hsb⟩ := width_glue t.operandType h3
  rw [hw, Nat.add_sub_cancel] at hmin
  have hcond : t.parm 1 &&& dataSizeMask t.operandType =
      (dataSizeMask t.operandType >>> 1) + 1 := by
    rw [hsb, hmask, Nat.and_pow_two_sub_one_eq_mod, hmin]
  have hsel := and_not_four (t.parm 2 % 256) (Nat.mod_lt _ (by norm_num))
  have hb4 := and_pow_ne_zero (t.parm 2 % 256) 2 4 rfl
  have hneg : absRest (t.parm 1) ((dataSizeMask t.operandType >>> 1) + 1) =
      neg64 (t.parm 1) := by
    have hbit : t.parm 1 &&& ((dataSizeMask t.operandType >>> 1) + 1) ≠ 0 := by
      rw [and_pow_ne_zero _ k _ hsb, bit_top, hmin]
      exact Nat.div_self (Nat.pow_pos (by norm_num))
    simp only [absRest, if_pos hbit]
  simp only [Nat.reducePow] at hb4
  simp only [abs_64, if_pos hcond, hneg]
  simp only [hsel, hb4, hw, Nat.add_sub_cancel, hsh]
  clear hsel hb4 hcond hneg
  generalize t.parm 2 % 256 = imm
  refine ⟨?_, ?_, ?_, ?_, ?_⟩
  · intro h8 h4
    have h0 : imm / 8 * 8 + imm % 4 = 0 := by omega
    simp only [h0, if_true]
  · intro h8 h4
    have h0 : imm / 8 * 8 + imm % 4 = 1 := by omega
    simp only [h0, if_true, one_ne_zero, if_false]
  · intro h8 h4
    have h0 : imm / 8 * 8 + imm % 4 = 2 := by omega
    simp only [h0, if_true, OfNat.ofNat_ne_zero, OfNat.ofNat_ne_one, if_false]
  · intro h8 h4
    have h012 : imm / 8 * 8 + imm % 4 = 0 ∨ imm / 8 * 8 + imm % 4 = 1 ∨
        imm / 8 * 8 + imm % 4 = 2 := by omega
    rcases h012 with h | h | h <;> simp only [h] <;> split_ifs <;>
      simp [CThread.interrupt]
  · intro h
    rw [if_neg (by omega), if_neg (by omega), if_neg (by omega)]
    refine ⟨?_, rfl⟩
    split_ifs <;> simp [CThread.interrupt]

set_option maxRecDepth 100000 in
/-- C29 (amended) at a concrete input: at int8, a = 0x80 with the immediate 5 (saturate, with
interrupt) gives 0x7F and `INT_OVERFL_SIGN`. -/
theorem abs_64_min_signed_policies_witness :
    (scalarThread 0 0x80 5 0).operandType ≤ 3 ∧
    (abs_64 (scalarThread 0 0x80 5 0)).1 = 0x7F ∧
    (abs_64 (scalarThread 0 0x80 5 0)).2.interrupts = [Interrupt.INT_OVERFL_SIGN] :=
  ⟨by decide,
    ((abs_64_min_signed_policies (scalarThread 0 0x80 5 0) (by decide) (by decide)).2.1
      (by decide) (by decide)).trans (by decide),
    ((abs_64_min_signed_policies (scalarThread 0 0x80 5 0) (by decide) (by decide)).2.2.2.1
      (by decide) (by decide)).trans (by decide)⟩

/-! Unsigned division of a double-size dividend -/

theorem or_shift (lo hi w : Nat) (h : lo < 2 ^ w) : lo ||| (hi <<< w) = hi * 2 ^ w + lo := by
  rw [Nat.shiftLeft_eq, Nat.or_comm, Nat.mul_comm hi, Nat.mul_add_lt_is_or h]

/-- Quotient and remainder of a two-lane dividend whose high lane is below the divisor fit one
lane. -/
theorem div_two_lanes (lo hi b m : Nat) (hlo : lo < m) (hhi : hi < b) (hb : b < m) :
    (hi * m + lo) / b < m ∧ (hi * m + lo) % b < m ∧ hi * m + lo < m * m := by
  have h1 : (hi + 1) * m ≤ b * m := Nat.mul_le_mul_right m hhi
  have h2 : b * m ≤ m * m := Nat.mul_le_mul_right m (le_of_lt hb)
  have h3 : hi * m + lo < b * m := by
    rw [Nat.succ_mul] at h1
    omega
  refine ⟨?_, ?_, by omega⟩
  · rw [Nat.div_lt_iff_lt_mul (by omega)]
    rw [Nat.mul_comm m b]
    exact h3
  · exact lt_trans (Nat.mod_lt _ (by omega)) hb

theorem setLow_zero (w x : Nat) : setLow w 0 x = x % 2 ^ w := by
  simp [setLow]

theorem setLow_mod (w old new : Nat) : setLow w old new % 2 ^ w = new % 2 ^ w := by
  unfold setLow
  rw [Nat.add_comm, Nat.add_mul_mod_self_right, Nat.mod_mod]

/-- The cases 0 and 1 of the switch of `div_ex`: lanes of `s` bits joined in a field of `W`
bits, `2 * s ≤ W ≤ 32`. -/
theorem divExCore_narrow (W s lo hi b : Nat) (hs : 2 * s ≤ W) (hW : W ≤ 32)
    (hlo : lo < 2 ^ s) (hhi : hi < b) (hb : b < 2 ^ s) :
    setLow W 0 ((setLow W lo ((lo % 2 ^ W) ||| ((hi % 2 ^ W) <<< s) % 2 ^ 32) % 2 ^ W) /
        (b % 2 ^ W)) = (hi * 2 ^ s + lo) / b ∧
    setLow W 0 ((setLow W lo ((lo % 2 ^ W) ||| ((hi % 2 ^ W) <<< s) % 2 ^ 32) % 2 ^ W) %
        (b % 2 ^ W)) = (hi * 2 ^ s + lo) % b := by
  obtain ⟨hq, hr, hD⟩ := div_two_lanes lo hi b _ hlo hhi hb
  have hsW : 2 ^ s ≤ 2 ^ W := Nat.pow_le_pow_right (by norm_num) (by omega)
  have hssW : 2 ^ s * 2 ^ s ≤ 2 ^ W := by
    rw [← pow_add]
    exact Nat.pow_le_pow_right (by norm_num) (by omega)
  have hW32 : 2 ^ W ≤ 2 ^ 32 := Nat.pow_le_pow_right (by norm_num) hW
  have e1 : lo % 2 ^ W = lo := Nat.mod_eq_of_lt (by omega)
  have e2 : hi % 2 ^ W = hi := Nat.mod_eq_of_lt (by omega)
  have e3 : b % 2 ^ W = b := Nat.mod_eq_of_lt (by omega)
  have e4 : (hi <<< s) % 2 ^ 32 = hi <<< s := by
    rw [Nat.shiftLeft_eq]
    apply Nat.mod_eq_of_lt
    have : hi * 2 ^ s < 2 ^ s * 2 ^ s := Nat.mul_lt_mul_of_pos_right (by omega) (by omega)
    omega
  have e5 : setLow W lo (hi * 2 ^ s + lo) % 2 ^ W = hi * 2 ^ s + lo := by
    rw [setLow_mod]
    exact Nat.mod_eq_of_lt (by omega)
  rw [e1, e2, e3, e4, or_shift lo hi s hlo, e5, setLow_zero, setLow_zero]
  exact ⟨Nat.mod_eq_of_lt (by omega), Nat.mod_eq_of_lt (by omega)⟩

/-- The division of `div_ex` on masked operands: with the high lane below the divisor, the
switch gives quotient and remainder of the two-lane dividend. -/
theorem divExCore_val (ot lo hi b : Nat) (h2 : ot ≤ 2)
    (hlo : lo < 2 ^ dataSizeTableBits ot) (hhi : hi < b) (hb : b < 2 ^ dataSizeTableBits ot) :
    divExCore ot lo hi b =
      some ((hi * 2 ^ dataSizeTableBits ot + lo) / b, (hi * 2 ^ dataSizeTableBits ot + lo) % b) := by
  interval_cases ot
  · obtain ⟨h1, h2⟩ := divExCore_narrow 16 8 lo hi b (by norm_num) (by norm_num) hlo hhi hb
    simp only [divExCore, dataSizeTableBits]
    rw [h1, h2]
  · obtain ⟨h1, h2⟩ := divExCore_narrow 32 16 lo hi b (by norm_num) (by norm_num) hlo hhi hb
    simp only [divExCore, dataSizeTableBits]
    rw [h1, h2]
  · simp only [dataSizeTableBits] at hlo hb ⊢
    obtain ⟨hq, hr, hD⟩ := div_two_lanes lo hi b _ hlo hhi hb
    have h64 : (2 : Nat) ^ 32 * 2 ^ 32 = 2 ^ 64 := by norm_num
    have e4 : (hi <<< 32) % 2 ^ 64 = hi <<< 32 := by
      rw [Nat.shiftLeft_eq]
      apply Nat.mod_eq_of_lt
      have : hi * 2 ^ 32 < 2 ^ 32 * 2 ^ 32 := Nat.mul_lt_mul_of_pos_right (by omega) (by norm_num)
      omega
    have e5 : (hi * 2 ^ 32 + lo) % 2 ^ 64 = hi * 2 ^ 32 + lo := Nat.mod_eq_of_lt (by omega)
    have hp : (2 : Nat) ^ 32 < 2 ^ 64 := by norm_num
    simp only [divExCore]
    rw [e4, or_shift lo hi 32 hlo, e5, Nat.mod_eq_of_lt (lt_trans hq hp),
      Nat.mod_eq_of_lt (lt_trans hr hp)]

/-- C23: unsigned `div_ex` (op 25) at the operand types 0..2 of bit width `w`, with the low
lane `aLo`, the high lane `aHi` (read from the odd lane of RS) and the divisor `b` taken as
unsigned `w`-bit values and `D = aHi * 2 ^ w + aLo`: if `b ≠ 0` and `aHi < b` the handler
returns `D / b`, stores `D % b` in `parm[5]` and raises nothing; otherwise it returns
`2 ^ w - 1`, stores 0 in `parm[5]` and raises `INT_OVERFL_UNSIGN` exactly when the mask
`parm[3]` has `MSK_OVERFL_UNSIGN` set. -/
theorem div_ex_unsigned (E : Env) (t : CThread) (h2 : t.operandType ≤ 2) (hop : t.op = 25) :
    ((t.parm 2 % 2 ^ dataSizeTableBits t.operandType ≠ 0 ∧
        readVectorElement t (t.operands 4) (t.vectorOffset + dataSizeTable t.operandType) %
          2 ^ dataSizeTableBits t.operandType < t.parm 2 % 2 ^ dataSizeTableBits t.operandType) →
      (div_ex E t).1 =
        (readVectorElement t (t.operands 4) (t.vectorOffset + dataSizeTable t.operandType) %
            2 ^ dataSizeTableBits t.operandType * 2 ^ dataSizeTableBits t.operandType +
          t.parm 1 % 2 ^ dataSizeTableBits t.operandType) /
          (t.parm 2 % 2 ^ dataSizeTableBits t.operandType) ∧
      (div_ex E t).2.parm 5 =
        (readVectorElement t (t.operands 4) (t.vectorOffset + dataSizeTable t.operandType) %
            2 ^ dataSizeTableBits t.operandType * 2 ^ dataSizeTableBits t.operandType +
          t.parm 1 % 2 ^ dataSizeTableBits t.operandType) %
          (t.parm 2 % 2 ^ dataSizeTableBits t.operandType) ∧
      (div_ex E t).2.interrupts = t.interrupts) ∧
    (¬ (t.parm 2 % 2 ^ dataSizeTableBits t.operandType ≠ 0 ∧
        readVectorElement t (t.operands 4) (t.vectorOffset + dataSizeTable t.operandType) %
          2 ^ dataSizeTableBits t.operandType < t.parm 2 % 2 ^ dataSizeTableBits t.operandType) →
      (div_ex E t).1 = 2 ^ dataSizeTableBits t.operandType - 1 ∧
      (div_ex E t).2.parm 5 = 0 ∧
      (div_ex E t).2.interrupts =
        if (t.parm 3 % 2 ^ 32) &&& E.MSK_OVERFL_UNSIGN ≠ 0 then
          t.interrupts ++ [Interrupt.INT_OVERFL_UNSIGN]
        else t.interrupts) := by
  have hu : (t.op &&& 1 ≠ 0) := by
    rw [hop]
    decide
  have h3 : t.operandType ≤ 3 := by omega
  have hm := dataSizeMask_eq t.operandType h3
  have hpos : 0 < 2 ^ dataSizeTableBits t.operandType := Nat.pow_pos (by norm_num)
  simp only [div_ex, hu, ne_eq, not_false_eq_true, decide_True, Bool.not_true, Bool.false_and,
    Bool.false_eq_true, if_false, not_true_eq_false, decide_False, Bool.or_false,
    and_dataSizeMask _ _ h3]
  generalize readVectorElement t (t.operands 4) (t.vectorOffset + dataSizeTable t.operandType) %
    2 ^ dataSizeTableBits t.operandType = hi
  have hlo : t.parm 1 % 2 ^ dataSizeTableBits t.operandType < 2 ^ dataSizeTableBits t.operandType :=
    Nat.mod_lt _ hpos
  have hb : t.parm 2 % 2 ^ dataSizeTableBits t.operandType < 2 ^ dataSizeTableBits t.operandType :=
    Nat.mod_lt _ hpos
  generalize t.parm 1 % 2 ^ dataSizeTableBits t.operandType = lo at hlo ⊢
  generalize t.parm 2 % 2 ^ dataSizeTableBits t.operandType = b at hb ⊢
  refine ⟨?_, ?_⟩
  · rintro ⟨hb0, hhi⟩
    have hcore := divExCore_val t.operandType lo hi b h2 hlo hhi hb
    have hov : (decide (hi ≥ b) || decide (b = 0)) = false := by
      simp only [Bool.or_eq_false_iff, decide_eq_false_iff_not]
      omega
    simp [hov, hcore]
  · intro hn
    have hov : (decide (hi ≥ b) || decide (b = 0)) = true := by
      simp only [Bool.or_eq_true, decide_eq_true_eq]
      omega
    simp only [hov, hm]
    simp
    split_ifs <;> simp [CThread.interrupt]

set_option maxRecDepth 100000 in
/-- C23 at a concrete input: at int8 the dividend 0x1234 (high lane 0x12, low lane 0x34)
divided by 0x20 gives the quotient 145 and the remainder 20. -/
theorem div_ex_unsigned_witness :
    (divExThread 0 25 0x34 0x20 0 [0x34, 0x12]).operandType ≤ 2 ∧
    (div_ex sampleEnv (divExThread 0 25 0x34 0x20 0 [0x34, 0x12])).1 = 145 ∧
    (div_ex sampleEnv (divExThread 0 25 0x34 0x20 0 [0x34, 0x12])).2.parm 5 = 20 ∧
    (div_ex sampleEnv (divExThread 0 25 0x34 0x20 0 [0x34, 0x12])).2.interrupts = [] :=
  ⟨by decide,
    ((div_ex_unsigned sampleEnv (divExThread 0 25 0x34 0x20 0 [0x34, 0x12]) (by decide)
      (by decide)).1 ⟨by decide, by decide⟩).1.trans (by decide),
    ((div_ex_unsigned sampleEnv (divExThread 0 25 0x34 0x20 0 [0x34, 0x12]) (by decide)
      (by decide)).1 ⟨by decide, by decide⟩).2.1.trans (by decide),
    ((div_ex_unsigned sampleEnv (divExThread 0 25 0x34 0x20 0 [0x34, 0x12]) (by decide)
      (by decide)).1 ⟨by decide, by decide⟩).2.2⟩

/-! Reduction of a boolean vector -/

/-- The scanned length of `bool_reduce` and the start value of `bitAND`, for an element size
`2 ^ d`: with `R` the requested length, limited to the register size and rounded down to whole
elements, the scan covers `min R L` bytes and `bitAND` starts as 1 exactly when `R ≤ L`. -/
theorem boolReduceLength_eq (t : CThread) (d : Nat) (hd : dataSizeTableLog t.operandType = d) :
    boolReduceLength t =
      (min (min (t.registers (t.operands 4)) t.MaxVectorLength / 2 ^ d * 2 ^ d)
          (t.vectorLength (t.operands 5)),
        if min (t.registers (t.operands 4)) t.MaxVectorLength / 2 ^ d * 2 ^ d ≤
            t.vectorLength (t.operands 5) then 1 else 0) := by
  have hmin : (if t.registers (t.operands 4) > t.MaxVectorLength then t.MaxVectorLength
      else t.registers (t.operands 4)) = min (t.registers (t.operands 4)) t.MaxVectorLength := by
    rw [Nat.min_def]
    split_ifs <;> omega
  simp only [boolReduceLength, hd, hmin, Nat.shiftLeft_eq, Nat.shiftRight_eq_div_pow]
  generalize min (t.registers (t.operands 4)) t.MaxVectorLength / 2 ^ d * 2 ^ d = R
  rw [Nat.min_def]
  split_ifs <;> first | rfl | (exfalso; omega)

/-- The lane loop of the integer cases of `bool_reduce` over `len` bytes: both accumulators
stay bits; `bitOR` ends as 1 exactly when some scanned lane has bit 0 set, `bitAND` exactly when
it started as 1 and every scanned lane has bit 0 set. -/
theorem boolReduce_loop (m : Nat → Byte) (src es len and0 : Nat) (hes : 0 < es)
    (hand : and0 < 2) :
    (forLoop len es (boolReduceBody m src) len 0 (0, and0)).1 < 2 ∧
    (forLoop len es (boolReduceBody m src) len 0 (0, and0)).2 < 2 ∧
    ((forLoop len es (boolReduceBody m src) len 0 (0, and0)).1 = 1 ↔
      ∃ k, k * es < len ∧ (m (src + k * es)).val % 2 = 1) ∧
    ((forLoop len es (boolReduceBody m src) len 0 (0, and0)).2 = 1 ↔
      and0 = 1 ∧ ∀ k, k * es < len → (m (src + k * es)).val % 2 = 1) := by
  have key := forLoop_invariant len es (boolReduceBody m src)
    (fun pos s => ∃ c, pos = c * es ∧ pos < len + es ∧ s.1 < 2 ∧ s.2 < 2 ∧
      (s.1 = 1 ↔ ∃ k, k < c ∧ (m (src + k * es)).val % 2 = 1) ∧
      (s.2 = 1 ↔ and0 = 1 ∧ ∀ k, k < c → (m (src + k * es)).val % 2 = 1))
    hes ?_ len 0 (0, and0) (by omega)
    ⟨0, by simp, by omega, by norm_num, hand,
      ⟨fun h => absurd h (by norm_num), fun ⟨k, hk, _⟩ => absurd hk (by omega)⟩,
      ⟨fun h => ⟨h, fun k hk => absurd hk (by omega)⟩, fun h => h.1⟩⟩
  · obtain ⟨P, hP, c, hPc, hPlt, h1, h2, hor, hand'⟩ := key
    have hiff : ∀ k, k < c ↔ k * es < len := by
      intro k
      constructor
      · intro hk
        have : (k + 1) * es ≤ c * es := Nat.mul_le_mul_right es hk
        rw [Nat.succ_mul] at this
        omega
      · intro hk
        by_contra hcon
        have : c * es ≤ k * es := Nat.mul_le_mul_right es (by omega)
        omega
    refine ⟨h1, h2, ?_, ?_⟩
    · rw [hor]
      exact ⟨fun ⟨k, hk, hb⟩ => ⟨k, (hiff k).1 hk, hb⟩, fun ⟨k, hk, hb⟩ => ⟨k, (hiff k).2 hk, hb⟩⟩
    · rw [hand']
      exact ⟨fun ⟨h0, h⟩ => ⟨h0, fun k hk => h k ((hiff k).2 hk)⟩,
        fun ⟨h0, h⟩ => ⟨h0, fun k hk => h k ((hiff k).1 hk)⟩⟩
  · rintro pos ⟨o, a⟩ hpos ⟨c, hc, -, ho, ha, hor, hand'⟩
    simp only at ho ha hor hand'
    have hbit : (m (src + pos)).val &&& 1 = (m (src + c * es)).val % 2 := by
      rw [Nat.and_one_is_mod, hc]
    have hb2 : (m (src + c * es)).val % 2 < 2 := Nat.mod_lt _ (by norm_num)
    have ex : (∃ k, k < c + 1 ∧ (m (src + k * es)).val % 2 = 1) ↔
        (∃ k, k < c ∧ (m (src + k * es)).val % 2 = 1) ∨ (m (src + c * es)).val % 2 = 1 := by
      constructor
      · rintro ⟨k, hk, hb⟩
        rcases Nat.lt_or_ge k c with h | h
        · exact Or.inl ⟨k, h, hb⟩
        · have : k = c := by omega
          subst this
          exact Or.inr hb
      · rintro (⟨k, hk, hb⟩ | hb)
        · exact ⟨k, by omega, hb⟩
        · exact ⟨c, by omega, hb⟩
    have al : (∀ k, k < c + 1 → (m (src + k * es)).val % 2 = 1) ↔
        (∀ k, k < c → (m (src + k * es)).val % 2 = 1) ∧ (m (src + c * es)).val % 2 = 1 := by
      constructor
      · intro h
        exact ⟨fun k hk => h k (by omega), h c (by omega)⟩
      · rintro ⟨h, hb⟩ k hk
        rcases Nat.lt_or_ge k c with h' | h'
        · exact h k h'
        · have : k = c := by omega
          subst this
          exact hb
    simp only [boolReduceBody, hbit]
    refine ⟨c + 1, by rw [Nat.succ_mul, hc], by omega, ?_⟩
    have hand2 : (and0 = 1 ∧ (∀ k, k < c → (m (src + k * es)).val % 2 = 1) ∧
        (m (src + c * es)).val % 2 = 1) ↔ (a = 1 ∧ (m (src + c * es)).val % 2 = 1) := by
      rw [hand', and_assoc]
    rw [ex, al, ← hor, hand2]
    have ho' : o = 0 ∨ o = 1 := by omega
    have ha' : a = 0 ∨ a = 1 := by omega
    have hb' : (m (src + c * es)).val % 2 = 0 ∨ (m (src + c * es)).val % 2 = 1 := by omega
    rcases ho' with rfl | rfl <;> rcases ha' with rfl | rfl <;> rcases hb' with h | h <;>
      simp [h]

theorem readLE_writeLE (m : Nat → Byte) (a n v : Nat) (hv : v < 256 ^ n) :
    readLE (writeLE m a n v) a n = v := by
  rw [readLE_of_bytes _ a n v (fun j hj => by
    rw [writeLE_apply, if_pos (by omega), Nat.add_sub_cancel_left]), Nat.mod_eq_of_lt hv]

/-- C25: for the integer operand types 0..4 with element size `es`, `R` the smaller of
`registers[rs]` and `MaxVectorLength` rounded down to a multiple of `es` and `L` the length of
RT: the value returned by `bool_reduce` is below 4; its bit 1 is set exactly when some lane of RT
at an offset `k * es` below `min R L` has bit 0 set; its bit 0 is set exactly when `R ≤ L` and
every one of those lanes has bit 0 set; the value is written as 64 bits to RD, whose length
becomes 8, and no interrupt is raised. -/
theorem bool_reduce_integer (t : CThread) (h4 : t.operandType ≤ 4) :
    (bool_reduce t).1 < 4 ∧
    (((bool_reduce t).1).testBit 1 = true ↔
      ∃ k, k * dataSizeTable t.operandType <
          min (min (t.registers (t.operands 4)) t.MaxVectorLength /
            dataSizeTable t.operandType * dataSizeTable t.operandType)
            (t.vectorLength (t.operands 5)) ∧
        (t.vectors (t.operands 5 * t.MaxVectorLength +
          k * dataSizeTable t.operandType)).val % 2 = 1) ∧
    (((bool_reduce t).1).testBit 0 = true ↔
      min (t.registers (t.operands 4)) t.MaxVectorLength /
          dataSizeTable t.operandType * dataSizeTable t.operandType ≤
        t.vectorLength (t.operands 5) ∧
      ∀ k, k * dataSizeTable t.operandType <
          min (min (t.registers (t.operands 4)) t.MaxVectorLength /
            dataSizeTable t.operandType * dataSizeTable t.operandType)
            (t.vectorLength (t.operands 5)) →
        (t.vectors (t.operands 5 * t.MaxVectorLength +
          k * dataSizeTable t.operandType)).val % 2 = 1) ∧
    (bool_reduce t).2.vectorLength (t.operands 0) = 8 ∧
    readLE (bool_reduce t).2.vectors (t.operands 0 * t.MaxVectorLength) 8 = (bool_reduce t).1 ∧
    (bool_reduce t).2.interrupts = t.interrupts := by
  have hd := dataSizeTableLog_eq t.operandType h4
  have hes := dataSizeTable_eq t.operandType h4
  have hlen := boolReduceLength_eq t t.operandType hd
  have hpos : 0 < 2 ^ t.operandType := Nat.pow_pos (by norm_num)
  have hres : boolReduceResult t = some
      ((forLoop (boolReduceLength t).1 (2 ^ t.operandType)
          (boolReduceBody t.vectors (t.operands 5 * t.MaxVectorLength))
          (boolReduceLength t).1 0 (0, (boolReduceLength t).2)).2 |||
        (forLoop (boolReduceLength t).1 (2 ^ t.operandType)
          (boolReduceBody t.vectors (t.operands 5 * t.MaxVectorLength))
          (boolReduceLength t).1 0 (0, (boolReduceLength t).2)).1 <<< 1) := by
    simp only [boolReduceResult, if_pos h4, hes]
  have hand0 : (boolReduceLength t).2 < 2 := by
    rw [hlen]
    simp only
    split_ifs <;> omega
  obtain ⟨ho, ha, hor, hand⟩ := boolReduce_loop t.vectors (t.operands 5 * t.MaxVectorLength)
    (2 ^ t.operandType) (boolReduceLength t).1 (boolReduceLength t).2 hpos hand0
  have hv : (bool_reduce t).1 =
      (forLoop (boolReduceLength t).1 (2 ^ t.operandType)
          (boolReduceBody t.vectors (t.operands 5 * t.MaxVectorLength))
          (boolReduceLength t).1 0 (0, (boolReduceLength t).2)).2 |||
        (forLoop (boolReduceLength t).1 (2 ^ t.operandType)
          (boolReduceBody t.vectors (t.operands 5 * t.MaxVectorLength))
          (boolReduceLength t).1 0 (0, (boolReduceLength t).2)).1 <<< 1 := by
    simp only [bool_reduce, hres, Option.getD_some]
  have hvec : (bool_reduce t).2.vectors =
      writeLE t.vectors (t.operands 0 * t.MaxVectorLength) 8 (bool_reduce t).1 := by
    simp only [bool_reduce]
  have hint : (bool_reduce t).2.interrupts = t.interrupts := by
    simp only [bool_reduce, hres, Option.isSome_some, if_true]
  have hvl : (bool_reduce t).2.vectorLength (t.operands 0) = 8 := by
    simp only [bool_reduce, if_true]
  rw [hes]
  generalize (forLoop (boolReduceLength t).1 (2 ^ t.operandType)
    (boolReduceBody t.vectors (t.operands 5 * t.MaxVectorLength))
    (boolReduceLength t).1 0 (0, (boolReduceLength t).2)) = s at ho ha hor hand hv
  obtain ⟨o, a⟩ := s
  rw [hlen] at hor hand
  simp only at ho ha hor hand hv
  have hone : ((if min (t.registers (t.operands 4)) t.MaxVectorLength / 2 ^ t.operandType *
      2 ^ t.operandType ≤ t.vectorLength (t.operands 5) then 1 else 0) = 1) ↔
      min (t.registers (t.operands 4)) t.MaxVectorLength / 2 ^ t.operandType *
        2 ^ t.operandType ≤ t.vectorLength (t.operands 5) := by
    split_ifs with h <;> simp [h]
  rw [hone] at hand
  have hlt : (bool_reduce t).1 < 4 := by
    rw [hv]
    have ho' : o = 0 ∨ o = 1 := by omega
    have ha' : a = 0 ∨ a = 1 := by omega
    rcases ho' with rfl | rfl <;> rcases ha' with rfl | rfl <;> decide
  refine ⟨hlt, ?_, ?_, hvl, ?_, hint⟩
  · rw [← hor, hv]
    have ho' : o = 0 ∨ o = 1 := by omega
    have ha' : a = 0 ∨ a = 1 := by omega
    rcases ho' with rfl | rfl <;> rcases ha' with rfl | rfl <;> decide
  · rw [← hand, hv]
    have ho' : o = 0 ∨ o = 1 := by omega
    have ha' : a = 0 ∨ a = 1 := by omega
    rcases ho' with rfl | rfl <;> rcases ha' with rfl | rfl <;> decide
  · rw [hvec]
    exact readLE_writeLE _ _ 8 _ (lt_trans hlt (by norm_num))

set_option maxRecDepth 100000 in
/-- C25 at concrete inputs: at int8 the lanes 1, 3, 5, 7 all have bit 0 set and the requested
length 4 is the length of RT, so both bits are set. -/
theorem bool_reduce_integer_witness :
    (mkThread 64 0 0 2 3 1 4 0 [1, 3, 5, 7]).operandType ≤ 4 ∧
    (bool_reduce (mkThread 64 0 0 2 3 1 4 0 [1, 3, 5, 7])).1 = 3 ∧
    (bool_reduce (mkThread 64 0 0 2 3 1 4 0 [1, 3, 5, 7])).1 < 4 ∧
    (bool_reduce (mkThread 64 0 0 2 3 1 4 0 [1, 3, 5, 7])).2.vectorLength
      ((mkThread 64 0 0 2 3 1 4 0 [1, 3, 5, 7]).operands 0) = 8 :=
  ⟨by decide, by decide,
    (bool_reduce_integer (mkThread 64 0 0 2 3 1 4 0 [1, 3, 5, 7]) (by decide)).1,
    (bool_reduce_integer (mkThread 64 0 0 2 3 1 4 0 [1, 3, 5, 7]) (by decide)).2.2.2.1⟩

/-! Classification of a floating point vector -/

/-- The category that the single precision loop of `bool_reduce` computes is the category of
the IEEE fields of the pattern. -/
theorem categoryFloat_eq (v : Nat) (hv : v < 2 ^ 32) : categoryFloat v = ieeeCategory 8 23 v := by
  have h2 : v * 512 % 4294967296 = 0 ↔ v % 8388608 = 0 := by omega
  have h3 : ¬ v / 2147483648 = 0 ↔ v / 2147483648 % 2 = 1 := by omega
  simp only [categoryFloat, ieeeCategory, Nat.shiftRight_eq_div_pow, Nat.shiftLeft_eq,
    and_mask8, Nat.mod_mod, ne_eq, Nat.reduceSub, Nat.reduceAdd, Nat.reducePow]
  simp only [h2, h3]

theorem and_mask11 (x : Nat) : x &&& 0x7FF = x % 2 ^ 11 := Nat.and_pow_two_sub_one_eq_mod x 11

/-- The category that the double precision loop of `bool_reduce` computes is the category of
the IEEE fields of the pattern. -/
theorem categoryDouble_eq (v : Nat) (hv : v < 2 ^ 64) :
    categoryDouble v = ieeeCategory 11 52 v := by
  have h1 : v / 4503599627370496 % 2048 % 4294967296 = v / 4503599627370496 % 2048 := by omega
  have h2 : v * 4096 % 18446744073709551616 = 0 ↔ v % 4503599627370496 = 0 := by omega
  have h3 : ¬ v / 9223372036854775808 = 0 ↔ v / 9223372036854775808 % 2 = 1 := by omega
  simp only [categoryDouble, ieeeCategory, Nat.shiftRight_eq_div_pow, Nat.shiftLeft_eq,
    and_mask11, ne_eq, Nat.reduceSub, Nat.reduceAdd, Nat.reducePow]
  simp only [h1, h2, h3]

/-- Every pattern has exactly one category: the category is one of the eight one-bit codes. -/
theorem ieeeCategory_one_hot (e m v : Nat) : ∃ i, i < 8 ∧ ieeeCategory e m v = 2 ^ i := by
  simp only [ieeeCategory]
  split_ifs
  · exact ⟨0, by norm_num, rfl⟩
  · exact ⟨6, by norm_num, rfl⟩
  · exact ⟨7, by norm_num, rfl⟩
  · exact ⟨1, by norm_num, rfl⟩
  · exact ⟨2, by norm_num, rfl⟩
  · exact ⟨3, by norm_num, rfl⟩
  · exact ⟨4, by norm_num, rfl⟩
  · exact ⟨5, by norm_num, rfl⟩

theorem orCategories_congr (cat cat2 : Nat → Nat) (m : Nat → Byte) (src es : Nat)
    (h : ∀ a, cat (readLE m a es) = cat2 (readLE m a es)) (c : Nat) :
    orCategories cat m src es c = orCategories cat2 m src es c := by
  induction c with
  | zero => rfl
  | succ n ih => simp only [orCategories, ih, h]

/-- The lane loop of the floating point cases of `bool_reduce` over `len` bytes gives the OR of
the categories of the lanes at offsets below `len`. -/
theorem category_loop (cat : Nat → Nat) (m : Nat → Byte) (src es len : Nat) (hes : 0 < es) :
    forLoop len es (fun pos result => result ||| cat (readLE m (src + pos) es)) len 0 0 =
      orCategories cat m src es ((len + es - 1) / es) := by
  have key := forLoop_invariant len es
    (fun pos result => result ||| cat (readLE m (src + pos) es))
    (fun pos s => ∃ c, pos = c * es ∧ pos < len + es ∧ s = orCategories cat m src es c)
    hes ?_ len 0 0 (by omega) ⟨0, by simp, by omega, rfl⟩
  · obtain ⟨P, hP, c, hPc, hPlt, hs⟩ := key
    rw [hs]
    have hc : (len + es - 1) / es = c :=
      Nat.div_eq_of_lt_le (by omega) (by rw [Nat.succ_mul]; omega)
    rw [hc]
  · rintro pos s hpos ⟨c, hc, -, hs⟩
    refine ⟨c + 1, by rw [Nat.succ_mul, hc], by omega, ?_⟩
    simp only [orCategories, hs, hc]

/-- C26: for the operand types 5 (single precision) and 6 (double precision) with element size
`es`, the value returned by `bool_reduce` is the bitwise OR, over the lanes of RT at offsets
below the scanned length (`registers[rs]`, limited to `MaxVectorLength`, rounded down to a
multiple of `es`, limited to the length of RT), of the category of the lane's IEEE bit pattern;
every pattern has exactly one of the eight one-bit categories, and no interrupt is raised. -/
theorem category_reduce_or_of_categories (t : CThread)
    (hot : t.operandType = 5 ∨ t.operandType = 6) :
    (bool_reduce t).1 =
      orCategories (ieeeCategory (floatExpBits t.operandType) (floatManBits t.operandType))
        t.vectors (t.operands 5 * t.MaxVectorLength) (dataSizeTable t.operandType)
        ((min (min (t.registers (t.operands 4)) t.MaxVectorLength /
              dataSizeTable t.operandType * dataSizeTable t.operandType)
            (t.vectorLength (t.operands 5)) + dataSizeTable t.operandType - 1) /
          dataSizeTable t.operandType) ∧
    (∀ v, ∃ i, i < 8 ∧
      ieeeCategory (floatExpBits t.operandType) (floatManBits t.operandType) v = 2 ^ i) ∧
    (bool_reduce t).2.interrupts = t.interrupts := by
  refine ⟨?_, fun v => ieeeCategory_one_hot _ _ v, ?_⟩
  · rcases hot with h | h
    · have hlen := boolReduceLength_eq t 2 (by rw [h]; rfl)
      have hres : boolReduceResult t = some (forLoop (boolReduceLength t).1 4
          (fun pos result => result |||
            categoryFloat (readLE t.vectors (t.operands 5 * t.MaxVectorLength + pos) 4))
          (boolReduceLength t).1 0 0) := by
        simp only [boolReduceResult, h, dataSizeTable, Nat.reduceLeDiff, if_false, if_true]
      simp only [bool_reduce, hres, Option.getD_some, h, floatExpBits, floatManBits,
        dataSizeTable, if_true]
      rw [category_loop categoryFloat _ _ 4 _ (by norm_num), hlen]
      exact orCategories_congr _ _ _ _ _
        (fun a => categoryFloat_eq _ (lt_of_lt_of_le (readLE_lt _ a 4) (by norm_num))) _
    · have hlen := boolReduceLength_eq t 3 (by rw [h]; rfl)
      have hres : boolReduceResult t = some (forLoop (boolReduceLength t).1 8
          (fun pos result => result |||
            categoryDouble (readLE t.vectors (t.operands 5 * t.MaxVectorLength + pos) 8))
          (boolReduceLength t).1 0 0) := by
        simp only [boolReduceResult, h, dataSizeTable, Nat.reduceLeDiff, Nat.reduceEqDiff,
          if_false, if_true]
      simp only [bool_reduce, hres, Option.getD_some, h, floatExpBits, floatManBits,
        dataSizeTable, Nat.reduceEqDiff, if_false]
      rw [category_loop categoryDouble _ _ 8 _ (by norm_num), hlen]
      exact orCategories_congr _ _ _ _ _
        (fun a => categoryDouble_eq _ (lt_of_lt_of_le (readLE_lt _ a 8) (by norm_num))) _
  · have hsome : (boolReduceResult t).isSome = true := by
      rcases hot with h | h <;>
        simp only [boolReduceResult, h, Nat.reduceLeDiff, Nat.reduceEqDiff, if_false, if_true,
          Option.isSome_some]
    simp only [bool_reduce, hsome, if_true]

set_option maxRecDepth 1000000 in
/-- C26 at the concrete input of the specification: the single precision lanes NaN, +0.0,
-infinity and 1.5 give 0x01 | 0x02 | 0x40 | 0x20 = 0x63. -/
theorem category_reduce_or_of_categories_witness :
    (bool_reduce (mkThread 64 5 0 2 3 1 16 0
      [0x00, 0x00, 0xC0, 0x7F, 0x00, 0x00, 0x00, 0x00, 0x00, 0x00, 0x80, 0xFF,
        0x00, 0x00, 0xC0, 0x3F])).1 = 0x63 ∧
    orCategories (ieeeCategory 8 23)
      (mkThread 64 5 0 2 3 1 16 0
        [0x00, 0x00, 0xC0, 0x7F, 0x00, 0x00, 0x00, 0x00, 0x00, 0x00, 0x80, 0xFF,
          0x00, 0x00, 0xC0, 0x3F]).vectors (1 * 64) 4 4 = 0x63 :=
  ⟨by decide,
    (category_reduce_or_of_categories (mkThread 64 5 0 2 3 1 16 0
      [0x00, 0x00, 0xC0, 0x7F, 0x00, 0x00, 0x00, 0x00, 0x00, 0x00, 0x80, 0xFF,
        0x00, 0x00, 0xC0, 0x3F]) (Or.inl (by decide))).1.symm.trans (by decide)⟩

/-! Shifts by an immediate count -/

set_option maxRecDepth 100000 in
/-- C40 (counterexample): for `parm[2] = 0x0100` (IM1 = 0, IM2 = 1) `shifti1_move` returns
IM2 << IM1 = 1, while `shifti1_or` and `shifti1_xor` with RD = 0 and `shifti1_and` with RD all
ones return 0x100: they shift the operand with its low byte cleared, which is IM2 << (IM1 + 8).
No count of 64 or more is involved, so this holds for every parameter record. -/
theorem shifti1_or_xor_and_shift_eight_bits_further (E : Env) :
    (scalarThread 3 0 0x100 0).parm 2 % 256 = 0 ∧ (scalarThread 3 0 0x100 0).parm 2 / 256 = 1 ∧
    (shifti1_move E (scalarThread 3 0 0x100 0)).1 = 1 ∧
    (shifti1_or E (scalarThread 3 0 0x100 0)).1 = 0x100 ∧
    (shifti1_xor E (scalarThread 3 0 0x100 0)).1 = 0x100 ∧
    (shifti1_and E (scalarThread 3 0xFFFFFFFFFFFFFFFF 0x100 0)).1 = 0x100 := by
  refine ⟨by decide, by decide, ?_, ?_, ?_, ?_⟩
  · simp [shifti1_move, shl64, scalarThread]
  · simp [shifti1_or, shl64, scalarThread]
    decide
  · simp [shifti1_xor, shl64, scalarThread]
    decide
  · simp [shifti1_and, shl64, scalarThread]
    decide

/-! Vector length -/

set_option maxRecDepth 100000 in
/-- C31 (counterexample): `set_num` (op 2) at int16 with the count 2 ^ 63 in `registers[rs]` and
16-byte registers. The exact product 2 ^ 63 * 2 = 2 ^ 64 exceeds `MaxVectorLength`, so the
length should become 16; the handler forms the product in 64 bits, gets 0 and sets
`vectorLength[rd] = 0`. -/
theorem set_num_product_wraps_to_zero :
    (mkThread 16 1 2 2 3 1 (2 ^ 63) 0 [1, 2, 3, 4]).registers 3 = 2 ^ 63 ∧
    min (2 ^ 63 * dataSizeTable 1) 16 = 16 ∧
    (set_len (mkThread 16 1 2 2 3 1 (2 ^ 63) 0 [1, 2, 3, 4])).2.vectorLength 2 = 0 := by
  decide

/-! Bit packing: the number of elements -/

set_option maxRecDepth 100000 in
/-- C32 (counterexample): `bits2bool` at int8 with `registers[rs] = 4` (n = 4 elements), 16-byte
registers and a source RT of 3 bytes, all 0xFF. The handler raises `num` to the 24 bits of the
source and writes 24 elements: the bytes 4..7 of RD, zero before the call, become 1, and so do
the first bytes of register 3, which is neither RD nor RT. -/
theorem bits2bool_writes_as_many_elements_as_source_bits :
    min 4 16 / dataSizeTable 0 = 4 ∧
    regBytes (mkThread 16 0 0 2 3 1 4 0 [0xFF, 0xFF, 0xFF]) 2 8 = [0, 0, 0, 0, 0, 0, 0, 0] ∧
    regBytes (bits2bool (mkThread 16 0 0 2 3 1 4 0 [0xFF, 0xFF, 0xFF])).2 2 8 =
      [1, 1, 1, 1, 1, 1, 1, 1] ∧
    regBytes (mkThread 16 0 0 2 3 1 4 0 [0xFF, 0xFF, 0xFF]) 3 2 = [0, 0] ∧
    regBytes (bits2bool (mkThread 16 0 0 2 3 1 4 0 [0xFF, 0xFF, 0xFF])).2 3 2 = [1, 1] := by
  decide

set_option maxRecDepth 100000 in
/-- C33 (counterexample): `bool2bits` at int8. With `registers[rs] = 1` there is n = 1 source
element, and the handler sets `vectorLength[rd] = (1/8 + 3) & -4 = 0`, which holds no bit. With
`registers[rs] = 33` (64-byte registers) there are 33 elements and the length becomes 4 bytes,
which hold 32 bits. -/
theorem bool2bits_length_too_short_for_the_bits :
    min 1 16 >>> dataSizeTableLog 0 = 1 ∧
    (bool2bits (mkThread 16 0 0 2 3 1 1 0 [1])).2.vectorLength 2 = 0 ∧
    ¬ (0 * 8 ≥ 1) ∧
    min 33 64 >>> dataSizeTableLog 0 = 33 ∧
    (bool2bits (mkThread 64 0 0 2 3 1 33 0 [1])).2.vectorLength 2 = 4 ∧
    ¬ (4 * 8 ≥ 33) := by
  decide

/-! Rotates in place -/

set_option maxRecDepth 100000 in
/-- C34 (counterexample): the int8 vector 1, 2 rotated with length 2 (two elements). With the
distinct destination register 2 both `rotate_up` and `rotate_down` give 2, 1. In place (RD = RT
= register 1) the first copy overwrites the element that the second copy reads, and both give
2, 2. Neither copy overlaps its own source here. -/
theorem rotate_in_place_overwrites_its_source :
    regBytes (rotate_up distinctThread).2 2 2 = [2, 1] ∧
    regBytes (rotate_up inPlaceThread).2 1 2 = [2, 2] ∧
    regBytes (rotate_down distinctThread).2 2 2 = [2, 1] ∧
    regBytes (rotate_down inPlaceThread).2 1 2 = [2, 2] ∧
    (rotate_up distinctThread).2.vectorLength 2 = 2 ∧
    (rotate_up inPlaceThread).2.vectorLength 1 = 2 ∧
    (rotate_down distinctThread).2.vectorLength 2 = 2 ∧
    (rotate_down inPlaceThread).2.vectorLength 1 = 2 := by
  decide

/-! Frame of expand -/

set_option maxRecDepth 100000 in
/-- C35 (counterexample): `expand` with zero extension (op 8) from int8 to int16 and 16-byte
registers, RD = register 2, RT = register 1. With `registers[rs] = 4` (N = 4) the lane loop
runs over 4 source bytes and writes 8 bytes of RD: the bytes 4..7 of RD change. With
`registers[rs] = 16` (N = 16) it writes 32 bytes from the start of RD, so the first bytes of
register 3, zero before the call, become 9, 0, 10, 0. -/
theorem expand_writes_twice_the_requested_length :
    regBytes (mkThread 16 1 8 2 3 1 4 0 [1, 2, 3, 4]) 2 8 = [0, 0, 0, 0, 0, 0, 0, 0] ∧
    regBytes (expand sampleEnv (mkThread 16 1 8 2 3 1 4 0 [1, 2, 3, 4])).2 2 8 =
      [1, 0, 2, 0, 3, 0, 4, 0] ∧
    regBytes (mkThread 16 1 8 2 3 1 16 0
      [1, 2, 3, 4, 5, 6, 7, 8, 9, 10, 11, 12, 13, 14, 15, 16]) 3 4 = [0, 0, 0, 0] ∧
    regBytes (expand sampleEnv (mkThread 16 1 8 2 3 1 16 0
      [1, 2, 3, 4, 5, 6, 7, 8, 9, 10, 11, 12, 13, 14, 15, 16])).2 3 4 = [9, 0, 10, 0] := by
  decide

/-! Subtraction with borrow -/

set_option maxRecDepth 100000 in
/-- C36 (counterexample): at int8 `sub_b` with a = 0xFF, b = 0 and borrow-in 0 returns 0xFF and
stores the borrow 1 although 0xFF < 0 + 0 is false: the test `(result & sizeMask) == sizeMask`
sets the borrow whenever the result is all ones. Likewise `add_c` with a = b = 0 and carry-in 0
returns 0 and stores the carry 1 although 0 + 0 + 0 < 2 ^ 8. -/
theorem sub_b_add_c_flag_without_wrap_around :
    (sub_b (carryThread 0xFF 0 0)).1 % 2 ^ 8 = (0xFF - 0 - 0) % 2 ^ 8 ∧
    (sub_b (carryThread 0xFF 0 0)).2.parm 5 = 1 ∧ ¬ (0xFF < 0 + 0) ∧
    (add_c (carryThread 0 0 0)).1 % 2 ^ 8 = (0 + 0 + 0) % 2 ^ 8 ∧
    (add_c (carryThread 0 0 0)).2.parm 5 = 1 ∧ ¬ (0 + 0 + 0 ≥ 2 ^ 8) := by
  decide

/-! Signed division of a double-size dividend: the remainder -/

set_option maxRecDepth 100000 in
/-- C37 (counterexample): signed `div_ex` (op 24) at int8 with the dividend D = 7 (high lane
0x00, low lane 0x07), the divisor b = -2 (0xFE) and the mask bit for signed overflow set. The
handler does not take its overflow outcome (nothing is raised, the result is not the sign bit);
it returns q = -3 and stores r = -1, so q * b + r = 5, not 7, and r has the sign opposite to
the dividend. Truncated division gives q = -3, r = 1. -/
theorem div_ex_signed_remainder_takes_sign_of_quotient :
    toInt 16 (0x00 * 256 + 0x07) = 7 ∧ toInt 8 0xFE = -2 ∧
    (div_ex sampleEnv
      (divExThread 0 24 0x07 0xFE sampleEnv.MSK_OVERFL_SIGN [0x07, 0x00])).2.interrupts = [] ∧
    (div_ex sampleEnv (divExThread 0 24 0x07 0xFE sampleEnv.MSK_OVERFL_SIGN [0x07, 0x00])).1
      ≠ 2 ^ (8 - 1) ∧
    toInt 8 (div_ex sampleEnv
      (divExThread 0 24 0x07 0xFE sampleEnv.MSK_OVERFL_SIGN [0x07, 0x00])).1 = -3 ∧
    toInt 8 ((div_ex sampleEnv
      (divExThread 0 24 0x07 0xFE sampleEnv.MSK_OVERFL_SIGN [0x07, 0x00])).2.parm 5) = -1 ∧
    (-3 : Int) * (-2) + (-1) ≠ 7 ∧
    Int.tdiv 7 (-2) = -3 ∧ (7 : Int) - (-3) * (-2) = 1 := by
  decide

/-! Extraction of an element -/

set_option maxRecDepth 100000 in
/-- C39 (counterexample): `extract_` at int16 with the index 2 ^ 63 and an RT of 2 bytes, 0x34,
0x12. The exact offset 2 ^ 63 * 2 = 2 ^ 64 lies beyond the end of RT, but the handler forms it
in 64 bits, gets 0 and returns the element 0x1234. At int128 with the index 2 ^ 60 it likewise
returns the low word 1 of element 0 and stores the high word 2 in `parm[5]`. -/
theorem extract_index_offset_wraps_to_element_zero :
    (mkThread 16 1 0 2 3 1 (2 ^ 63) 0 [0x34, 0x12]).vectorLength 1 ≤ 2 ^ 63 * dataSizeTable 1 ∧
    (extract_ (mkThread 16 1 0 2 3 1 (2 ^ 63) 0 [0x34, 0x12])).1 = 0x1234 ∧
    (extract_ (mkThread 16 1 0 2 3 1 (2 ^ 63) 0 [0x34, 0x12])).2.vectorLength 2 = 2 ∧
    (mkThread 16 4 0 2 3 1 (2 ^ 60) 0
      [1, 0, 0, 0, 0, 0, 0, 0, 2, 0, 0, 0, 0, 0, 0, 0]).vectorLength 1 ≤
        2 ^ 60 * dataSizeTable 4 ∧
    (extract_ (mkThread 16 4 0 2 3 1 (2 ^ 60) 0
      [1, 0, 0, 0, 0, 0, 0, 0, 2, 0, 0, 0, 0, 0, 0, 0])).1 = 1 ∧
    (mkThread 16 4 0 2 3 1 (2 ^ 60) 0
      [1, 0, 0, 0, 0, 0, 0, 0, 2, 0, 0, 0, 0, 0, 0, 0]).parm 5 = 0 ∧
    (extract_ (mkThread 16 4 0 2 3 1 (2 ^ 60) 0
      [1, 0, 0, 0, 0, 0, 0, 0, 2, 0, 0, 0, 0, 0, 0, 0])).2.parm 5 = 2 := by
  decide

/-! Sparse expand followed by sparse compress -/

/-- The zero store of `expand_sparse` clears the `es` bytes of the element at `D`. -/
theorem sparseZero_apply (es : Nat) (m : Nat → Byte) (D x : Nat)
    (hes : es = 1 ∨ es = 2 ∨ es = 4 ∨ es = 8 ∨ es = 16) :
    sparseZero es m D x = if D ≤ x ∧ x < D + es then 0 else m x := by
  rcases hes with rfl | rfl | rfl | rfl | rfl
  · simp only [sparseZero, writeLE_apply, Nat.zero_div, toByte_zero]
  · simp only [sparseZero, writeLE_apply, Nat.zero_div, toByte_zero]
  · simp only [sparseZero, writeLE_apply, Nat.zero_div, toByte_zero]
  · simp only [sparseZero, writeLE_apply, Nat.zero_div, toByte_zero]
  · simp only [sparseZero, writeLE_apply, Nat.zero_div, toByte_zero]
    by_cases h2 : D + 8 ≤ x ∧ x < D + 8 + 8
    · rw [if_pos h2, if_pos (by omega)]
    · rw [if_neg h2]
      by_cases h1 : D ≤ x ∧ x < D + 8
      · rw [if_pos h1, if_pos (by omega)]
      · rw [if_neg h1, if_neg (by omega)]

/-- Every count below the number of selected lanes is the number of selected lanes before
some selected lane. -/
theorem selectedBefore_index (m : Nat → Byte) (masksrc es : Nat) :
    ∀ c i, i < selectedBefore m masksrc es c →
      ∃ k, k < c ∧ (m (masksrc + k * es)).val % 2 = 1 ∧ selectedBefore m masksrc es k = i := by
  intro c
  induction c with
  | zero =>
    intro i hi
    simp [selectedBefore] at hi
  | succ n ih =>
    intro i hi
    rw [selectedBefore_succ] at hi
    by_cases hb : (m (masksrc + n * es)).val % 2 = 1
    · rw [if_pos hb] at hi
      rcases Nat.lt_or_ge i (selectedBefore m masksrc es n) with h | h
      · obtain ⟨k, hk, hbk, hsk⟩ := ih i h
        exact ⟨k, by omega, hbk, hsk⟩
      · exact ⟨n, by omega, hb, by omega⟩
    · rw [if_neg hb] at hi
      obtain ⟨k, hk, hbk, hsk⟩ := ih i (by omega)
      exact ⟨k, by omega, hbk, hsk⟩

/-- The loop of `expand_sparse` over `c` lanes of `es` bytes that fit a register of `M` bytes,
with the destination distinct from the source and from the mask: `pos2` ends at `c * es`, the
bytes outside the `c` lanes of the destination are unchanged, and lane `k` of the destination
holds the source lane whose index is the number of selected lanes before `k` when the mask lane
`k` has bit 0 set, and zero otherwise. -/
theorem expandSparse_loop (mem0 : Nat → Byte) (es M rd rt rm c : Nat)
    (hes : es = 1 ∨ es = 2 ∨ es = 4 ∨ es = 8 ∨ es = 16) (hN : c * es ≤ M)
    (hdt : rd ≠ rt) (hdm : rd ≠ rm) :
    (forLoop (c * es) es (expandSparseBody es (rm * M) (rt * M) (rd * M)) (c * es) 0
        (mem0, 0, 0)).2.2 = c * es ∧
    (∀ x, (x < rd * M ∨ rd * M + c * es ≤ x) →
      (forLoop (c * es) es (expandSparseBody es (rm * M) (rt * M) (rd * M)) (c * es) 0
        (mem0, 0, 0)).1 x = mem0 x) ∧
    ∀ k, k < c → ∀ j, j < es →
      (forLoop (c * es) es (expandSparseBody es (rm * M) (rt * M) (rd * M)) (c * es) 0
          (mem0, 0, 0)).1 (rd * M + k * es + j) =
        if (mem0 (rm * M + k * es)).val % 2 = 1
        then mem0 (rt * M + es * selectedBefore mem0 (rm * M) es k + j) else 0 := by
  have hes0 : 0 < es := by omega
  have key := forLoop_invariant (c * es) es (expandSparseBody es (rm * M) (rt * M) (rd * M))
    (fun pos s => ∃ k0, pos = k0 * es ∧ k0 ≤ c ∧ s.2.2 = pos ∧
      s.2.1 = es * selectedBefore mem0 (rm * M) es k0 ∧
      (∀ x, (x < rd * M ∨ rd * M + pos ≤ x) → s.1 x = mem0 x) ∧
      ∀ k, k < k0 → ∀ j, j < es → s.1 (rd * M + k * es + j) =
        if (mem0 (rm * M + k * es)).val % 2 = 1
        then mem0 (rt * M + es * selectedBefore mem0 (rm * M) es k + j) else 0)
    hes0 ?_ (c * es) 0 (mem0, 0, 0) (by omega)
    ⟨0, by simp, by omega, rfl, by simp [selectedBefore], fun _ _ => rfl,
      fun k hk => absurd hk (by omega)⟩
  · obtain ⟨P, hP, k0, hPk, hk0, h22, -, hframe, hlanes⟩ := key
    have hle : k0 * es ≤ c * es := Nat.mul_le_mul_right es hk0
    have hPc : P = c * es := by omega
    have hk0c : k0 = c := by
      have : k0 * es = c * es := by omega
      exact Nat.eq_of_mul_eq_mul_right hes0 this
    subst hk0c
    refine ⟨by rw [h22, hPc], ?_, hlanes⟩
    intro x hx
    exact hframe x (by omega)
  · rintro pos ⟨m, p1, p2⟩ hpos ⟨k0, hk, hk0, h22, h21, hframe, hlanes⟩
    simp only at h22 h21 hframe hlanes
    have hk0c : k0 < c := by
      by_contra hcon
      have : c * es ≤ k0 * es := Nat.mul_le_mul_right es (by omega)
      omega
    have hfit : pos + es ≤ c * es := by
      have : (k0 + 1) * es ≤ c * es := Nat.mul_le_mul_right es hk0c
      rw [Nat.succ_mul] at this
      omega
    have hcnt := selectedBefore_le mem0 (rm * M) es k0
    have hp1 : p1 ≤ pos := by
      rw [h21, hk, Nat.mul_comm k0 es]
      exact Nat.mul_le_mul_left es hcnt
    have hsucc : (k0 + 1) * es = pos + es := by rw [Nat.succ_mul, hk]
    have hmask : m (rm * M + pos) = mem0 (rm * M + k0 * es) := by
      rw [← hk]
      apply hframe
      rcases reg_sep M hdm with h | h
      · right
        omega
      · left
        omega
    have hsrc : ∀ j, j < es → m (rt * M + p1 + j) = mem0 (rt * M + p1 + j) := by
      intro j hj
      apply hframe
      rcases reg_sep M hdt with h | h
      · right
        omega
      · left
        omega
    have hsep : rd * M + pos ≤ rt * M + p1 ∨ rt * M + p1 + es ≤ rd * M + pos := by
      rcases reg_sep M hdt with h | h
      · left
        omega
      · right
        omega
    have hold : ∀ k, k < k0 → ∀ j, j < es → rd * M + k * es + j < rd * M + pos := by
      intro k hk1 j hj
      have : (k + 1) * es ≤ k0 * es := Nat.mul_le_mul_right es hk1
      rw [Nat.succ_mul] at this
      omega
    by_cases hb : (mem0 (rm * M + k0 * es)).val % 2 = 1
    · have hcond : (m (rm * M + pos)).val &&& 1 ≠ 0 := by
        rw [hmask, Nat.and_one_is_mod]
        omega
      simp only [expandSparseBody, if_pos hcond]
      refine ⟨k0 + 1, hsucc.symm, by omega, trivial, ?_, ?_, ?_⟩
      · rw [selectedBefore_succ, if_pos hb, Nat.mul_add, Nat.mul_one, h21]
      · intro x hx
        rw [sparseCopy_apply es m _ _ x hes hsep, if_neg (by omega)]
        exact hframe x (by omega)
      · intro k hk1 j hj
        rw [sparseCopy_apply es m _ _ _ hes hsep]
        rcases Nat.lt_or_ge k k0 with hkc | hkc
        · have := hold k hkc j hj
          rw [if_neg (by omega)]
          exact hlanes k hkc j hj
        · have hkc2 : k = k0 := by omega
          subst hkc2
          rw [if_pos (by omega), if_pos hb, ← h21]
          rw [show rt * M + p1 + (rd * M + k * es + j - (rd * M + pos)) = rt * M + p1 + j by omega]
          exact hsrc j hj
    · have hcond : ¬ (m (rm * M + pos)).val &&& 1 ≠ 0 := by
        rw [hmask, Nat.and_one_is_mod]
        omega
      simp only [expandSparseBody, if_neg hcond]
      refine ⟨k0 + 1, hsucc.symm, by omega, trivial, ?_, ?_, ?_⟩
      · rw [selectedBefore_succ, if_neg hb, Nat.add_zero, h21]
      · intro x hx
        rw [sparseZero_apply es m _ x hes, if_neg (by omega)]
        exact hframe x (by omega)
      · intro k hk1 j hj
        rw [sparseZero_apply es m _ _ hes]
        rcases Nat.lt_or_ge k k0 with hkc | hkc
        · have := hold k hkc j hj
          rw [if_neg (by omega)]
          exact hlanes k hkc j hj
        · have hkc2 : k = k0 := by omega
          subst hkc2
          rw [if_pos (by omega), if_neg hb]

/-- The loop of `compress_sparse` over a scanned length `N` whose lanes all fit a register of
`M` bytes: it ends after `c` lanes, `c` the number of lanes at offsets below `N`; `pos2` is then
the size of the selected lanes, and every selected lane `k` of the source (as it is before the
loop) is in the destination at the offset given by the number of selected lanes before it. -/
theorem compressSparse_loop_fit (mem0 : Nat → Byte) (es M rd rt rm N : Nat)
    (hes : es = 1 ∨ es = 2 ∨ es = 4 ∨ es = 8 ∨ es = 16)
    (hfit : ∀ c, c * es < N → c * es + es ≤ M) :
    ∃ c, N ≤ c * es ∧ c * es < N + es ∧
      (forLoop N es (compressSparseBody es (rm * M) (rt * M) (rd * M)) N 0 (mem0, 0)).2 =
        es * selectedBefore mem0 (rm * M) es c ∧
      ∀ k, k < c → (mem0 (rm * M + k * es)).val % 2 = 1 → ∀ j, j < es →
        (forLoop N es (compressSparseBody es (rm * M) (rt * M) (rd * M)) N 0 (mem0, 0)).1
            (rd * M + es * selectedBefore mem0 (rm * M) es k + j) =
          mem0 (rt * M + k * es + j) := by
  have hes0 : 0 < es := by omega
  have key := forLoop_invariant N es (compressSparseBody es (rm * M) (rt * M) (rd * M))
    (fun pos s => ∃ c, pos = c * es ∧ pos < N + es ∧
      s.2 = es * selectedBefore mem0 (rm * M) es c ∧
      (∀ x, (x < rd * M ∨ rd * M + s.2 ≤ x) → s.1 x = mem0 x) ∧
      ∀ k, k < c → (mem0 (rm * M + k * es)).val % 2 = 1 → ∀ j, j < es →
        s.1 (rd * M + es * selectedBefore mem0 (rm * M) es k + j) = mem0 (rt * M + k * es + j))
    hes0 ?_ N 0 (mem0, 0) (by omega)
    ⟨0, by simp, by omega, by simp [selectedBefore], fun _ _ => rfl,
      fun k hk => absurd hk (by omega)⟩
  · obtain ⟨P, hP, c, hPc, hPlt, h2, -, hcopy⟩ := key
    exact ⟨c, by omega, by omega, h2, hcopy⟩
  · rintro pos ⟨m, p2⟩ hpos ⟨c, hc, -, h2, hframe, hcopy⟩
    simp only at h2 hframe hcopy
    have hcnt := selectedBefore_le mem0 (rm * M) es c
    have hp2 : p2 ≤ pos := by
      rw [h2, hc, Nat.mul_comm c es]
      exact Nat.mul_le_mul_left es hcnt
    have hposM : pos + es ≤ M := by
      have := hfit c (hc ▸ hpos)
      omega
    have hmask : m (rm * M + pos) = mem0 (rm * M + c * es) := by
      rw [← hc]
      apply hframe
      by_cases hr : rm = rd
      · subst hr
        right
        omega
      · rcases reg_sep M hr with h | h
        · left
          omega
        · right
          omega
    have hsucc : (c + 1) * es = pos + es := by rw [Nat.succ_mul, hc]
    by_cases hb : (mem0 (rm * M + c * es)).val % 2 = 1
    · have hcond : (m (rm * M + pos)).val &&& 1 ≠ 0 := by
        rw [hmask, Nat.and_one_is_mod]
        omega
      have hsep : rd * M + p2 ≤ rt * M + pos ∨ rt * M + pos + es ≤ rd * M + p2 := by
        by_cases hr : rd = rt
        · subst hr
          left
          omega
        · rcases reg_sep M hr with h | h
          · left
            omega
          · right
            omega
      have hsrc : ∀ j, j < es → m (rt * M + pos + j) = mem0 (rt * M + c * es + j) := by
        intro j hj
        rw [← hc]
        apply hframe
        by_cases hr : rt = rd
        · subst hr
          right
          omega
        · rcases reg_sep M hr with h | h
          · left
            omega
          · right
            omega
      simp only [compressSparseBody, if_pos hcond]
      refine ⟨c + 1, hsucc.symm, by omega, ?_, ?_, ?_⟩
      · rw [selectedBefore_succ, if_pos hb, Nat.mul_add, Nat.mul_one, h2]
      · intro x hx
        rw [sparseCopy_apply es m _ _ x hes hsep, if_neg (by omega)]
        exact hframe x (by omega)
      · intro k hk hbk j hj
        rw [sparseCopy_apply es m _ _ _ hes hsep]
        rcases Nat.lt_or_ge k c with hkc | hkc
        · have h1 := selectedBefore_mono mem0 (rm * M) es (k + 1) c (by omega)
          rw [selectedBefore_succ, if_pos hbk] at h1
          have h3 : es * (selectedBefore mem0 (rm * M) es k + 1) ≤
              es * selectedBefore mem0 (rm * M) es c := Nat.mul_le_mul_left es h1
          rw [Nat.mul_add, Nat.mul_one, ← h2] at h3
          rw [if_neg (by omega)]
          exact hcopy k hkc hbk j hj
        · have hkc2 : k = c := by omega
          subst hkc2
          rw [← h2, if_pos (by omega)]
          rw [show rt * M + pos + (rd * M + p2 + j - (rd * M + p2)) = rt * M + pos + j by omega]
          exact hsrc j hj
    · have hcond : ¬ (m (rm * M + pos)).val &&& 1 ≠ 0 := by
        rw [hmask, Nat.and_one_is_mod]
        omega
      simp only [compressSparseBody, if_neg hcond]
      refine ⟨c + 1, hsucc.symm, by omega, ?_, hframe, ?_⟩
      · rw [selectedBefore_succ, if_neg hb, Nat.add_zero, h2]
      · intro k hk hbk j hj
        have hkc : k < c := by
          rcases Nat.lt_or_ge k c with h | h
          · exact h
          · have : k = c := by omega
            subst this
            exact absurd hbk hb
        exact hcopy k hkc hbk j hj

theorem zeroFill_self (m : Nat → Byte) (src L : Nat) : zeroFill m src L L = m := by
  unfold zeroFill
  rw [if_neg (by omega)]

/-- C38: for every operand type 0..6 with element size `es`, with `registers[rs]` a multiple
of `es` that exceeds neither `MaxVectorLength` (below 2 ^ 32) nor the length of the mask RM,
and RD, RT, RM of `expand_sparse` distinct: `expand_sparse` followed by `compress_sparse` of its
destination under the same mask and `registers[rs]` (into any register) yields a vector of
length `p * es`, `p` the number of mask lanes below `registers[rs]` with bit 0 set, whose bytes
are the first `p * es` bytes of the source RT, zero beyond the length of RT. -/
theorem expand_sparse_compress_sparse_roundtrip (t t2 : CThread)
    (hot : t.operandType ≤ 6) (hM : t.MaxVectorLength < 2 ^ 32)
    (hdvd : dataSizeTable t.operandType ∣ t.registers (t.operands 4))
    (hRM : t.registers (t.operands 4) ≤ t.MaxVectorLength)
    (hRm : t.registers (t.operands 4) ≤ t.vectorLength (t.operands 1))
    (hdt : t.operands 0 ≠ t.operands 5) (hdm : t.operands 0 ≠ t.operands 1)
    (htm : t.operands 5 ≠ t.operands 1)
    (h2s : SameVectors (expand_sparse t).2 t2) (h2ot : t2.operandType = t.operandType)
    (h2rt : t2.operands 5 = t.operands 0) (h2rm : t2.operands 1 = t.operands 1)
    (h2k : t2.registers (t2.operands 4) = t.registers (t.operands 4)) :
    (compress_sparse t2).2.vectorLength (t2.operands 0) =
      selectedBefore t.vectors (t.operands 1 * t.MaxVectorLength) (dataSizeTable t.operandType)
          (t.registers (t.operands 4) / dataSizeTable t.operandType) *
        dataSizeTable t.operandType ∧
    ∀ x, x < selectedBefore t.vectors (t.operands 1 * t.MaxVectorLength)
          (dataSizeTable t.operandType)
          (t.registers (t.operands 4) / dataSizeTable t.operandType) *
        dataSizeTable t.operandType →
      (compress_sparse t2).2.vectors (t2.operands 0 * t.MaxVectorLength + x) =
        if x < t.vectorLength (t.operands 5)
        then t.vectors (t.operands 5 * t.MaxVectorLength + x) else 0 := by
  obtain ⟨hv, hl, hm⟩ := h2s
  have hm2 : t2.MaxVectorLength = t.MaxVectorLength := hm
  have hes := dataSizeTable_cases t.operandType hot
  have hand : t.operandType &&& 7 = t.operandType :=
    (by decide : ∀ n, n ≤ 6 → n &&& 7 = n) t.operandType hot
  generalize hesd : dataSizeTable t.operandType = es at hes hdvd ⊢
  have hes0 : 0 < es := by omega
  obtain ⟨c, hc⟩ := hdvd
  have hRc : t.registers (t.operands 4) = c * es := by rw [hc, Nat.mul_comm]
  have hcdiv : t.registers (t.operands 4) / es = c := by
    rw [hRc]
    exact Nat.mul_div_cancel c hes0
  rw [hcdiv]
  rw [hRc] at hRM hRm h2k
  have hlen1 : compressSparseLength t = c * es := by
    simp only [compressSparseLength, hRc]
    split_ifs <;> omega
  have hfin1 : expandSparseFinal t =
      forLoop (c * es) es (expandSparseBody es (t.operands 1 * t.MaxVectorLength)
        (t.operands 5 * t.MaxVectorLength) (t.operands 0 * t.MaxVectorLength)) (c * es) 0
        (zeroFill t.vectors (t.operands 5 * t.MaxVectorLength) (t.vectorLength (t.operands 5))
          (c * es), 0, 0) := by
    simp only [expandSparseFinal, hlen1, hand, hesd]
  obtain ⟨e1, e2, e3⟩ := expandSparse_loop
    (zeroFill t.vectors (t.operands 5 * t.MaxVectorLength) (t.vectorLength (t.operands 5))
      (c * es)) es t.MaxVectorLength (t.operands 0) (t.operands 5) (t.operands 1) c hes hRM
    hdt hdm
  rw [← hfin1] at e1 e2 e3
  have hv2 : t2.vectors = (expandSparseFinal t).1 := hv
  have hl2 : ∀ r, t2.vectorLength r =
      if r = t.operands 0 then (expandSparseFinal t).2.2 % 2 ^ 32 else t.vectorLength r := by
    intro r
    rw [hl]
    rfl
  have hLd : t2.vectorLength (t.operands 0) = c * es := by
    rw [hl2, if_pos rfl, e1]
    exact Nat.mod_eq_of_lt (by omega)
  have hLm : t2.vectorLength (t.operands 1) = t.vectorLength (t.operands 1) := by
    rw [hl2, if_neg (Ne.symm hdm)]
  have hlen2 : compressSparseLength t2 = c * es := by
    simp only [compressSparseLength, h2k, hm2, h2rm, hLm]
    split_ifs <;> omega
  have hfin2 : compressSparseFinal t2 =
      forLoop (c * es) es (compressSparseBody es (t.operands 1 * t.MaxVectorLength)
        (t.operands 0 * t.MaxVectorLength) (t2.operands 0 * t.MaxVectorLength)) (c * es) 0
        ((expandSparseFinal t).1, 0) := by
    simp only [compressSparseFinal, hlen2, h2ot, hesd, hm2, h2rt, h2rm, hLd, zeroFill_self, hv2]
  have hfit : ∀ k, k * es < c * es → k * es + es ≤ t.MaxVectorLength := by
    intro k hk
    have hkc : k < c := Nat.lt_of_mul_lt_mul_right hk
    have : (k + 1) * es ≤ c * es := Nat.mul_le_mul_right es hkc
    rw [Nat.succ_mul] at this
    omega
  obtain ⟨c2, hc1, hc2, hlen, hcopy⟩ := compressSparse_loop_fit (expandSparseFinal t).1
    es t.MaxVectorLength (t2.operands 0) (t.operands 0) (t.operands 1) (c * es) hes hfit
  rw [← hfin2] at hlen hcopy
  have hc2c : c2 = c := by
    have h1 : c ≤ c2 := Nat.le_of_mul_le_mul_right hc1 hes0
    have h2 : c2 * es < (c + 1) * es := by
      rw [Nat.succ_mul]
      exact hc2
    have h3 : c2 < c + 1 := Nat.lt_of_mul_lt_mul_right h2
    omega
  subst hc2c
  have hlt : ∀ k, k < c2 → k * es + es ≤ c2 * es := by
    intro k hk
    have : (k + 1) * es ≤ c2 * es := Nat.mul_le_mul_right es hk
    rw [Nat.succ_mul] at this
    exact this
  -- the mask lanes are the same in the three buffers
  have hmask0 : ∀ k, k < c2 →
      zeroFill t.vectors (t.operands 5 * t.MaxVectorLength) (t.vectorLength (t.operands 5))
          (c2 * es) (t.operands 1 * t.MaxVectorLength + k * es) =
        t.vectors (t.operands 1 * t.MaxVectorLength + k * es) := by
    intro k hk
    have hk2 := hlt k hk
    unfold zeroFill
    by_cases hf : c2 * es > t.vectorLength (t.operands 5)
    · rw [if_pos hf, memset_apply, if_neg]
      rcases reg_sep t.MaxVectorLength htm with h | h <;> omega
    · rw [if_neg hf]
  have hmask1 : ∀ k, k < c2 →
      (expandSparseFinal t).1 (t.operands 1 * t.MaxVectorLength + k * es) =
        t.vectors (t.operands 1 * t.MaxVectorLength + k * es) := by
    intro k hk
    have hk2 := hlt k hk
    rw [e2 _ (by rcases reg_sep t.MaxVectorLength hdm with h | h <;> omega)]
    exact hmask0 k hk
  have hsel1 := selectedBefore_congr _ t.vectors (t.operands 1 * t.MaxVectorLength) es c2 hmask1
  have hsel0 := selectedBefore_congr _ t.vectors (t.operands 1 * t.MaxVectorLength) es c2 hmask0
  have hcnt := selectedBefore_le t.vectors (t.operands 1 * t.MaxVectorLength) es c2
  have hple : selectedBefore t.vectors (t.operands 1 * t.MaxVectorLength) es c2 * es ≤ c2 * es :=
    Nat.mul_le_mul_right es hcnt
  refine ⟨?_, ?_⟩
  · simp only [compress_sparse, if_true, hlen, hsel1 c2 (le_refl c2)]
    rw [Nat.mul_comm es]
    exact Nat.mod_eq_of_lt (by omega)
  · intro x hx
    have hi : x / es < selectedBefore t.vectors (t.operands 1 * t.MaxVectorLength) es c2 :=
      (Nat.div_lt_iff_lt_mul hes0).2 hx
    obtain ⟨k, hk, hbk, hsk⟩ := selectedBefore_index t.vectors _ es c2 _ hi
    have hj : x % es < es := Nat.mod_lt _ hes0
    have hxd : es * (x / es) + x % es = x := Nat.div_add_mod x es
    have hb1 : ((expandSparseFinal t).1 (t.operands 1 * t.MaxVectorLength + k * es)).val % 2
        = 1 := by
      rw [hmask1 k hk]
      exact hbk
    have hb0 : ((zeroFill t.vectors (t.operands 5 * t.MaxVectorLength)
        (t.vectorLength (t.operands 5)) (c2 * es))
          (t.operands 1 * t.MaxVectorLength + k * es)).val % 2 = 1 := by
      rw [hmask0 k hk]
      exact hbk
    have ea : ∀ A, A + es * (x / es) + x % es = A + x := by
      intro A
      rw [Nat.add_assoc, hxd]
    have h1 := hcopy k hk hb1 (x % es) hj
    rw [hsel1 k (le_of_lt hk), hsk, ea] at h1
    have h2 := e3 k hk (x % es) hj
    rw [if_pos hb0, hsel0 k (le_of_lt hk), hsk, ea, zeroFill_byte] at h2
    simp only [compress_sparse]
    rw [h1, h2]
    by_cases hxl : x < t.vectorLength (t.operands 5)
    · rw [if_pos hxl, if_neg (by omega)]
    · rw [if_neg hxl, if_pos (by omega)]

set_option maxRecDepth 100000 in
/-- C38 at a concrete input: at int8 the source 0x11, 0x22 expanded under the mask 1, 0, 1, 1
with `registers[rs] = 4` and compressed again under the same mask gives a vector of length 3
with the bytes 0x11, 0x22, 0: the first three lanes of the source, zero beyond its length. -/
theorem expand_sparse_compress_sparse_roundtrip_witness :
    (compress_sparse compressSparseNext).2.vectorLength 5 = 3 ∧
    ∀ x, x < 3 →
      (compress_sparse compressSparseNext).2.vectors (5 * 16 + x) =
        if x < 2 then expandSparseThread.vectors (1 * 16 + x) else 0 :=
  expand_sparse_compress_sparse_roundtrip expandSparseThread compressSparseNext (by decide)
    (by decide) (by decide) (by decide) (by decide) (by decide) (by decide) (by decide)
    ⟨rfl, rfl, rfl⟩ rfl rfl rfl rfl

end ForwardCom
